import Mathlib

set_option maxHeartbeats 1000000

/-!
Verification development for the dark_labyrinth computational core.

The Rust sources (src/geometrie.rs, src/game.rs) are shallowly embedded below.
Floating point scalars (`f32`) are modelled by exact rationals `ℚ` (and by `ℝ`
where a square root is taken); machine `usize` lattice coordinates by `ℕ`.
-/

namespace DL

/-- Point from src/geometrie.rs: a 2D coordinate generic over the scalar type. -/
structure Point (α : Type) where
  x : α
  y : α
deriving DecidableEq

/-- Line from src/geometrie.rs: a segment given by its two endpoints. -/
structure Line (α : Type) where
  a : Point α
  b : Point α
deriving DecidableEq

instance {α : Type} [Add α] : Add (Point α) :=
  ⟨fun p q => ⟨p.x + q.x, p.y + q.y⟩⟩

instance {α : Type} [Sub α] : Sub (Point α) :=
  ⟨fun p q => ⟨p.x - q.x, p.y - q.y⟩⟩

instance {α : Type} [Mul α] : HMul (Point α) α (Point α) :=
  ⟨fun p s => ⟨p.x * s, p.y * s⟩⟩

instance {α : Type} [Div α] : HDiv (Point α) α (Point α) :=
  ⟨fun p s => ⟨p.x / s, p.y / s⟩⟩

instance {α : Type} [Mul α] : HMul (Line α) α (Line α) :=
  ⟨fun l s => ⟨l.a * s, l.b * s⟩⟩

/-- Dot product of two points, as in src/geometrie.rs. -/
def Point.dot {α : Type} [Add α] [Mul α] (p q : Point α) : α :=
  p.x * q.x + p.y * q.y

/-- Cross product of two points, as in src/geometrie.rs. -/
def Point.cross {α : Type} [Sub α] [Mul α] (p q : Point α) : α :=
  p.x * q.y - p.y * q.x

/-- Orientation from src/geometrie.rs; note the source labels a segment with
equal x coordinates Horizontal and everything else Vertical. -/
inductive Orientation where
  | Vertical
  | Horizontal
deriving DecidableEq

/-- Line::orientation from src/geometrie.rs. -/
def Line.orientation {α : Type} [DecidableEq α] (l : Line α) : Orientation :=
  if l.a.x = l.b.x then Orientation.Horizontal else Orientation.Vertical

/-- Line::shares_endpoint from src/geometrie.rs. -/
def Line.shares_endpoint {α : Type} [DecidableEq α] (l o : Line α) : Bool :=
  decide (l.a = o.a) || decide (l.a = o.b) || decide (l.b = o.a) || decide (l.b = o.b)

/-- Line::extends from src/geometrie.rs (`extends` is a Lean keyword, hence the
trailing underscore): shares an endpoint and has the same orientation. -/
def Line.extends_ {α : Type} [DecidableEq α] (l o : Line α) : Bool :=
  l.shares_endpoint o && decide (l.orientation = o.orientation)

/-- Line::ccw from src/geometrie.rs: the strict counter-clockwise test on three
points, collinear triples yielding false. -/
def Line.ccw (a b c : Point ℚ) : Bool :=
  decide ((c.y - a.y) * (b.x - a.x) > (b.y - a.y) * (c.x - a.x))

/-- Line::contains from src/geometrie.rs.  Rust's `self.a.x..=self.b.x` is the
inclusive range, which is empty when `self.a.x > self.b.x`. -/
def Line.contains (s o : Line ℚ) : Bool :=
  decide (s.orientation = o.orientation)
    && decide (s.a.x ≤ o.a.x ∧ o.a.x ≤ s.b.x)
    && decide (s.a.y ≤ o.a.y ∧ o.a.y ≤ s.b.y)
    && decide (s.a.x ≤ o.b.x ∧ o.b.x ≤ s.b.x)
    && decide (s.a.y ≤ o.b.y ∧ o.b.y ≤ s.b.y)

/-- Line::intersects from src/geometrie.rs: the two ccw sign tests. -/
def Line.intersects (s o : Line ℚ) : Bool :=
  let p1 := s.a
  let p2 := s.b
  let p3 := o.a
  let p4 := o.b
  (Line.ccw p1 p3 p4 != Line.ccw p2 p3 p4) && (Line.ccw p1 p2 p3 != Line.ccw p1 p2 p4)

/-- Line::intersection from src/geometrie.rs.  The source divides by `d` in
f32; when `d = 0` the quotients are NaN or infinite and fail the inclusive
range test `0 ≤ t ≤ 1`, so the function returns None.  Exact rationals have no
non-finite values, so that outcome is rendered as the explicit first branch. -/
def Line.intersection (s o : Line ℚ) : Option (Point ℚ) :=
  let p1 := s.a
  let p2 := s.b
  let p3 := o.a
  let p4 := o.b
  let d := (p1.x - p2.x) * (p3.y - p4.y) - (p1.y - p2.y) * (p3.x - p4.x)
  if d = 0 then none
  else
    let t := ((p1.x - p3.x) * (p3.y - p4.y) - (p1.y - p3.y) * (p3.x - p4.x)) / d
    let u := -((p1.x - p2.x) * (p1.y - p3.y) - (p1.y - p2.y) * (p1.x - p3.x)) / d
    if 0 ≤ t ∧ t ≤ 1 ∧ 0 ≤ u ∧ u ≤ 1 then
      some ⟨p1.x + t * (p2.x - p1.x), p1.y + t * (p2.y - p1.y)⟩
    else none

/-- Reversal of a segment (spec-side helper for stating direction invariance). -/
def Line.rev {α : Type} (l : Line α) : Line α :=
  ⟨l.b, l.a⟩

@[simp] lemma Point.add_x {α : Type} [Add α] (p q : Point α) : (p + q).x = p.x + q.x := rfl

@[simp] lemma Point.add_y {α : Type} [Add α] (p q : Point α) : (p + q).y = p.y + q.y := rfl

@[simp] lemma Point.sub_x {α : Type} [Sub α] (p q : Point α) : (p - q).x = p.x - q.x := rfl

@[simp] lemma Point.sub_y {α : Type} [Sub α] (p q : Point α) : (p - q).y = p.y - q.y := rfl

@[simp] lemma Point.smul_x {α : Type} [Mul α] (p : Point α) (s : α) : (p * s).x = p.x * s := rfl

@[simp] lemma Point.smul_y {α : Type} [Mul α] (p : Point α) (s : α) : (p * s).y = p.y * s := rfl

@[simp] lemma Point.sdiv_x {α : Type} [Div α] (p : Point α) (s : α) : (p / s).x = p.x / s := rfl

@[simp] lemma Point.sdiv_y {α : Type} [Div α] (p : Point α) (s : α) : (p / s).y = p.y / s := rfl

/-- C3: whenever the intersection denominator d vanishes (parallel or degenerate
segments), Line::intersection reports no intersection rather than a division
error: the f32 quotients by d = 0 are NaN or infinite and fail the range test. -/
theorem C3_intersection_degenerate (s o : Line ℚ)
    (h : (s.a.x - s.b.x) * (o.a.y - o.b.y) - (s.a.y - s.b.y) * (o.a.x - o.b.x) = 0) :
    s.intersection o = none := by
  simp [Line.intersection, h]

/-- Witness for C3 at the spec's parallel example: segments (0,0)-(10,0) and
(0,1)-(10,1) have denominator 0 and no intersection. -/
theorem C3_intersection_degenerate_witness :
    (((0 : ℚ) - 10) * (1 - 1) - (0 - 0) * (0 - 10) = 0) ∧
      Line.intersection ⟨⟨0, 0⟩, ⟨10, 0⟩⟩ ⟨⟨0, 1⟩, ⟨10, 1⟩⟩ = none :=
  ⟨by norm_num, C3_intersection_degenerate ⟨⟨0, 0⟩, ⟨10, 0⟩⟩ ⟨⟨0, 1⟩, ⟨10, 1⟩⟩ (by norm_num)⟩

/-- C10 counterexample: the segments (5,0)-(5,5) and (0,0)-(10,0) merely touch
(the endpoint (5,0) of the first lies strictly inside the second, interiors do
not cross), yet Line::intersects reports true, refuting the claim that all
touching configurations yield false. -/
theorem C10_counterexample :
    Line.intersects ⟨⟨5, 0⟩, ⟨5, 5⟩⟩ ⟨⟨0, 0⟩, ⟨10, 0⟩⟩ = true ∧
      (⟨5, 0⟩ : Point ℚ).y = (⟨0, 0⟩ : Point ℚ).y ∧
      (0 : ℚ) < 5 ∧ (5 : ℚ) < 10 ∧ (0 : ℚ) < (5 : ℚ) := by
  refine ⟨by simp [Line.intersects, Line.ccw]; norm_num, rfl, by norm_num⟩

/-- Reformulation of Line::intersects as a proposition about the two pairs of
strict ccw sign tests. -/
lemma intersects_eq_true_iff (s o : Line ℚ) :
    s.intersects o = true ↔
      (¬(((o.b.y - s.a.y) * (o.a.x - s.a.x) > (o.a.y - s.a.y) * (o.b.x - s.a.x)) ↔
         ((o.b.y - s.b.y) * (o.a.x - s.b.x) > (o.a.y - s.b.y) * (o.b.x - s.b.x)))) ∧
      (¬(((o.a.y - s.a.y) * (s.b.x - s.a.x) > (s.b.y - s.a.y) * (o.a.x - s.a.x)) ↔
         ((o.b.y - s.a.y) * (s.b.x - s.a.x) > (s.b.y - s.a.y) * (o.b.x - s.a.x)))) := by
  simp [Line.intersects, Line.ccw, bne_iff_ne, ne_eq, decide_eq_decide]

set_option linter.unnecessarySeqFocus false in
/-- C10 amended: Line::intersects returns false when the second segment is
collinear with the first (which covers collinear overlaps and zero-length
segments) and when the segments share an endpoint in the same role
(s.a = o.a or s.b = o.b), and it returns true on every proper strict crossing
(each segment's endpoints strictly on opposite sides of the other's supporting
line); other touching configurations can be reported as crossings, as the
counterexample shows. -/
theorem C10_intersects_strictness (s o : Line ℚ) :
    ((s.b - s.a).cross (o.a - s.a) = 0 ∧ (s.b - s.a).cross (o.b - s.a) = 0 →
      s.intersects o = false) ∧
    (s.a = o.a → s.intersects o = false) ∧
    (s.b = o.b → s.intersects o = false) ∧
    ((o.b - o.a).cross (s.a - o.a) * ((o.b - o.a).cross (s.b - o.a)) < 0 ∧
      (s.b - s.a).cross (o.a - s.a) * ((s.b - s.a).cross (o.b - s.a)) < 0 →
      s.intersects o = true) := by
  obtain ⟨⟨x1, y1⟩, ⟨x2, y2⟩⟩ := s
  obtain ⟨⟨x3, y3⟩, ⟨x4, y4⟩⟩ := o
  simp only [Point.cross, Point.sub_x, Point.sub_y, Point.mk.injEq]
  refine ⟨?_, ?_, ?_, ?_⟩
  · rintro ⟨h1, h2⟩
    rw [← Bool.not_eq_true, intersects_eq_true_iff, not_and_or, not_not, not_not]
    right
    constructor <;> intro h <;> nlinarith
  · rintro ⟨hx, hy⟩
    subst hx; subst hy
    rw [← Bool.not_eq_true, intersects_eq_true_iff, not_and_or, not_not, not_not]
    by_cases hB : ((y4 - y2) * (x1 - x2) > (y1 - y2) * (x4 - x2))
    · right
      constructor <;> intro h <;> nlinarith
    · left
      constructor <;> intro h <;> [skip; exact absurd h hB] <;> nlinarith
  · rintro ⟨hx, hy⟩
    subst hx; subst hy
    rw [← Bool.not_eq_true, intersects_eq_true_iff, not_and_or, not_not, not_not]
    by_cases hA : ((y2 - y1) * (x3 - x1) > (y3 - y1) * (x2 - x1))
    · right
      constructor <;> intro h <;> nlinarith
    · left
      constructor <;> intro h <;> [exact absurd h (by nlinarith); skip] <;> nlinarith
  · rintro ⟨h1, h2⟩
    rw [intersects_eq_true_iff]
    rw [mul_neg_iff] at h1 h2
    constructor
    · rcases h1 with ⟨ha, hb⟩ | ⟨ha, hb⟩ <;> intro h <;>
        [exact absurd (h.mp (by nlinarith)) (by nlinarith);
         exact absurd (h.mpr (by nlinarith)) (by nlinarith)]
    · rcases h2 with ⟨ha, hb⟩ | ⟨ha, hb⟩ <;> intro h <;>
        [exact absurd (h.mp (by nlinarith)) (by nlinarith);
         exact absurd (h.mpr (by nlinarith)) (by nlinarith)]

/-- Witness for C10 at the spec's proper-crossing example: (0,0)-(10,0) and
(5,-5)-(5,5) cross strictly and intersects reports true. -/
theorem C10_intersects_strictness_witness :
    Line.intersects ⟨⟨0, 0⟩, ⟨10, 0⟩⟩ ⟨⟨5, -5⟩, ⟨5, 5⟩⟩ = true :=
  (C10_intersects_strictness ⟨⟨0, 0⟩, ⟨10, 0⟩⟩ ⟨⟨5, -5⟩, ⟨5, 5⟩⟩).2.2.2
    (by norm_num [Point.cross])

/-- C7 counterexample: under the derived componentwise equality on Line, a
segment is not equal to its reversal, refuting the claim that a segment and
its endpoint-swapped reversal compare equal for deduplication. -/
theorem C7_counterexample :
    Line.rev (⟨⟨0, 0⟩, ⟨1, 0⟩⟩ : Line ℕ) ≠ (⟨⟨0, 0⟩, ⟨1, 0⟩⟩ : Line ℕ) := by
  decide

/-- Strict lexicographic order on lattice points, mirroring the derived Ord on
Point with usize coordinates ((x, y) compared lexicographically). -/
def Point.lexLt (p q : Point ℕ) : Bool :=
  decide (p.x < q.x ∨ (p.x = q.x ∧ p.y < q.y))

/-- The four boundary edges a cell inserts in make_labyrinth
(src/game.rs lines 108-119), in source order: top, left, right, bottom. -/
def cellEdges (cell : Point ℕ) : List (Line ℕ) :=
  [⟨cell, ⟨cell.x + 1, cell.y⟩⟩,
   ⟨cell, ⟨cell.x, cell.y + 1⟩⟩,
   ⟨⟨cell.x + 1, cell.y⟩, ⟨cell.x + 1, cell.y + 1⟩⟩,
   ⟨⟨cell.x, cell.y + 1⟩, ⟨cell.x + 1, cell.y + 1⟩⟩]

/-- C7 amended: segment equality is componentwise, not direction-invariant;
deduplication of shared borders works because make_labyrinth generates every
edge key in canonical order (lexicographically smaller endpoint first), so the
two cells adjacent to a border generate the border as the identical key: a
cell's right edge equals its east neighbour's left edge, and its bottom edge
equals its south neighbour's top edge. -/
theorem C7_edge_key_canonicalization :
    (∀ c : Point ℕ, ∀ e ∈ cellEdges c, Point.lexLt e.a e.b = true) ∧
    (∀ x y : ℕ, (cellEdges ⟨x, y⟩)[2]? = (cellEdges ⟨x + 1, y⟩)[1]?) ∧
    (∀ x y : ℕ, (cellEdges ⟨x, y⟩)[3]? = (cellEdges ⟨x, y + 1⟩)[0]?) := by
  refine ⟨?_, ?_, ?_⟩
  · intro c e he
    simp only [cellEdges, List.mem_cons, List.not_mem_nil, or_false] at he
    rcases he with rfl | rfl | rfl | rfl <;> simp [Point.lexLt]
  · intro x y
    rfl
  · intro x y
    rfl

/-- Witness for C7: the first edge generated by cell (0,0) is stated in
canonical lexicographic order. -/
theorem C7_edge_key_canonicalization_witness :
    Point.lexLt (⟨0, 0⟩ : Point ℕ) ⟨1, 0⟩ = true :=
  C7_edge_key_canonicalization.1 ⟨0, 0⟩ ⟨⟨0, 0⟩, ⟨1, 0⟩⟩ (by decide)

/-- C8 counterexample: with self's endpoints stated in reversed order,
(10,0)-(0,0) and the same-oriented (3,0)-(5,0) whose endpoints lie inside the
bounding interval, Line::contains returns false, refuting order-independence. -/
theorem C8_counterexample :
    Line.contains ⟨⟨10, 0⟩, ⟨0, 0⟩⟩ ⟨⟨3, 0⟩, ⟨5, 0⟩⟩ = false ∧
      Line.orientation (⟨⟨10, 0⟩, ⟨0, 0⟩⟩ : Line ℚ) =
        Line.orientation (⟨⟨3, 0⟩, ⟨5, 0⟩⟩ : Line ℚ) ∧
      min (10 : ℚ) 0 ≤ 3 ∧ (3 : ℚ) ≤ max 10 0 ∧
      min (10 : ℚ) 0 ≤ 5 ∧ (5 : ℚ) ≤ max 10 0 ∧
      min (0 : ℚ) 0 ≤ 0 ∧ (0 : ℚ) ≤ max (0 : ℚ) 0 := by
  refine ⟨?_, ?_, ?_⟩
  · simp [Line.contains]
  · simp [Line.orientation]
  · norm_num

/-- C8 amended: provided self's endpoints are stated in coordinatewise sorted
order (as the compressor produces them), Line::contains is true iff the
orientations agree and other's endpoints lie inside self's bounding interval;
for reversed endpoint order the inclusive ranges are empty and contains is
false, as the counterexample shows. -/
theorem C8_contains_characterization (s o : Line ℚ)
    (hx : s.a.x ≤ s.b.x) (hy : s.a.y ≤ s.b.y) :
    (s.contains o = true ↔
      s.orientation = o.orientation ∧
      min s.a.x s.b.x ≤ o.a.x ∧ o.a.x ≤ max s.a.x s.b.x ∧
      min s.a.y s.b.y ≤ o.a.y ∧ o.a.y ≤ max s.a.y s.b.y ∧
      min s.a.x s.b.x ≤ o.b.x ∧ o.b.x ≤ max s.a.x s.b.x ∧
      min s.a.y s.b.y ≤ o.b.y ∧ o.b.y ≤ max s.a.y s.b.y) := by
  rw [min_eq_left hx, max_eq_right hx, min_eq_left hy, max_eq_right hy]
  simp only [Line.contains, Bool.and_eq_true, decide_eq_true_eq]
  tauto

/-- Witness for C8: the sorted segment (0,0)-(10,0) contains (3,0)-(5,0). -/
theorem C8_contains_characterization_witness :
    Line.contains ⟨⟨0, 0⟩, ⟨10, 0⟩⟩ ⟨⟨3, 0⟩, ⟨5, 0⟩⟩ = true :=
  (C8_contains_characterization ⟨⟨0, 0⟩, ⟨10, 0⟩⟩ ⟨⟨3, 0⟩, ⟨5, 0⟩⟩
      (by norm_num) (by norm_num)).mpr
    (by norm_num [Line.orientation])

@[ext] lemma Point.ext {α : Type} {p q : Point α} (hx : p.x = q.x) (hy : p.y = q.y) :
    p = q := by
  cases p; cases q; simp_all

/-- Point::snorm from src/geometrie.rs (squared norm), over real scalars. -/
noncomputable def Point.snorm (p : Point ℝ) : ℝ :=
  p.x ^ 2 + p.y ^ 2

/-- Point::norm from src/geometrie.rs (Euclidean norm). -/
noncomputable def Point.norm (p : Point ℝ) : ℝ :=
  Real.sqrt p.snorm

/-- Point::distance from src/geometrie.rs. -/
noncomputable def Point.distance (p q : Point ℝ) : ℝ :=
  (q - p).norm

/-- Game::update_position (src/game.rs lines 36-53), with the result of the
nearest-wall query grid.find_intersection(direction, cell, None) passed in as
`hit`: on a hit p the position is moved along the travel direction to stop one
world unit short of p, otherwise it becomes the desired new_position. -/
noncomputable def update_position (position new_position : Point ℝ)
    (hit : Option (Point ℝ)) : Point ℝ :=
  match hit with
  | some p =>
      let direction := p - position
      let distance := direction.norm
      position + direction * (distance - 1) / distance
  | none => new_position

lemma Point.norm_nonneg (p : Point ℝ) : 0 ≤ p.norm :=
  Real.sqrt_nonneg _

lemma Point.norm_smul (v : Point ℝ) (t : ℝ) : (v * t).norm = |t| * v.norm := by
  simp only [Point.norm, Point.snorm, Point.smul_x, Point.smul_y]
  have h : (v.x * t) ^ 2 + (v.y * t) ^ 2 = (v.x ^ 2 + v.y ^ 2) * t ^ 2 := by ring
  rw [h, Real.sqrt_mul (by positivity), Real.sqrt_sq_eq_abs, mul_comm]

/-- C2 amended: when the nearest intersection point q is at least one world
unit away, the movement clamp returns p plus (q-p) scaled by (d-1)/d with
d = norm(q-p): a point on the segment from p strictly before q, at distance
exactly d - 1 from p and exactly 1 from q; with no intersection the desired
position is returned exactly.  (When d < 1 the same formula instead moves the
agent backward past p, as the counterexample shows, so the hypothesis is
necessary.) -/
theorem C2_movement_clamp (p p' q : Point ℝ) (h : 1 ≤ (q - p).norm) :
    (update_position p p' (some q) =
        p + (q - p) * (((q - p).norm - 1) / (q - p).norm)) ∧
    (∃ t : ℝ, 0 ≤ t ∧ t < 1 ∧ update_position p p' (some q) = p + (q - p) * t) ∧
    ((update_position p p' (some q)) - p).norm = (q - p).norm - 1 ∧
    (update_position p p' (some q)).distance q = 1 ∧
    update_position p p' none = p' := by
  have hd0 : (0 : ℝ) < (q - p).norm := lt_of_lt_of_le one_pos h
  have hne : (q - p).norm ≠ 0 := ne_of_gt hd0
  have heq : update_position p p' (some q) =
      p + (q - p) * (((q - p).norm - 1) / (q - p).norm) := by
    simp only [update_position]
    ext <;> simp <;> ring
  refine ⟨heq, ?_, ?_, ?_, rfl⟩
  · refine ⟨((q - p).norm - 1) / (q - p).norm, ?_, ?_, heq⟩
    · apply div_nonneg (by linarith) (le_of_lt hd0)
    · rw [div_lt_one hd0]; linarith
  · rw [heq]
    have h2 : p + (q - p) * (((q - p).norm - 1) / (q - p).norm) - p =
        (q - p) * (((q - p).norm - 1) / (q - p).norm) := by
      ext <;> simp <;> ring
    rw [h2, Point.norm_smul, abs_of_nonneg (div_nonneg (by linarith) (le_of_lt hd0)),
      div_mul_cancel₀]
    exact hne
  · rw [heq, Point.distance]
    have h3 : q - (p + (q - p) * (((q - p).norm - 1) / (q - p).norm)) =
        (q - p) * (1 / (q - p).norm) := by
      ext <;> simp <;> field_simp <;> ring
    rw [h3, Point.norm_smul, abs_of_nonneg (by positivity), one_div,
      inv_mul_cancel₀ hne]

/-- Witness for C2 at the spec's example: moving from (5,5) toward (15,5) with
the nearest wall hit at (10,5) stops at (9,5), one unit short. -/
theorem C2_movement_clamp_witness :
    update_position ⟨5, 5⟩ ⟨15, 5⟩ (some ⟨10, 5⟩) = (⟨9, 5⟩ : Point ℝ) := by
  have hn : ((⟨10, 5⟩ : Point ℝ) - ⟨5, 5⟩).norm = 5 := by
    simp only [Point.norm, Point.snorm, Point.sub_x, Point.sub_y]
    rw [show ((10 : ℝ) - 5) ^ 2 + ((5 : ℝ) - 5) ^ 2 = 5 ^ 2 by norm_num]
    exact Real.sqrt_sq (by norm_num)
  have h := (C2_movement_clamp ⟨5, 5⟩ ⟨15, 5⟩ ⟨10, 5⟩ (by rw [hn]; norm_num)).1
  rw [h, hn]
  ext <;> simp <;> norm_num

/-- C2 counterexample: with the nearest hit q = (1/2, 0) closer than one unit
to p = (0,0), the clamp formula returns (-1/2, 0), which is not on the segment
from p toward q and is not at distance norm(q-p) - 1 from p, refuting the
claim for hits closer than one world unit. -/
theorem C2_counterexample :
    update_position ⟨0, 0⟩ ⟨15, 5⟩ (some ⟨1 / 2, 0⟩) = (⟨-(1 / 2), 0⟩ : Point ℝ) ∧
    ((update_position ⟨0, 0⟩ ⟨15, 5⟩ (some ⟨1 / 2, 0⟩)) - ⟨0, 0⟩).norm ≠
      (((⟨1 / 2, 0⟩ : Point ℝ) - ⟨0, 0⟩)).norm - 1 ∧
    ¬(∃ t : ℝ, 0 ≤ t ∧ t ≤ 1 ∧
        update_position ⟨0, 0⟩ ⟨15, 5⟩ (some ⟨1 / 2, 0⟩) =
          (⟨0, 0⟩ : Point ℝ) + ((⟨1 / 2, 0⟩ : Point ℝ) - ⟨0, 0⟩) * t) := by
  have hn : ((⟨1 / 2, 0⟩ : Point ℝ) - ⟨0, 0⟩).norm = 1 / 2 := by
    simp only [Point.norm, Point.snorm, Point.sub_x, Point.sub_y]
    rw [show ((1 / 2 : ℝ) - 0) ^ 2 + ((0 : ℝ) - 0) ^ 2 = (1 / 2) ^ 2 by norm_num]
    exact Real.sqrt_sq (by norm_num)
  have hupd : update_position ⟨0, 0⟩ ⟨15, 5⟩ (some ⟨1 / 2, 0⟩) =
      (⟨-(1 / 2), 0⟩ : Point ℝ) := by
    simp only [update_position]
    ext
    · simp only [Point.add_x, Point.sdiv_x, Point.smul_x, Point.sub_x]
      rw [hn]
      norm_num
    · simp only [Point.add_y, Point.sdiv_y, Point.smul_y, Point.sub_y]
      rw [hn]
      norm_num
  have hn2 : ((⟨-(1 / 2), 0⟩ : Point ℝ) - ⟨0, 0⟩).norm = 1 / 2 := by
    simp only [Point.norm, Point.snorm, Point.sub_x, Point.sub_y]
    rw [show (-(1 / 2 : ℝ) - 0) ^ 2 + ((0 : ℝ) - 0) ^ 2 = (1 / 2) ^ 2 by norm_num]
    exact Real.sqrt_sq (by norm_num)
  refine ⟨hupd, ?_, ?_⟩
  · rw [hupd, hn, hn2]; norm_num
  · rintro ⟨t, ht0, _, heq⟩
    rw [hupd] at heq
    have hx : -(1 / 2 : ℝ) = 0 + (1 / 2 - 0) * t := congrArg Point.x heq
    nlinarith

/-- Non-strict lexicographic (x, then y) comparison of lattice points,
mirroring the derived Ord on Point with usize coordinates. -/
def Point.lexLe (p q : Point ℕ) : Bool :=
  decide (p.x < q.x ∨ (p.x = q.x ∧ p.y ≤ q.y))

/-- Minimum of two lattice points under the lexicographic Ord. -/
def Point.lexMin2 (p q : Point ℕ) : Point ℕ :=
  if p.lexLe q then p else q

/-- Maximum of two lattice points under the lexicographic Ord. -/
def Point.lexMax2 (p q : Point ℕ) : Point ℕ :=
  if p.lexLe q then q else p

/-- The merged wall built in compress_labyrinth: the segment from the
lexicographic minimum to the lexicographic maximum of the four endpoints
[wall.a, wall.b, wall2.a, wall2.b] (Rust's points.iter().min() and .max()
under the derived Ord on Point). -/
def mergeWalls (wall wall2 : Line ℕ) : Line ℕ :=
  ⟨Point.lexMin2 (Point.lexMin2 (Point.lexMin2 wall.a wall.b) wall2.a) wall2.b,
   Point.lexMax2 (Point.lexMax2 (Point.lexMax2 wall.a wall.b) wall2.a) wall2.b⟩

/-- Rust Vec::swap_remove(idx): overwrite index idx with the last element,
then pop the last element.  The default argument is irrelevant at all call
sites, which guarantee idx is in bounds so the list is nonempty. -/
def swapRemove {α : Type} (l : List α) (idx : ℕ) (dflt : α) : List α :=
  (l.set idx (l.getLastD dflt)).dropLast

/-- Loop of compress_labyrinth from src/game.rs lines 173-191.  The working
Vec is a List in the same element order: Vec::pop takes the last element,
iter().position scans from the front, push appends at the end; `zipped` is
the output vector zipped_labyrinth. -/
def compress_go (lab zipped : List (Line ℕ)) : List (Line ℕ) :=
  match hlast : lab.getLast? with
  | none => zipped
  | some wall =>
      match hfind : lab.dropLast.findIdx? (fun w => w.extends_ wall) with
      | some idx =>
          compress_go
            (swapRemove lab.dropLast idx wall ++
              [mergeWalls wall (lab.dropLast.getD idx wall)]) zipped
      | none => compress_go lab.dropLast (zipped ++ [wall])
termination_by lab.length
decreasing_by
  · have h1 : lab ≠ [] := by
      intro h
      rw [h] at hlast
      simp at hlast
    have h2 : idx < lab.dropLast.length :=
      (List.findIdx?_eq_some_iff_findIdx_eq.mp hfind).1
    simp only [swapRemove, List.length_append, List.length_dropLast, List.length_set,
      List.length_cons, List.length_nil]
    have h3 : 0 < lab.length := List.length_pos.mpr h1
    simp only [List.length_dropLast] at h2
    omega
  · have h1 : lab ≠ [] := by
      intro h
      rw [h] at hlast
      simp at hlast
    have h3 : 0 < lab.length := List.length_pos.mpr h1
    simp only [List.length_dropLast]
    omega

/-- compress_labyrinth from src/game.rs lines 173-191. -/
def compress_labyrinth (labyrinth : List (Line ℕ)) : List (Line ℕ) :=
  compress_go labyrinth []

lemma extends_symm {α : Type} [DecidableEq α] (l o : Line α) :
    l.extends_ o = o.extends_ l := by
  rw [Bool.eq_iff_iff]
  simp only [Line.extends_, Line.shares_endpoint, Bool.and_eq_true, Bool.or_eq_true,
    decide_eq_true_eq]
  constructor <;> rintro ⟨hs, ho⟩ <;> refine ⟨?_, ho.symm⟩ <;>
    rcases hs with ((h | h) | h) | h
  · exact Or.inl (Or.inl (Or.inl h.symm))
  · exact Or.inl (Or.inr h.symm)
  · exact Or.inl (Or.inl (Or.inr h.symm))
  · exact Or.inr h.symm
  · exact Or.inl (Or.inl (Or.inl h.symm))
  · exact Or.inl (Or.inr h.symm)
  · exact Or.inl (Or.inl (Or.inr h.symm))
  · exact Or.inr h.symm

lemma lexMin2_x (p q : Point ℕ) : (Point.lexMin2 p q).x = min p.x q.x := by
  simp only [Point.lexMin2, Point.lexLe]
  split_ifs with h <;> simp only [decide_eq_true_eq] at h <;> omega

lemma lexMax2_x (p q : Point ℕ) : (Point.lexMax2 p q).x = max p.x q.x := by
  simp only [Point.lexMax2, Point.lexLe]
  split_ifs with h <;> simp only [decide_eq_true_eq] at h <;> omega

lemma lexMin2_mem (p q : Point ℕ) : Point.lexMin2 p q = p ∨ Point.lexMin2 p q = q := by
  simp only [Point.lexMin2]
  split_ifs <;> tauto

lemma lexMax2_mem (p q : Point ℕ) : Point.lexMax2 p q = p ∨ Point.lexMax2 p q = q := by
  simp only [Point.lexMax2]
  split_ifs <;> tauto

lemma mergeWalls_a_mem (w w2 : Line ℕ) :
    (mergeWalls w w2).a = w.a ∨ (mergeWalls w w2).a = w.b ∨
      (mergeWalls w w2).a = w2.a ∨ (mergeWalls w w2).a = w2.b := by
  simp only [mergeWalls]
  rcases lexMin2_mem (Point.lexMin2 (Point.lexMin2 w.a w.b) w2.a) w2.b with h | h <;>
    rw [h]
  · rcases lexMin2_mem (Point.lexMin2 w.a w.b) w2.a with h2 | h2 <;> rw [h2]
    · rcases lexMin2_mem w.a w.b with h3 | h3 <;> rw [h3] <;> tauto
    · tauto
  · tauto

lemma mergeWalls_b_mem (w w2 : Line ℕ) :
    (mergeWalls w w2).b = w.a ∨ (mergeWalls w w2).b = w.b ∨
      (mergeWalls w w2).b = w2.a ∨ (mergeWalls w w2).b = w2.b := by
  simp only [mergeWalls]
  rcases lexMax2_mem (Point.lexMax2 (Point.lexMax2 w.a w.b) w2.a) w2.b with h | h <;>
    rw [h]
  · rcases lexMax2_mem (Point.lexMax2 w.a w.b) w2.a with h2 | h2 <;> rw [h2]
    · rcases lexMax2_mem w.a w.b with h3 | h3 <;> rw [h3] <;> tauto
    · tauto
  · tauto

lemma orientation_horizontal_iff {α : Type} [DecidableEq α] (l : Line α) :
    l.orientation = Orientation.Horizontal ↔ l.a.x = l.b.x := by
  simp only [Line.orientation]
  split_ifs with h <;> simp [h]

lemma orientation_vertical_iff {α : Type} [DecidableEq α] (l : Line α) :
    l.orientation = Orientation.Vertical ↔ l.a.x ≠ l.b.x := by
  simp only [Line.orientation]
  split_ifs with h <;> simp [h]

lemma shares_endpoint_iff {α : Type} [DecidableEq α] (l o : Line α) :
    l.shares_endpoint o = true ↔
      (l.a = o.a ∨ l.a = o.b ∨ l.b = o.a ∨ l.b = o.b) := by
  simp [Line.shares_endpoint, or_assoc]

lemma extends_iff {α : Type} [DecidableEq α] (l o : Line α) :
    l.extends_ o = true ↔
      ((l.a = o.a ∨ l.a = o.b ∨ l.b = o.a ∨ l.b = o.b) ∧
        l.orientation = o.orientation) := by
  simp [Line.extends_, shares_endpoint_iff]

/-- Merging two walls that extend each other preserves the orientation label:
two Horizontal walls sharing an endpoint lie on one vertical lattice line, and
the lexicographic extremes of the endpoints of two Vertical walls still differ
in x. -/
lemma mergeWalls_orientation (wall wall2 : Line ℕ)
    (h : wall2.extends_ wall = true) :
    (mergeWalls wall wall2).orientation = wall.orientation := by
  rw [extends_iff] at h
  obtain ⟨hs, ho⟩ := h
  have hax : (mergeWalls wall wall2).a.x =
      min (min (min wall.a.x wall.b.x) wall2.a.x) wall2.b.x := by
    simp only [mergeWalls, lexMin2_x]
  have hbx : (mergeWalls wall wall2).b.x =
      max (max (max wall.a.x wall.b.x) wall2.a.x) wall2.b.x := by
    simp only [mergeWalls, lexMax2_x]
  rcases horient : wall.orientation with _ | _
  · -- Vertical: wall.a.x differs from wall.b.x, and likewise for wall2
    have hwx : wall.a.x ≠ wall.b.x := (orientation_vertical_iff wall).mp horient
    have h2 : wall2.a.x ≠ wall2.b.x :=
      (orientation_vertical_iff wall2).mp (ho.trans horient)
    rw [orientation_vertical_iff, hax, hbx]
    omega
  · have hwx : wall.a.x = wall.b.x := (orientation_horizontal_iff wall).mp horient
    have h2 : wall2.a.x = wall2.b.x :=
      (orientation_horizontal_iff wall2).mp (ho.trans horient)
    rw [orientation_horizontal_iff, hax, hbx]
    rcases hs with h | h | h | h <;> rw [Point.ext_iff] at h <;> omega

/-- If the merged wall extends a finished segment z, then one of the two
walls it was merged from already extends z. -/
lemma mergeWalls_extends_false (wall wall2 z : Line ℕ)
    (hww2 : wall2.extends_ wall = true)
    (hwz : wall.extends_ z = false) (hw2z : wall2.extends_ z = false) :
    (mergeWalls wall wall2).extends_ z = false := by
  by_contra hc
  rw [Bool.not_eq_false, extends_iff] at hc
  obtain ⟨hs, ho⟩ := hc
  have horw : wall.orientation = z.orientation := by
    rw [← mergeWalls_orientation wall wall2 hww2]; exact ho
  have horw2 : wall2.orientation = z.orientation := by
    rw [(extends_iff _ _).mp hww2 |>.2]; exact horw
  have hwzn : ¬(wall.a = z.a ∨ wall.a = z.b ∨ wall.b = z.a ∨ wall.b = z.b) := by
    intro hcon
    rw [← Bool.not_eq_true, extends_iff] at hwz
    exact hwz ⟨hcon, horw⟩
  have hw2zn : ¬(wall2.a = z.a ∨ wall2.a = z.b ∨ wall2.b = z.a ∨ wall2.b = z.b) := by
    intro hcon
    rw [← Bool.not_eq_true, extends_iff] at hw2z
    exact hw2z ⟨hcon, horw2⟩
  rcases hs with h | h | h | h
  · rcases mergeWalls_a_mem wall wall2 with hm | hm | hm | hm <;> rw [hm] at h <;> tauto
  · rcases mergeWalls_a_mem wall wall2 with hm | hm | hm | hm <;> rw [hm] at h <;> tauto
  · rcases mergeWalls_b_mem wall wall2 with hm | hm | hm | hm <;> rw [hm] at h <;> tauto
  · rcases mergeWalls_b_mem wall wall2 with hm | hm | hm | hm <;> rw [hm] at h <;> tauto

lemma swapRemove_subset {α : Type} (l : List α) (idx : ℕ) (d : α) (hne : l ≠ [])
    {a : α} (ha : a ∈ swapRemove l idx d) : a ∈ l := by
  have h1 : a ∈ l.set idx (l.getLastD d) := List.dropLast_subset _ ha
  rcases List.mem_or_eq_of_mem_set h1 with h | h
  · exact h
  · rw [h, List.getLastD_eq_getLast?, List.getLast?_eq_getLast l hne]
    exact List.getLast_mem hne

lemma compress_go_nil (zipped : List (Line ℕ)) : compress_go [] zipped = zipped := by
  rw [compress_go]
  split
  · rfl
  · rename_i wall h
    simp at h

lemma compress_go_concat (ys : List (Line ℕ)) (wall : Line ℕ) (zipped : List (Line ℕ)) :
    compress_go (ys ++ [wall]) zipped =
      match ys.findIdx? (fun w => w.extends_ wall) with
      | some idx =>
          compress_go (swapRemove ys idx wall ++ [mergeWalls wall (ys.getD idx wall)]) zipped
      | none => compress_go ys (zipped ++ [wall]) := by
  rw [compress_go]
  split
  · rename_i h
    rw [List.getLast?_concat] at h
    exact Option.noConfusion h
  · rename_i wall1 h
    rw [List.getLast?_concat] at h
    injection h with h
    subst h
    rw [List.dropLast_concat]
    split <;> rename_i h2 <;> rw [h2]

lemma findIdx?_getD {l : List (Line ℕ)} {p : Line ℕ → Bool} {idx : ℕ} {d : Line ℕ}
    (h : l.findIdx? p = some idx) : p (l.getD idx d) = true := by
  obtain ⟨h1, h3⟩ := List.findIdx?_eq_some_iff_findIdx_eq.mp h
  subst h3
  rw [List.getD_eq_getElem l d h1]
  exact List.findIdx_getElem

lemma compress_go_pairwise :
    ∀ (n : ℕ) (lab zipped : List (Line ℕ)), lab.length = n →
      (∀ z ∈ zipped, ∀ w ∈ lab, w.extends_ z = false) →
      zipped.Pairwise (fun a b => a.extends_ b = false) →
      (compress_go lab zipped).Pairwise (fun a b => a.extends_ b = false) := by
  intro n
  induction n using Nat.strong_induction_on with
  | _ n ih =>
    intro lab zipped hlen hinv hpw
    rcases List.eq_nil_or_concat lab with rfl | ⟨ys, wall, rfl⟩
    · rw [compress_go_nil]; exact hpw
    · rw [List.concat_eq_append] at hlen hinv ⊢
      rw [compress_go_concat]
      rcases hf : ys.findIdx? (fun w => w.extends_ wall) with _ | idx
      · rw [hf]
        refine ih ys.length (by simp at hlen; omega) ys (zipped ++ [wall]) rfl ?_ ?_
        · intro z hz w hw
          rcases List.mem_append.mp hz with hz | hz
          · exact hinv z hz w (List.mem_append.mpr (Or.inl hw))
          · simp only [List.mem_singleton] at hz
            rw [hz]
            have := List.findIdx?_eq_none_iff.mp hf w hw
            simpa using this
        · rw [List.pairwise_append]
          refine ⟨hpw, by simp, ?_⟩
          intro a ha c hc
          simp only [List.mem_singleton] at hc
          rw [hc, extends_symm]
          exact hinv a ha wall (List.mem_append.mpr (Or.inr (by simp)))
      · rw [hf]
        have hidx : idx < ys.length :=
          (List.findIdx?_eq_some_iff_findIdx_eq.mp hf).1
        have hysne : ys ≠ [] := by
          intro h
          subst h
          simp at hidx
        have hw2mem : ys.getD idx wall ∈ ys := by
          rw [List.getD_eq_getElem ys wall hidx]
          exact List.getElem_mem _
        have hw2ext : (ys.getD idx wall).extends_ wall = true := findIdx?_getD hf
        refine ih ys.length (by simp at hlen; omega) _ zipped ?_ ?_ hpw
        · simp only [List.length_append, List.length_cons, List.length_nil, swapRemove,
            List.length_dropLast, List.length_set]
          omega
        · intro z hz w hw
          rcases List.mem_append.mp hw with hw | hw
          · exact hinv z hz w
              (List.mem_append.mpr (Or.inl (swapRemove_subset ys idx wall hysne hw)))
          · simp only [List.mem_singleton] at hw
            rw [hw]
            exact mergeWalls_extends_false wall (ys.getD idx wall) z hw2ext
              (hinv z hz wall (List.mem_append.mpr (Or.inr (by simp))))
              (hinv z hz _ (List.mem_append.mpr (Or.inl hw2mem)))

lemma compress_go_of_pairwise :
    ∀ (n : ℕ) (lab zipped : List (Line ℕ)), lab.length = n →
      lab.Pairwise (fun a b => a.extends_ b = false) →
      compress_go lab zipped = zipped ++ lab.reverse := by
  intro n
  induction n using Nat.strong_induction_on with
  | _ n ih =>
    intro lab zipped hlen hpw
    rcases List.eq_nil_or_concat lab with rfl | ⟨ys, wall, rfl⟩
    · rw [compress_go_nil]; simp
    · rw [List.concat_eq_append] at hlen hpw ⊢
      rw [compress_go_concat]
      rw [List.pairwise_append] at hpw
      obtain ⟨hys, _, hcross⟩ := hpw
      have hf : ys.findIdx? (fun w => w.extends_ wall) = none := by
        rw [List.findIdx?_eq_none_iff]
        intro w hw
        exact hcross w hw wall (by simp)
      rw [hf]
      simp only
      rw [ih ys.length (by simp at hlen; omega) ys (zipped ++ [wall]) rfl hys]
      simp

/-- C5: the compressor is idempotent up to order: recompressing its own output
permutes it (the output is reversed by the second pass but is the same set of
segments), because the output is a fixed point in which no segment extends any
other. -/
theorem C5_compress_idempotent (l : List (Line ℕ)) :
    (compress_labyrinth (compress_labyrinth l)).Perm (compress_labyrinth l) ∧
      (compress_labyrinth l).Pairwise (fun a b => a.extends_ b = false) := by
  have hp : (compress_labyrinth l).Pairwise (fun a b => a.extends_ b = false) :=
    compress_go_pairwise l.length l [] rfl (by simp) (by simp)
  have h2 : compress_labyrinth (compress_labyrinth l) =
      [] ++ (compress_labyrinth l).reverse :=
    compress_go_of_pairwise (compress_labyrinth l).length (compress_labyrinth l) [] rfl hp
  rw [h2]
  exact ⟨by simpa using List.reverse_perm _, hp⟩

lemma swapRemove_perm {α : Type} (l : List α) (idx : ℕ) (d : α) (h : idx < l.length) :
    (swapRemove l idx d).Perm (l.eraseIdx idx) := by
  have hne : l ≠ [] := by
    intro hl
    subst hl
    simp at h
  simp only [swapRemove, List.set_eq_take_append_cons_drop, if_pos h,
    List.eraseIdx_eq_take_drop_succ]
  rcases Nat.lt_or_ge idx (l.length - 1) with hcase | hcase
  · -- idx is not the last position: drop (idx+1) is nonempty
    have hdne : l.drop (idx + 1) ≠ [] := by
      intro hd
      have := List.drop_eq_nil_iff.mp hd
      omega
    have hv : l.getLastD d = (l.drop (idx + 1)).getLast hdne := by
      rw [List.getLastD_eq_getLast?]
      conv_lhs => rw [← List.take_append_drop (idx + 1) l]
      rw [List.getLast?_append_of_ne_nil _ hdne, List.getLast?_eq_getLast _ hdne]
      rfl
    rw [List.dropLast_append_of_ne_nil _
        (by simp : l.getLastD d :: l.drop (idx + 1) ≠ []),
      List.dropLast_cons_of_ne_nil hdne, hv]
    refine List.Perm.append_left _ ?_
    conv_rhs => rw [← List.dropLast_append_getLast hdne]
    exact (List.perm_append_singleton _ _).symm
  · -- idx is the last position
    have hd : l.drop (idx + 1) = [] := List.drop_eq_nil_iff.mpr (by omega)
    rw [hd, List.append_nil]
    simp only [List.dropLast_concat]
    exact List.Perm.refl _

lemma perm_getElem_cons_eraseIdx {α : Type} (l : List α) (idx : ℕ) (h : idx < l.length) :
    l.Perm (l[idx] :: l.eraseIdx idx) := by
  conv_lhs => rw [← List.take_append_drop idx l, List.drop_eq_getElem_cons h]
  rw [List.eraseIdx_eq_take_drop_succ]
  exact List.perm_middle

/-- Embedding of lattice points into the rational plane. -/
def toQ (p : Point ℕ) : Point ℚ :=
  ⟨p.x, p.y⟩

/-- The set of plane points lying on a lattice wall segment (its point-set). -/
def segPts (l : Line ℕ) : Set (Point ℚ) :=
  {p | ∃ t : ℚ, 0 ≤ t ∧ t ≤ 1 ∧ p = toQ l.a + (toQ l.b - toQ l.a) * t}

/-- The union of the point-sets of a list of wall segments. -/
def wallPts (ls : List (Line ℕ)) : Set (Point ℚ) :=
  {p | ∃ l ∈ ls, p ∈ segPts l}

/-- A lattice segment lying on a grid line (no wall is diagonal). -/
def axisAligned (l : Line ℕ) : Prop :=
  l.a.x = l.b.x ∨ l.a.y = l.b.y

lemma wallPts_nil : wallPts [] = ∅ := by
  ext p
  simp [wallPts]

lemma wallPts_append (xs ys : List (Line ℕ)) :
    wallPts (xs ++ ys) = wallPts xs ∪ wallPts ys := by
  ext p
  simp only [wallPts, Set.mem_setOf_eq, List.mem_append, Set.mem_union]
  constructor
  · rintro ⟨l, hl | hl, hp⟩
    · exact Or.inl ⟨l, hl, hp⟩
    · exact Or.inr ⟨l, hl, hp⟩
  · rintro (⟨l, hl, hp⟩ | ⟨l, hl, hp⟩)
    · exact ⟨l, Or.inl hl, hp⟩
    · exact ⟨l, Or.inr hl, hp⟩

lemma wallPts_singleton (w : Line ℕ) : wallPts [w] = segPts w := by
  ext p
  simp [wallPts]

lemma wallPts_perm {l1 l2 : List (Line ℕ)} (h : l1.Perm l2) : wallPts l1 = wallPts l2 := by
  ext p
  simp only [wallPts, Set.mem_setOf_eq]
  constructor <;> rintro ⟨l, hl, hp⟩
  · exact ⟨l, h.mem_iff.mp hl, hp⟩
  · exact ⟨l, h.mem_iff.mpr hl, hp⟩

/-- Point-set of a segment on a vertical grid line (equal x coordinates). -/
lemma segPts_of_xeq (l : Line ℕ) (h : l.a.x = l.b.x) :
    segPts l = {p : Point ℚ | p.x = (l.a.x : ℚ) ∧
      min (l.a.y : ℚ) (l.b.y : ℚ) ≤ p.y ∧ p.y ≤ max (l.a.y : ℚ) (l.b.y : ℚ)} := by
  ext p
  simp only [segPts, Set.mem_setOf_eq, toQ]
  constructor
  · rintro ⟨t, ht0, ht1, rfl⟩
    refine ⟨?_, ?_, ?_⟩
    · simp only [Point.add_x, Point.sub_x, Point.smul_x]
      rw [h]
      ring
    · simp only [Point.add_y, Point.sub_y, Point.smul_y]
      rcases le_total (l.a.y : ℚ) (l.b.y : ℚ) with hy | hy
      · rw [min_eq_left hy]
        nlinarith
      · rw [min_eq_right hy]
        nlinarith
    · simp only [Point.add_y, Point.sub_y, Point.smul_y]
      rcases le_total (l.a.y : ℚ) (l.b.y : ℚ) with hy | hy
      · rw [max_eq_right hy]
        nlinarith
      · rw [max_eq_left hy]
        nlinarith
  · rintro ⟨hx, hy1, hy2⟩
    by_cases hab : (l.a.y : ℚ) = (l.b.y : ℚ)
    · have hpy : p.y = (l.a.y : ℚ) := by
        rw [← hab, min_self] at hy1
        rw [← hab, max_self] at hy2
        linarith
      refine ⟨0, le_refl _, by norm_num, ?_⟩
      ext
      · simp only [Point.add_x, Point.sub_x, Point.smul_x]
        rw [hx]
        ring
      · simp only [Point.add_y, Point.sub_y, Point.smul_y]
        rw [hpy]
        ring
    · have hne : (l.b.y : ℚ) - (l.a.y : ℚ) ≠ 0 :=
        sub_ne_zero.mpr (fun hc => hab hc.symm)
      refine ⟨(p.y - (l.a.y : ℚ)) / ((l.b.y : ℚ) - (l.a.y : ℚ)), ?_, ?_, ?_⟩
      · rcases lt_or_gt_of_ne hab with hlt | hgt
        · rw [min_eq_left (le_of_lt hlt)] at hy1
          exact div_nonneg (by linarith) (by linarith)
        · rw [div_nonneg_iff]
          right
          rw [max_eq_left (le_of_lt hgt)] at hy2
          exact ⟨by linarith, by linarith⟩
      · rcases lt_or_gt_of_ne hab with hlt | hgt
        · rw [max_eq_right (le_of_lt hlt)] at hy2
          rw [div_le_one (by linarith)]
          linarith
        · rw [min_eq_right (le_of_lt hgt)] at hy1
          rw [div_le_one_of_neg (by linarith)]
          linarith
      · ext
        · simp only [Point.add_x, Point.sub_x, Point.smul_x]
          rw [hx, h]
          ring
        · simp only [Point.add_y, Point.sub_y, Point.smul_y]
          field_simp

/-- Point-set of a segment on a horizontal grid line (equal y coordinates). -/
lemma segPts_of_yeq (l : Line ℕ) (h : l.a.y = l.b.y) :
    segPts l = {p : Point ℚ | p.y = (l.a.y : ℚ) ∧
      min (l.a.x : ℚ) (l.b.x : ℚ) ≤ p.x ∧ p.x ≤ max (l.a.x : ℚ) (l.b.x : ℚ)} := by
  ext p
  simp only [segPts, Set.mem_setOf_eq, toQ]
  constructor
  · rintro ⟨t, ht0, ht1, rfl⟩
    refine ⟨?_, ?_, ?_⟩
    · simp only [Point.add_y, Point.sub_y, Point.smul_y]
      rw [h]
      ring
    · simp only [Point.add_x, Point.sub_x, Point.smul_x]
      rcases le_total (l.a.x : ℚ) (l.b.x : ℚ) with hy | hy
      · rw [min_eq_left hy]
        nlinarith
      · rw [min_eq_right hy]
        nlinarith
    · simp only [Point.add_x, Point.sub_x, Point.smul_x]
      rcases le_total (l.a.x : ℚ) (l.b.x : ℚ) with hy | hy
      · rw [max_eq_right hy]
        nlinarith
      · rw [max_eq_left hy]
        nlinarith
  · rintro ⟨hx, hy1, hy2⟩
    by_cases hab : (l.a.x : ℚ) = (l.b.x : ℚ)
    · have hpy : p.x = (l.a.x : ℚ) := by
        rw [← hab, min_self] at hy1
        rw [← hab, max_self] at hy2
        linarith
      refine ⟨0, le_refl _, by norm_num, ?_⟩
      ext
      · simp only [Point.add_x, Point.sub_x, Point.smul_x]
        rw [hpy]
        ring
      · simp only [Point.add_y, Point.sub_y, Point.smul_y]
        rw [hx]
        ring
    · have hne : (l.b.x : ℚ) - (l.a.x : ℚ) ≠ 0 :=
        sub_ne_zero.mpr (fun hc => hab hc.symm)
      refine ⟨(p.x - (l.a.x : ℚ)) / ((l.b.x : ℚ) - (l.a.x : ℚ)), ?_, ?_, ?_⟩
      · rcases lt_or_gt_of_ne hab with hlt | hgt
        · rw [min_eq_left (le_of_lt hlt)] at hy1
          exact div_nonneg (by linarith) (by linarith)
        · rw [div_nonneg_iff]
          right
          rw [max_eq_left (le_of_lt hgt)] at hy2
          exact ⟨by linarith, by linarith⟩
      · rcases lt_or_gt_of_ne hab with hlt | hgt
        · rw [max_eq_right (le_of_lt hlt)] at hy2
          rw [div_le_one (by linarith)]
          linarith
        · rw [min_eq_right (le_of_lt hgt)] at hy1
          rw [div_le_one_of_neg (by linarith)]
          linarith
      · ext
        · simp only [Point.add_x, Point.sub_x, Point.smul_x]
          field_simp
        · simp only [Point.add_y, Point.sub_y, Point.smul_y]
          rw [hx, h]
          ring

lemma lexMin2_of_xeq (p q : Point ℕ) (c : ℕ) (hp : p.x = c) (hq : q.x = c) :
    Point.lexMin2 p q = ⟨c, min p.y q.y⟩ := by
  simp only [Point.lexMin2, Point.lexLe]
  split_ifs with h <;> simp only [decide_eq_true_eq] at h <;> ext <;>
    simp only [] <;> omega

lemma lexMax2_of_xeq (p q : Point ℕ) (c : ℕ) (hp : p.x = c) (hq : q.x = c) :
    Point.lexMax2 p q = ⟨c, max p.y q.y⟩ := by
  simp only [Point.lexMax2, Point.lexLe]
  split_ifs with h <;> simp only [decide_eq_true_eq] at h <;> ext <;>
    simp only [] <;> omega

lemma lexMin2_of_yeq (p q : Point ℕ) (c : ℕ) (hp : p.y = c) (hq : q.y = c) :
    Point.lexMin2 p q = ⟨min p.x q.x, c⟩ := by
  simp only [Point.lexMin2, Point.lexLe]
  split_ifs with h <;> simp only [decide_eq_true_eq] at h <;> ext <;>
    simp only [] <;> omega

lemma lexMax2_of_yeq (p q : Point ℕ) (c : ℕ) (hp : p.y = c) (hq : q.y = c) :
    Point.lexMax2 p q = ⟨max p.x q.x, c⟩ := by
  simp only [Point.lexMax2, Point.lexLe]
  split_ifs with h <;> simp only [decide_eq_true_eq] at h <;> ext <;>
    simp only [] <;> omega

lemma mergeWalls_xeq (wall wall2 : Line ℕ) (c : ℕ)
    (h1 : wall.a.x = c) (h2 : wall.b.x = c) (h3 : wall2.a.x = c) (h4 : wall2.b.x = c) :
    mergeWalls wall wall2 =
      ⟨⟨c, min (min (min wall.a.y wall.b.y) wall2.a.y) wall2.b.y⟩,
       ⟨c, max (max (max wall.a.y wall.b.y) wall2.a.y) wall2.b.y⟩⟩ := by
  rw [mergeWalls, lexMin2_of_xeq wall.a wall.b c h1 h2,
    lexMin2_of_xeq _ wall2.a c rfl h3, lexMin2_of_xeq _ wall2.b c rfl h4,
    lexMax2_of_xeq wall.a wall.b c h1 h2,
    lexMax2_of_xeq _ wall2.a c rfl h3, lexMax2_of_xeq _ wall2.b c rfl h4]

lemma mergeWalls_yeq (wall wall2 : Line ℕ) (c : ℕ)
    (h1 : wall.a.y = c) (h2 : wall.b.y = c) (h3 : wall2.a.y = c) (h4 : wall2.b.y = c) :
    mergeWalls wall wall2 =
      ⟨⟨min (min (min wall.a.x wall.b.x) wall2.a.x) wall2.b.x, c⟩,
       ⟨max (max (max wall.a.x wall.b.x) wall2.a.x) wall2.b.x, c⟩⟩ := by
  rw [mergeWalls, lexMin2_of_yeq wall.a wall.b c h1 h2,
    lexMin2_of_yeq _ wall2.a c rfl h3, lexMin2_of_yeq _ wall2.b c rfl h4,
    lexMax2_of_yeq wall.a wall.b c h1 h2,
    lexMax2_of_yeq _ wall2.a c rfl h3, lexMax2_of_yeq _ wall2.b c rfl h4]

lemma mem_interval_union {m1 M1 m2 M2 e x : ℚ} (h1 : m1 ≤ e) (h2 : e ≤ M1)
    (h3 : m2 ≤ e) (h4 : e ≤ M2) :
    (min m1 m2 ≤ x ∧ x ≤ max M1 M2) ↔ ((m1 ≤ x ∧ x ≤ M1) ∨ (m2 ≤ x ∧ x ≤ M2)) := by
  constructor
  · rintro ⟨ha, hb⟩
    rw [min_le_iff] at ha
    rw [le_max_iff] at hb
    by_cases hx1 : m1 ≤ x ∧ x ≤ M1
    · exact Or.inl hx1
    · right
      rw [not_and_or, not_le, not_le] at hx1
      rcases hx1 with hx1 | hx1
      · rcases ha with h | h
        · linarith
        · exact ⟨h, by linarith⟩
      · rcases hb with h | h
        · linarith
        · exact ⟨by linarith, h⟩
  · rintro (⟨ha, hb⟩ | ⟨ha, hb⟩)
    · exact ⟨le_trans (min_le_left _ _) ha, le_trans hb (le_max_left _ _)⟩
    · exact ⟨le_trans (min_le_right _ _) ha, le_trans hb (le_max_right _ _)⟩

/-- Merging two walls that extend each other unions their point-sets exactly
(for axis-aligned walls): the two collinear touching segments are replaced by
their common hull on the shared grid line. -/
lemma segPts_merge (wall wall2 : Line ℕ) (hext : wall2.extends_ wall = true)
    (haa : axisAligned wall) (haa2 : axisAligned wall2) :
    segPts (mergeWalls wall wall2) = segPts wall ∪ segPts wall2 := by
  have hext' := hext
  rw [extends_iff] at hext'
  obtain ⟨hs, ho⟩ := hext'
  rcases horient : wall.orientation with _ | _
  · -- Vertical label: distinct x endpoints, so axis-alignment forces equal y
    have hwx : wall.a.x ≠ wall.b.x := (orientation_vertical_iff wall).mp horient
    have h2x : wall2.a.x ≠ wall2.b.x :=
      (orientation_vertical_iff wall2).mp (ho.trans horient)
    have hwy : wall.a.y = wall.b.y := haa.resolve_left hwx
    have h2y : wall2.a.y = wall2.b.y := haa2.resolve_left h2x
    have hcy : wall2.a.y = wall.a.y := by
      rcases hs with h | h | h | h <;> rw [Point.ext_iff] at h <;> omega
    have hmM : min (min (min wall.a.x wall.b.x) wall2.a.x) wall2.b.x ≤
        max (max (max wall.a.x wall.b.x) wall2.a.x) wall2.b.x := by omega
    have hminc : ((min (min (min wall.a.x wall.b.x) wall2.a.x) wall2.b.x : ℕ) : ℚ) =
        min (min (wall.a.x : ℚ) (wall.b.x : ℚ)) (min (wall2.a.x : ℚ) (wall2.b.x : ℚ)) := by
      push_cast
      rw [min_assoc]
    have hmaxc : ((max (max (max wall.a.x wall.b.x) wall2.a.x) wall2.b.x : ℕ) : ℚ) =
        max (max (wall.a.x : ℚ) (wall.b.x : ℚ)) (max (wall2.a.x : ℚ) (wall2.b.x : ℚ)) := by
      push_cast
      rw [max_assoc]
    have hcyQ : ((wall2.a.y : ℕ) : ℚ) = (wall.a.y : ℚ) := by exact_mod_cast hcy
    obtain ⟨e, he1, he2, he3, he4⟩ :
        ∃ e : ℚ, min (wall.a.x : ℚ) (wall.b.x : ℚ) ≤ e ∧
          e ≤ max (wall.a.x : ℚ) (wall.b.x : ℚ) ∧
          min (wall2.a.x : ℚ) (wall2.b.x : ℚ) ≤ e ∧
          e ≤ max (wall2.a.x : ℚ) (wall2.b.x : ℚ) := by
      rcases hs with h | h | h | h <;> rw [Point.ext_iff] at h <;>
        obtain ⟨h1, -⟩ := h
      · refine ⟨wall.a.x, min_le_left _ _, le_max_left _ _, ?_, ?_⟩
        · rw [show ((wall.a.x : ℕ) : ℚ) = (wall2.a.x : ℚ) by exact_mod_cast h1.symm]
          exact min_le_left _ _
        · rw [show ((wall.a.x : ℕ) : ℚ) = (wall2.a.x : ℚ) by exact_mod_cast h1.symm]
          exact le_max_left _ _
      · refine ⟨wall.b.x, min_le_right _ _, le_max_right _ _, ?_, ?_⟩
        · rw [show ((wall.b.x : ℕ) : ℚ) = (wall2.a.x : ℚ) by exact_mod_cast h1.symm]
          exact min_le_left _ _
        · rw [show ((wall.b.x : ℕ) : ℚ) = (wall2.a.x : ℚ) by exact_mod_cast h1.symm]
          exact le_max_left _ _
      · refine ⟨wall.a.x, min_le_left _ _, le_max_left _ _, ?_, ?_⟩
        · rw [show ((wall.a.x : ℕ) : ℚ) = (wall2.b.x : ℚ) by exact_mod_cast h1.symm]
          exact min_le_right _ _
        · rw [show ((wall.a.x : ℕ) : ℚ) = (wall2.b.x : ℚ) by exact_mod_cast h1.symm]
          exact le_max_right _ _
      · refine ⟨wall.b.x, min_le_right _ _, le_max_right _ _, ?_, ?_⟩
        · rw [show ((wall.b.x : ℕ) : ℚ) = (wall2.b.x : ℚ) by exact_mod_cast h1.symm]
          exact min_le_right _ _
        · rw [show ((wall.b.x : ℕ) : ℚ) = (wall2.b.x : ℚ) by exact_mod_cast h1.symm]
          exact le_max_right _ _
    rw [mergeWalls_yeq wall wall2 wall.a.y rfl hwy.symm hcy (by omega),
      segPts_of_yeq _ rfl, segPts_of_yeq wall hwy, segPts_of_yeq wall2 h2y]
    ext p
    simp only [Set.mem_setOf_eq, Set.mem_union]
    rw [min_eq_left (by exact_mod_cast hmM), max_eq_right (by exact_mod_cast hmM),
      hminc, hmaxc, hcyQ]
    constructor
    · rintro ⟨hpy, hx1, hx2⟩
      rcases (mem_interval_union he1 he2 he3 he4).mp ⟨hx1, hx2⟩ with h | h
      · exact Or.inl ⟨hpy, h.1, h.2⟩
      · exact Or.inr ⟨hpy, h.1, h.2⟩
    · rintro (⟨hpy, hx1, hx2⟩ | ⟨hpy, hx1, hx2⟩)
      · exact ⟨hpy, (mem_interval_union he1 he2 he3 he4).mpr (Or.inl ⟨hx1, hx2⟩)⟩
      · exact ⟨hpy, (mem_interval_union he1 he2 he3 he4).mpr (Or.inr ⟨hx1, hx2⟩)⟩
  · -- Horizontal label: both walls lie on one vertical grid line
    have hwx : wall.a.x = wall.b.x := (orientation_horizontal_iff wall).mp horient
    have h2x : wall2.a.x = wall2.b.x :=
      (orientation_horizontal_iff wall2).mp (ho.trans horient)
    have hcx : wall2.a.x = wall.a.x := by
      rcases hs with h | h | h | h <;> rw [Point.ext_iff] at h <;> omega
    have hmM : min (min (min wall.a.y wall.b.y) wall2.a.y) wall2.b.y ≤
        max (max (max wall.a.y wall.b.y) wall2.a.y) wall2.b.y := by omega
    have hminc : ((min (min (min wall.a.y wall.b.y) wall2.a.y) wall2.b.y : ℕ) : ℚ) =
        min (min (wall.a.y : ℚ) (wall.b.y : ℚ)) (min (wall2.a.y : ℚ) (wall2.b.y : ℚ)) := by
      push_cast
      rw [min_assoc]
    have hmaxc : ((max (max (max wall.a.y wall.b.y) wall2.a.y) wall2.b.y : ℕ) : ℚ) =
        max (max (wall.a.y : ℚ) (wall.b.y : ℚ)) (max (wall2.a.y : ℚ) (wall2.b.y : ℚ)) := by
      push_cast
      rw [max_assoc]
    have hcxQ : ((wall2.a.x : ℕ) : ℚ) = (wall.a.x : ℚ) := by exact_mod_cast hcx
    obtain ⟨e, he1, he2, he3, he4⟩ :
        ∃ e : ℚ, min (wall.a.y : ℚ) (wall.b.y : ℚ) ≤ e ∧
          e ≤ max (wall.a.y : ℚ) (wall.b.y : ℚ) ∧
          min (wall2.a.y : ℚ) (wall2.b.y : ℚ) ≤ e ∧
          e ≤ max (wall2.a.y : ℚ) (wall2.b.y : ℚ) := by
      rcases hs with h | h | h | h <;> rw [Point.ext_iff] at h <;>
        obtain ⟨-, h2⟩ := h
      · refine ⟨wall.a.y, min_le_left _ _, le_max_left _ _, ?_, ?_⟩
        · rw [show ((wall.a.y : ℕ) : ℚ) = (wall2.a.y : ℚ) by exact_mod_cast h2.symm]
          exact min_le_left _ _
        · rw [show ((wall.a.y : ℕ) : ℚ) = (wall2.a.y : ℚ) by exact_mod_cast h2.symm]
          exact le_max_left _ _
      · refine ⟨wall.b.y, min_le_right _ _, le_max_right _ _, ?_, ?_⟩
        · rw [show ((wall.b.y : ℕ) : ℚ) = (wall2.a.y : ℚ) by exact_mod_cast h2.symm]
          exact min_le_left _ _
        · rw [show ((wall.b.y : ℕ) : ℚ) = (wall2.a.y : ℚ) by exact_mod_cast h2.symm]
          exact le_max_left _ _
      · refine ⟨wall.a.y, min_le_left _ _, le_max_left _ _, ?_, ?_⟩
        · rw [show ((wall.a.y : ℕ) : ℚ) = (wall2.b.y : ℚ) by exact_mod_cast h2.symm]
          exact min_le_right _ _
        · rw [show ((wall.a.y : ℕ) : ℚ) = (wall2.b.y : ℚ) by exact_mod_cast h2.symm]
          exact le_max_right _ _
      · refine ⟨wall.b.y, min_le_right _ _, le_max_right _ _, ?_, ?_⟩
        · rw [show ((wall.b.y : ℕ) : ℚ) = (wall2.b.y : ℚ) by exact_mod_cast h2.symm]
          exact min_le_right _ _
        · rw [show ((wall.b.y : ℕ) : ℚ) = (wall2.b.y : ℚ) by exact_mod_cast h2.symm]
          exact le_max_right _ _
    rw [mergeWalls_xeq wall wall2 wall.a.x rfl hwx.symm hcx (by omega),
      segPts_of_xeq _ rfl, segPts_of_xeq wall hwx, segPts_of_xeq wall2 h2x]
    ext p
    simp only [Set.mem_setOf_eq, Set.mem_union]
    rw [min_eq_left (by exact_mod_cast hmM), max_eq_right (by exact_mod_cast hmM),
      hminc, hmaxc, hcxQ]
    constructor
    · rintro ⟨hpy, hx1, hx2⟩
      rcases (mem_interval_union he1 he2 he3 he4).mp ⟨hx1, hx2⟩ with h | h
      · exact Or.inl ⟨hpy, h.1, h.2⟩
      · exact Or.inr ⟨hpy, h.1, h.2⟩
    · rintro (⟨hpy, hx1, hx2⟩ | ⟨hpy, hx1, hx2⟩)
      · exact ⟨hpy, (mem_interval_union he1 he2 he3 he4).mpr (Or.inl ⟨hx1, hx2⟩)⟩
      · exact ⟨hpy, (mem_interval_union he1 he2 he3 he4).mpr (Or.inr ⟨hx1, hx2⟩)⟩

/-- Merging preserves axis-alignment. -/
lemma mergeWalls_axisAligned (wall wall2 : Line ℕ) (hext : wall2.extends_ wall = true)
    (haa : axisAligned wall) (haa2 : axisAligned wall2) :
    axisAligned (mergeWalls wall wall2) := by
  have hext' := hext
  rw [extends_iff] at hext'
  obtain ⟨hs, ho⟩ := hext'
  rcases horient : wall.orientation with _ | _
  · have hwx : wall.a.x ≠ wall.b.x := (orientation_vertical_iff wall).mp horient
    have h2x : wall2.a.x ≠ wall2.b.x :=
      (orientation_vertical_iff wall2).mp (ho.trans horient)
    have hwy : wall.a.y = wall.b.y := haa.resolve_left hwx
    have h2y : wall2.a.y = wall2.b.y := haa2.resolve_left h2x
    have hcy : wall2.a.y = wall.a.y := by
      rcases hs with h | h | h | h <;> rw [Point.ext_iff] at h <;> omega
    rw [mergeWalls_yeq wall wall2 wall.a.y rfl hwy.symm hcy (by omega)]
    exact Or.inr rfl
  · have hwx : wall.a.x = wall.b.x := (orientation_horizontal_iff wall).mp horient
    have h2x : wall2.a.x = wall2.b.x :=
      (orientation_horizontal_iff wall2).mp (ho.trans horient)
    have hcx : wall2.a.x = wall.a.x := by
      rcases hs with h | h | h | h <;> rw [Point.ext_iff] at h <;> omega
    rw [mergeWalls_xeq wall wall2 wall.a.x rfl hwx.symm hcx (by omega)]
    exact Or.inl rfl

lemma wallPts_cons (x : Line ℕ) (l : List (Line ℕ)) :
    wallPts (x :: l) = segPts x ∪ wallPts l := by
  rw [← List.singleton_append, wallPts_append, wallPts_singleton]

/-- The compressor loop preserves the union of point-sets of its working set
plus its output set. -/
lemma compress_go_pts :
    ∀ (n : ℕ) (lab zipped : List (Line ℕ)), lab.length = n →
      (∀ l ∈ lab, axisAligned l) →
      wallPts (compress_go lab zipped) = wallPts lab ∪ wallPts zipped := by
  intro n
  induction n using Nat.strong_induction_on with
  | _ n ih =>
    intro lab zipped hlen haa
    rcases List.eq_nil_or_concat lab with rfl | ⟨ys, wall, rfl⟩
    · rw [compress_go_nil, wallPts_nil, Set.empty_union]
    · rw [List.concat_eq_append] at hlen haa ⊢
      rw [compress_go_concat]
      rcases hf : ys.findIdx? (fun w => w.extends_ wall) with _ | idx
      · rw [hf]
        rw [ih ys.length (by simp at hlen; omega) ys (zipped ++ [wall]) rfl
            (fun l hl => haa l (List.mem_append.mpr (Or.inl hl)))]
        rw [wallPts_append ys [wall], wallPts_append zipped [wall]]
        ext p
        simp only [Set.mem_union]
        tauto
      · rw [hf]
        have hidx : idx < ys.length := (List.findIdx?_eq_some_iff_findIdx_eq.mp hf).1
        have hysne : ys ≠ [] := by
          intro h
          subst h
          simp at hidx
        have hw2mem : ys.getD idx wall ∈ ys := by
          rw [List.getD_eq_getElem ys wall hidx]
          exact List.getElem_mem _
        have hw2ext : (ys.getD idx wall).extends_ wall = true := findIdx?_getD hf
        have haaw : axisAligned wall := haa wall (List.mem_append.mpr (Or.inr (by simp)))
        have haaw2 : axisAligned (ys.getD idx wall) :=
          haa _ (List.mem_append.mpr (Or.inl hw2mem))
        rw [ih ys.length (by simp at hlen; omega) _ zipped
            (by
              simp only [List.length_append, List.length_cons, List.length_nil, swapRemove,
                List.length_dropLast, List.length_set]
              omega)
            (by
              intro l hl
              rcases List.mem_append.mp hl with hl | hl
              · exact haa l
                  (List.mem_append.mpr (Or.inl (swapRemove_subset ys idx wall hysne hl)))
              · simp only [List.mem_singleton] at hl
                rw [hl]
                exact mergeWalls_axisAligned wall _ hw2ext haaw haaw2)]
        rw [wallPts_append _ [mergeWalls wall (ys.getD idx wall)], wallPts_singleton,
          segPts_merge wall _ hw2ext haaw haaw2,
          wallPts_append ys [wall], wallPts_singleton,
          wallPts_perm (swapRemove_perm ys idx wall hidx),
          wallPts_perm (perm_getElem_cons_eraseIdx ys idx hidx),
          ← List.getD_eq_getElem ys wall hidx, wallPts_cons]
        ext p
        simp only [Set.mem_union]
        tauto

/-- Union of point-sets after compression equals the union before, for any
axis-aligned input set. -/
lemma compress_coverage_of_axisAligned (lab : List (Line ℕ))
    (haa : ∀ l ∈ lab, axisAligned l) :
    wallPts (compress_labyrinth lab) = wallPts lab := by
  rw [compress_labyrinth, compress_go_pts lab.length lab [] rfl haa, wallPts_nil,
    Set.union_empty]

/-- The lattice cells enumerated as in make_labyrinth (src/game.rs lines
101-104): the cartesian product (0..nx) x (0..ny) with x as the outer loop. -/
def cellsList (nx ny : ℕ) : List (Point ℕ) :=
  (List.range nx).flatMap (fun x => (List.range ny).map (fun y => Point.mk x y))

/-- Edge metadata: the left area id and, for inner edges, the right area id. -/
abbrev EdgeVal := ℕ × Option ℕ

/-- Insert one boundary edge into the edge map (src/game.rs lines 121-127):
the Rust entry(edge).and_modify(set right id).or_insert((area_id, None)),
with the HashMap modelled as an association list in insertion order. -/
def insertEdge (m : List (Line ℕ × EdgeVal)) (k : Line ℕ) (area_id : ℕ) :
    List (Line ℕ × EdgeVal) :=
  if m.any (fun kv => decide (kv.1 = k)) then
    m.map (fun kv => if kv.1 = k then (kv.1, (kv.2.1, some area_id)) else kv)
  else m ++ [(k, (area_id, none))]

/-- Association-list lookup (HashMap::get). -/
def alookup {κ β : Type} [DecidableEq κ] (m : List (κ × β)) (k : κ) : Option β :=
  (m.find? (fun kv => decide (kv.1 = k))).map (fun kv => kv.2)

/-- Association-list removal returning the removed value (HashMap::remove);
None models the Rust unwrap panic on a missing key. -/
def aremove {κ β : Type} [DecidableEq κ] (m : List (κ × β)) (k : κ) :
    Option (β × List (κ × β)) :=
  match m.find? (fun kv => decide (kv.1 = k)) with
  | none => none
  | some kv => some (kv.2, m.eraseP (fun kv => decide (kv.1 = k)))

/-- State of the carving loop: areas (id to cell set) and the edge map as
association lists, plus the inner_edges working vector. -/
structure LabState where
  areas : List (ℕ × List (Point ℕ))
  edges : List (Line ℕ × EdgeVal)
  inner_edges : List (Line ℕ)

/-- The state before the carving loop (src/game.rs lines 98-132). -/
def initState (nx ny : ℕ) : LabState :=
  let cells := cellsList nx ny
  let edges := cells.enum.foldl
    (fun m ac => (cellEdges ac.2).foldl (fun m e => insertEdge m e ac.1) m) []
  { areas := cells.enum.map (fun ac => (ac.1, [ac.2]))
    edges := edges
    inner_edges := edges.filterMap (fun kv => kv.2.2.map (fun _ => kv.1)) }

/-- Dummy segment used as the irrelevant default of in-bounds list accesses. -/
def dummyLine : Line ℕ :=
  ⟨⟨0, 0⟩, ⟨0, 0⟩⟩

/-- One iteration of the carving loop (src/game.rs lines 134-157): retain the
inner edges whose two area ids still differ, draw one at random (r % len,
None models the modulo-by-zero panic of an empty candidate list), remove it
from the edge map, merge the right area into the left and relabel every edge
value.  The retain predicate drops an entry whose key is missing from the map
or lacks a right id, which in Rust would be an unwrap panic; the loop
invariant proved below shows such entries never occur. -/
def carveStep (r : ℕ) (st : LabState) : Option LabState :=
  let inner := st.inner_edges.filter (fun e =>
    match alookup st.edges e with
    | some v =>
        match v.2 with
        | some rid => decide (v.1 ≠ rid)
        | none => false
    | none => false)
  if inner.length = 0 then none
  else
    let idx := r % inner.length
    let edge_id := inner.getD idx dummyLine
    match aremove st.edges edge_id with
    | none => none
    | some (edge, edges') =>
      match edge.2 with
      | none => none
      | some rid =>
        match aremove st.areas rid with
        | none => none
        | some (rightCells, areas') =>
          some
            { areas := areas'.map (fun kv =>
                if kv.1 = edge.1 then (kv.1, kv.2 ++ rightCells) else kv)
              edges := edges'.map (fun kv =>
                (kv.1, ((if kv.2.1 = rid then edge.1 else kv.2.1),
                  match kv.2.2 with
                  | some v2 => if v2 = rid then some edge.1 else some v2
                  | none => none)))
              inner_edges := swapRemove inner idx dummyLine }

/-- The carving loop (while areas.len() > 1), with fuel; the initial number of
areas is enough fuel because every iteration removes one area. -/
def carveLoop (stream : ℕ → ℕ) : ℕ → ℕ → LabState → Option LabState
  | 0, _, st => if st.areas.length > 1 then none else some st
  | fuel + 1, k, st =>
      if st.areas.length > 1 then
        match carveStep (stream k) st with
        | none => none
        | some st' => carveLoop stream fuel (k + 1) st'
      else some st

/-- The dropout loop (src/game.rs lines 164-168): n random removals from the
surviving inner edges; edges.remove ignores a missing key, but an empty
candidate vector panics on the modulo (None). -/
def dropoutLoop (stream : ℕ → ℕ) :
    ℕ → ℕ → List (Line ℕ) → List (Line ℕ × EdgeVal) →
      Option (List (Line ℕ × EdgeVal))
  | 0, _, _, edges => some edges
  | n + 1, k, inner, edges =>
      if inner.length = 0 then none
      else
        let idx := stream k % inner.length
        let edge_id := inner.getD idx dummyLine
        dropoutLoop stream n (k + 1) (swapRemove inner idx dummyLine)
          (edges.eraseP (fun kv => decide (kv.1 = edge_id)))

/-- make_labyrinth from src/game.rs lines 94-171.  The window dimensions are
passed as parameters (the source reads the WINDOW_DIMENSIONS constant); the
RNG is modelled as two draw streams, one for the carving loop and one for the
dropout loop (any execution of the source corresponds to some pair of
streams).  A zero grid_size is a Rust division-by-zero panic (None). -/
def make_labyrinth (winW winH grid_size : ℕ) (dropout : ℚ) (s1 s2 : ℕ → ℕ) :
    Option (List (Line ℕ)) :=
  if grid_size = 0 then none
  else
    let nx := winW / grid_size
    let ny := winH / grid_size
    let st0 := initState nx ny
    match carveLoop s1 st0.areas.length 0 st0 with
    | none => none
    | some st =>
      let inner := st.edges.filterMap (fun kv => kv.2.2.map (fun _ => kv.1))
      let n := ((inner.length : ℚ) * dropout).floor.toNat
      match dropoutLoop s2 n 0 inner st.edges with
      | none => none
      | some edges => some (edges.map (fun kv => kv.1))

/-- Conversion of a lattice segment to world coordinates (From Line usize for
Line f32 in src/geometrie.rs). -/
def lineToQ (l : Line ℕ) : Line ℚ :=
  ⟨toQ l.a, toQ l.b⟩

/-- make_walls from src/game.rs lines 86-92: generate, compress, scale. -/
def make_walls (winW winH grid_size : ℕ) (dropout : ℚ) (s1 s2 : ℕ → ℕ) :
    Option (List (Line ℚ)) :=
  (make_labyrinth winW winH grid_size dropout s1 s2).map
    (fun labyrinth => (compress_labyrinth labyrinth).map
      (fun line => lineToQ (line * grid_size)))

/-- The configuration-relevant fields produced by Game::new. -/
structure GameLite where
  walls : List (Line ℚ)
  threshold : ℚ

/-- Game::new (src/game.rs lines 20-34), reduced to the configuration-relevant
computations; it performs no validation.  The walls are generated first; then
get_random_point computes rand % (window / grid_size), a modulo-by-zero panic
(None) when the grid has zero extent; threshold is the usize division
grid_size / target_threshold, a division-by-zero panic (None) when the
divisor is zero. -/
def game_new (winW winH grid_size : ℕ) (dropout : ℚ) (target_threshold : ℕ)
    (s1 s2 : ℕ → ℕ) : Option GameLite :=
  match make_walls winW winH grid_size dropout s1 s2 with
  | none => none
  | some walls =>
    if winW / grid_size = 0 ∨ winH / grid_size = 0 then none
    else if target_threshold = 0 then none
    else some ⟨walls, ((grid_size / target_threshold : ℕ) : ℚ)⟩

/-- The single-lattice-cell computation shared by the C9 results: generation
completes and returns the four borders of cell (0,0); construction succeeds
for every nonzero threshold divisor. -/
lemma single_cell_generation (winW winH grid_size : ℕ) (dropout : ℚ) (s1 s2 : ℕ → ℕ)
    (h1 : winW / grid_size = 1) (h2 : winH / grid_size = 1) (hg : grid_size ≠ 0) :
    make_labyrinth winW winH grid_size dropout s1 s2 = some (cellEdges ⟨0, 0⟩) ∧
      (∀ tt : ℕ, tt ≠ 0 →
        (game_new winW winH grid_size dropout tt s1 s2).isSome = true) := by
  have hC : carveLoop s1 1 0 (initState 1 1) = some (initState 1 1) := rfl
  have h3 : (initState 1 1).areas.length = 1 := rfl
  have h4 : (initState 1 1).edges.filterMap (fun kv => kv.2.2.map (fun _ => kv.1)) =
      ([] : List (Line ℕ)) := rfl
  have hmain : make_labyrinth winW winH grid_size dropout s1 s2 =
      some (cellEdges ⟨0, 0⟩) := by
    simp only [make_labyrinth, hg, if_false, ite_false, h1, h2, h3, hC, h4,
      List.length_nil, Nat.cast_zero, zero_mul, Int.floor_zero, Int.toNat_zero,
      dropoutLoop]
    rfl
  refine ⟨hmain, fun tt htt => ?_⟩
  simp only [game_new, make_walls, hmain, Option.map_some', h1, h2]
  rw [if_neg (by omega : ¬((1 : ℕ) = 0 ∨ (1 : ℕ) = 0)), if_neg htt]
  rfl

/-- C9 counterexample: the configuration window 10 x 10 with grid_size 10
yields exactly one lattice cell, yet construction is not rejected: generation
runs to completion, silently produces the degenerate maze consisting of the
four borders of the single cell, and Game::new succeeds with threshold 3. -/
theorem C9_counterexample :
    make_labyrinth 10 10 10 0 (fun _ => 0) (fun _ => 0) = some (cellEdges ⟨0, 0⟩) ∧
      (cellEdges ⟨0, 0⟩).length = 4 ∧
      (game_new 10 10 10 0 3 (fun _ => 0) (fun _ => 0)).isSome = true := by
  have h := single_cell_generation 10 10 10 0 (fun _ => 0) (fun _ => 0)
    (by norm_num) (by norm_num) (by norm_num)
  exact ⟨h.1, rfl, h.2 3 (by norm_num)⟩

lemma aremove_some_snd {κ β : Type} [DecidableEq κ] {m : List (κ × β)} {k : κ}
    {v : β} {m' : List (κ × β)} (h : aremove m k = some (v, m')) :
    m' = m.eraseP (fun kv => decide (kv.1 = k)) := by
  simp only [aremove] at h
  split at h
  · exact absurd h (by simp)
  · rw [Option.some_inj, Prod.mk.injEq] at h
    exact h.2.symm

lemma aremove_some_mem {κ β : Type} [DecidableEq κ] {m : List (κ × β)} {k : κ}
    {v : β} {m' : List (κ × β)} (h : aremove m k = some (v, m')) : (k, v) ∈ m := by
  simp only [aremove] at h
  split at h
  · exact absurd h (by simp)
  · rename_i kv hfind
    rw [Option.some_inj, Prod.mk.injEq] at h
    have hmem := List.mem_of_find?_eq_some hfind
    have hkey := List.find?_some hfind
    simp only [decide_eq_true_eq] at hkey
    have : kv = (k, v) := by
      rw [Prod.ext_iff]
      exact ⟨hkey, h.1⟩
    rw [← this]
    exact hmem

lemma cellEdges_axisAligned (c : Point ℕ) : ∀ e ∈ cellEdges c, axisAligned e := by
  intro e he
  simp only [cellEdges, List.mem_cons, List.not_mem_nil, or_false] at he
  rcases he with rfl | rfl | rfl | rfl
  · exact Or.inr rfl
  · exact Or.inl rfl
  · exact Or.inl rfl
  · exact Or.inr rfl

lemma insertEdge_keys {P : Line ℕ → Prop} {m : List (Line ℕ × EdgeVal)} {k : Line ℕ}
    {aid : ℕ} (hm : ∀ kv ∈ m, P kv.1) (hk : P k) :
    ∀ kv ∈ insertEdge m k aid, P kv.1 := by
  intro kv hkv
  simp only [insertEdge] at hkv
  split_ifs at hkv with h
  · rcases List.mem_map.mp hkv with ⟨kv0, hkv0, rfl⟩
    split_ifs <;> exact hm kv0 hkv0
  · rcases List.mem_append.mp hkv with h2 | h2
    · exact hm kv h2
    · simp only [List.mem_singleton] at h2
      rw [h2]
      exact hk

lemma foldl_cellEdges_keys {P : Line ℕ → Prop} :
    ∀ (es : List (Line ℕ)) (m : List (Line ℕ × EdgeVal)) (aid : ℕ),
      (∀ e ∈ es, P e) → (∀ kv ∈ m, P kv.1) →
      ∀ kv ∈ es.foldl (fun m e => insertEdge m e aid) m, P kv.1 := by
  intro es
  induction es with
  | nil => intro m aid _ hm; exact hm
  | cons e es ih =>
    intro m aid hes hm
    exact ih _ aid (fun e' he' => hes e' (List.mem_cons_of_mem _ he'))
      (insertEdge_keys hm (hes e (List.mem_cons_self _ _)))

lemma initState_keys_axisAligned (nx ny : ℕ) :
    ∀ kv ∈ (initState nx ny).edges, axisAligned kv.1 := by
  simp only [initState]
  generalize (cellsList nx ny).enum = l
  have key : ∀ (l : List (ℕ × Point ℕ)) (m : List (Line ℕ × EdgeVal)),
      (∀ kv ∈ m, axisAligned kv.1) →
      ∀ kv ∈ l.foldl
        (fun m ac => (cellEdges ac.2).foldl (fun m e => insertEdge m e ac.1) m) m,
        axisAligned kv.1 := by
    intro l
    induction l with
    | nil => intro m hm; exact hm
    | cons ac l ih =>
      intro m hm
      exact ih _ (foldl_cellEdges_keys _ _ _ (cellEdges_axisAligned ac.2) hm)
  exact key l [] (by simp)

lemma carveStep_keys {P : Line ℕ → Prop} {r : ℕ} {st st' : LabState}
    (h : carveStep r st = some st') (hm : ∀ kv ∈ st.edges, P kv.1) :
    ∀ kv ∈ st'.edges, P kv.1 := by
  simp only [carveStep] at h
  split_ifs at h
  split at h
  · exact absurd h (by simp)
  · rename_i pair heq
    split at h
    · exact absurd h (by simp)
    · rename_i rid hval
      split at h
      · exact absurd h (by simp)
      · rename_i pair2 heq2
        rw [Option.some_inj] at h
        subst h
        intro kv hkv
        simp only [List.mem_map] at hkv
        rcases hkv with ⟨kv0, hkv0, rfl⟩
        have hsub : kv0 ∈ st.edges := by
          have he := aremove_some_snd heq
          rw [he] at hkv0
          exact List.eraseP_subset _ hkv0
        exact hm kv0 hsub

/-- C9 amended: construction performs no validation.  For every configuration
that yields exactly one lattice cell, the generator is not rejected: it
silently returns the degenerate maze consisting of the four borders of the
single cell, and Game::new completes successfully for every nonzero threshold
divisor (a zero threshold divisor or a zero-extent grid panics during
construction, after generation, rather than being rejected up front). -/
theorem C9_no_validation (winW winH grid_size : ℕ) (dropout : ℚ) (s1 s2 : ℕ → ℕ)
    (h1 : winW / grid_size = 1) (h2 : winH / grid_size = 1) (hg : grid_size ≠ 0) :
    make_labyrinth winW winH grid_size dropout s1 s2 = some (cellEdges ⟨0, 0⟩) ∧
      (∀ tt : ℕ, tt ≠ 0 →
        (game_new winW winH grid_size dropout tt s1 s2).isSome = true) :=
  single_cell_generation winW winH grid_size dropout s1 s2 h1 h2 hg

/-- Witness for C9 at a 20 x 20 window with grid_size 20 and threshold 5. -/
theorem C9_no_validation_witness :
    make_labyrinth 20 20 20 (1 / 2) (fun _ => 1) (fun _ => 2) = some (cellEdges ⟨0, 0⟩) ∧
      (game_new 20 20 20 (1 / 2) 5 (fun _ => 1) (fun _ => 2)).isSome = true := by
  have h := C9_no_validation 20 20 20 (1 / 2) (fun _ => 1) (fun _ => 2)
    (by norm_num) (by norm_num) (by norm_num)
  exact ⟨h.1, h.2 5 (by norm_num)⟩

lemma carveLoop_keys {P : Line ℕ → Prop} {stream : ℕ → ℕ} :
    ∀ {fuel k : ℕ} {st st' : LabState}, carveLoop stream fuel k st = some st' →
      (∀ kv ∈ st.edges, P kv.1) → ∀ kv ∈ st'.edges, P kv.1 := by
  intro fuel
  induction fuel with
  | zero =>
    intro k st st' h hm
    simp only [carveLoop] at h
    split_ifs at h
    rw [Option.some_inj] at h
    subst h
    exact hm
  | succ fuel ih =>
    intro k st st' h hm
    simp only [carveLoop] at h
    split_ifs at h
    · split at h
      · exact absurd h (by simp)
      · rename_i st1 hstep
        exact ih h (carveStep_keys hstep hm)
    · rw [Option.some_inj] at h
      subst h
      exact hm

lemma dropoutLoop_keys {P : Line ℕ → Prop} {stream : ℕ → ℕ} :
    ∀ {n k : ℕ} {inner : List (Line ℕ)} {edges edges' : List (Line ℕ × EdgeVal)},
      dropoutLoop stream n k inner edges = some edges' →
      (∀ kv ∈ edges, P kv.1) → ∀ kv ∈ edges', P kv.1 := by
  intro n
  induction n with
  | zero =>
    intro k inner edges edges' h hm
    simp only [dropoutLoop, Option.some_inj] at h
    subst h
    exact hm
  | succ n ih =>
    intro k inner edges edges' h hm
    simp only [dropoutLoop] at h
    split_ifs at h
    exact ih h (fun kv hkv => hm kv (List.eraseP_subset _ hkv))

/-- Every wall returned by the maze generator is axis-aligned. -/
lemma make_labyrinth_axisAligned {winW winH grid_size : ℕ} {dropout : ℚ}
    {s1 s2 : ℕ → ℕ} {lab : List (Line ℕ)}
    (h : make_labyrinth winW winH grid_size dropout s1 s2 = some lab) :
    ∀ l ∈ lab, axisAligned l := by
  simp only [make_labyrinth] at h
  split_ifs at h
  split at h
  · exact absurd h (by simp)
  · rename_i st hloop
    split at h
    · exact absurd h (by simp)
    · rename_i edges hdrop
      rw [Option.some_inj] at h
      subst h
      intro l hl
      simp only [List.mem_map] at hl
      rcases hl with ⟨kv, hkv, rfl⟩
      exact dropoutLoop_keys hdrop
        (carveLoop_keys hloop (initState_keys_axisAligned _ _)) kv hkv

/-- C4: compression coverage: for every wall set produced by the maze
generator, the union of the point-sets of the compressed walls equals the
union of the point-sets of the raw walls; no geometry is lost or added. -/
theorem C4_compress_coverage (winW winH grid_size : ℕ) (dropout : ℚ)
    (s1 s2 : ℕ → ℕ) (lab : List (Line ℕ))
    (hw : make_labyrinth winW winH grid_size dropout s1 s2 = some lab) :
    wallPts (compress_labyrinth lab) = wallPts lab :=
  compress_coverage_of_axisAligned lab (make_labyrinth_axisAligned hw)

/-- Witness for C4 on the concrete single-cell maze produced with the
constant-zero random streams. -/
theorem C4_compress_coverage_witness :
    wallPts (compress_labyrinth (cellEdges ⟨0, 0⟩)) = wallPts (cellEdges ⟨0, 0⟩) :=
  C4_compress_coverage 10 10 10 0 (fun _ => 0) (fun _ => 0) _
    (single_cell_generation 10 10 10 0 (fun _ => 0) (fun _ => 0)
      (by norm_num) (by norm_num) (by norm_num)).1

/-- A lattice cell lies inside the nx x ny cell grid. -/
def inB (nx ny : ℕ) (c : Point ℕ) : Prop :=
  c.x < nx ∧ c.y < ny

/-- The border segment between a cell and its east neighbour (the cell's
right edge in make_labyrinth's edge synthesis). -/
def rightSeg (c : Point ℕ) : Line ℕ :=
  ⟨⟨c.x + 1, c.y⟩, ⟨c.x + 1, c.y + 1⟩⟩

/-- The border segment between a cell and its south neighbour (the cell's
bottom edge in make_labyrinth's edge synthesis). -/
def botSeg (c : Point ℕ) : Line ℕ :=
  ⟨⟨c.x, c.y + 1⟩, ⟨c.x + 1, c.y + 1⟩⟩

/-- Two in-bounds cells are adjacent in the maze's dual graph when they are
lattice neighbours and their shared border segment is absent from the wall
list (an open border). -/
def openAdj (nx ny : ℕ) (L : List (Line ℕ)) (a b : Point ℕ) : Prop :=
  inB nx ny a ∧ inB nx ny b ∧
    ((b = ⟨a.x + 1, a.y⟩ ∧ rightSeg a ∉ L) ∨ (a = ⟨b.x + 1, b.y⟩ ∧ rightSeg b ∉ L) ∨
     (b = ⟨a.x, a.y + 1⟩ ∧ botSeg a ∉ L) ∨ (a = ⟨b.x, b.y + 1⟩ ∧ botSeg b ∉ L))

/-- The dual graph of a maze: vertices are the in-bounds lattice cells, edges
the open (wall-free) shared borders. -/
def dualGraph (nx ny : ℕ) (L : List (Line ℕ)) :
    SimpleGraph {c : Point ℕ // c.x < nx ∧ c.y < ny} where
  Adj u v := openAdj nx ny L u.1 v.1
  symm := by
    intro u v h
    obtain ⟨h1, h2, h3⟩ := h
    exact ⟨h2, h1, by tauto⟩
  loopless := by
    rintro ⟨⟨cx, cy⟩, hu⟩ h
    obtain ⟨-, -, h3⟩ := h
    rcases h3 with ⟨h, -⟩ | ⟨h, -⟩ | ⟨h, -⟩ | ⟨h, -⟩ <;>
      simp only [Point.mk.injEq] at h <;> omega

/-- The edges of the carved passages, as unordered pairs of cells. -/
def pairEdges (carved : List (Point ℕ × Point ℕ)) : Set (Sym2 (Point ℕ)) :=
  {e | ∃ p ∈ carved, e = s(p.1, p.2)}

/-- The graph on all lattice cells whose edges are the carved passages. -/
def carvedGraph (carved : List (Point ℕ × Point ℕ)) : SimpleGraph (Point ℕ) :=
  SimpleGraph.fromEdgeSet (pairEdges carved)

lemma pairEdges_append (carved : List (Point ℕ × Point ℕ)) (p : Point ℕ × Point ℕ) :
    pairEdges (carved ++ [p]) = pairEdges carved ∪ {s(p.1, p.2)} := by
  ext e
  simp only [pairEdges, Set.mem_setOf_eq, List.mem_append, List.mem_singleton,
    Set.mem_union, Set.mem_singleton_iff]
  constructor
  · rintro ⟨q, hq | hq, rfl⟩
    · exact Or.inl ⟨q, hq, rfl⟩
    · rw [hq]
      exact Or.inr rfl
  · rintro (⟨q, hq, rfl⟩ | rfl)
    · exact ⟨q, Or.inl hq, rfl⟩
    · exact ⟨p, Or.inr rfl, rfl⟩

lemma carvedGraph_append (carved : List (Point ℕ × Point ℕ)) (p : Point ℕ × Point ℕ) :
    carvedGraph (carved ++ [p]) =
      carvedGraph carved ⊔ SimpleGraph.fromEdgeSet {s(p.1, p.2)} := by
  rw [carvedGraph, pairEdges_append, SimpleGraph.fromEdgeSet_union]
  rfl

lemma carvedGraph_le_append (carved : List (Point ℕ × Point ℕ)) (p : Point ℕ × Point ℕ) :
    carvedGraph carved ≤ carvedGraph (carved ++ [p]) := by
  rw [carvedGraph_append]
  exact le_sup_left

/-- Reachability induction: any reflexive relation closed under graph steps
contains the reachability relation. -/
lemma reachable_rec {V : Type} {G : SimpleGraph V} {R : V → V → Prop}
    (hrefl : ∀ a, R a a) (hstep : ∀ a b c, G.Adj a b → R b c → R a c)
    {a b : V} (h : G.Reachable a b) : R a b := by
  obtain ⟨w⟩ := h
  induction w with
  | nil => exact hrefl _
  | cons hadj _ ih => exact hstep _ _ _ hadj ih

/-- Adding an edge between two vertices of an acyclic graph not yet connected
keeps the graph acyclic (the new edge is a bridge). -/
lemma isAcyclic_sup_edge {V : Type} {G : SimpleGraph V} {u v : V}
    (hG : G.IsAcyclic) (hr : ¬G.Reachable u v) :
    (G ⊔ SimpleGraph.fromEdgeSet {s(u, v)}).IsAcyclic := by
  have hne : u ≠ v := fun h => hr (h ▸ SimpleGraph.Reachable.refl u)
  have hbridge : (G ⊔ SimpleGraph.fromEdgeSet {s(u, v)}).IsBridge s(u, v) := by
    rw [SimpleGraph.isBridge_iff]
    refine ⟨(SimpleGraph.sup_adj _ _ _ _).mpr (Or.inr ((SimpleGraph.fromEdgeSet_adj _).mpr
      ⟨rfl, hne⟩)), ?_⟩
    intro hreach
    apply hr
    refine hreach.mono ?_
    intro a b hab
    rw [SimpleGraph.sdiff_adj, SimpleGraph.sup_adj _ _ _ _] at hab
    rcases hab with ⟨hl | hl, hnr⟩
    · exact hl
    · exact absurd hl hnr
  intro w c hc
  by_cases he : s(u, v) ∈ c.edges
  · exact (SimpleGraph.isBridge_iff_adj_and_forall_cycle_not_mem.mp hbridge).2 c hc he
  · refine hG (c.transfer G ?_) (hc.transfer _)
    intro e hec
    have hG' : e ∈ (G ⊔ SimpleGraph.fromEdgeSet {s(u, v)}).edgeSet :=
      c.edges_subset_edgeSet hec
    rw [SimpleGraph.edgeSet_sup] at hG'
    rcases hG' with hl | hl
    · exact hl
    · rw [SimpleGraph.edgeSet_fromEdgeSet] at hl
      obtain ⟨hl1, -⟩ := hl
      rw [Set.mem_singleton_iff] at hl1
      rw [hl1] at hec
      exact absurd hec he

lemma mem_cellEdges_iff (d : Point ℕ) (s : Line ℕ) :
    s ∈ cellEdges d ↔
      s = ⟨d, ⟨d.x + 1, d.y⟩⟩ ∨ s = ⟨d, ⟨d.x, d.y + 1⟩⟩ ∨
        s = rightSeg d ∨ s = botSeg d := by
  simp [cellEdges, rightSeg, botSeg]

/-- Two distinct cells sharing a boundary segment are lattice neighbours and
the segment is the right or bottom edge of the west/north one. -/
lemma shared_edge_cases {d1 d2 : Point ℕ} {s : Line ℕ} (h1 : s ∈ cellEdges d1)
    (h2 : s ∈ cellEdges d2) (hne : d1 ≠ d2) :
    (d2 = ⟨d1.x + 1, d1.y⟩ ∧ s = rightSeg d1) ∨
    (d1 = ⟨d2.x + 1, d2.y⟩ ∧ s = rightSeg d2) ∨
    (d2 = ⟨d1.x, d1.y + 1⟩ ∧ s = botSeg d1) ∨
    (d1 = ⟨d2.x, d2.y + 1⟩ ∧ s = botSeg d2) := by
  obtain ⟨x1, y1⟩ := d1
  obtain ⟨x2, y2⟩ := d2
  obtain ⟨⟨ax, ay⟩, ⟨bx, cy⟩⟩ := s
  rw [mem_cellEdges_iff] at h1 h2
  simp only [ne_eq, Point.mk.injEq, not_and] at hne
  rcases h1 with h1 | h1 | h1 | h1 <;> rcases h2 with h2 | h2 | h2 | h2 <;>
    simp only [rightSeg, botSeg, Line.mk.injEq, Point.mk.injEq] at h1 h2 ⊢ <;>
    omega

/-- The border between two in-bounds lattice neighbours, with the pair stated
west/north cell first. -/
def innerSeg (nx ny : ℕ) (c c' : Point ℕ) (s : Line ℕ) : Prop :=
  inB nx ny c ∧ inB nx ny c' ∧
    ((c' = ⟨c.x + 1, c.y⟩ ∧ s = rightSeg c) ∨ (c' = ⟨c.x, c.y + 1⟩ ∧ s = botSeg c))

lemma innerSeg_inj {nx ny : ℕ} {c c' d d' : Point ℕ} {s : Line ℕ}
    (h1 : innerSeg nx ny c c' s) (h2 : innerSeg nx ny d d' s) : c = d ∧ c' = d' := by
  obtain ⟨-, -, hc⟩ := h1
  obtain ⟨-, -, hd⟩ := h2
  obtain ⟨cx, cy⟩ := c
  obtain ⟨dx, dy⟩ := d
  obtain ⟨cx', cy'⟩ := c'
  obtain ⟨dx', dy'⟩ := d'
  obtain ⟨⟨sax, say⟩, ⟨sbx, sby⟩⟩ := s
  simp only [rightSeg, botSeg, Line.mk.injEq, Point.mk.injEq] at hc hd ⊢
  omega

lemma innerSeg_mem_cellEdges {nx ny : ℕ} {c c' : Point ℕ} {s : Line ℕ}
    (h : innerSeg nx ny c c' s) : s ∈ cellEdges c ∧ s ∈ cellEdges c' := by
  obtain ⟨-, -, hc⟩ := h
  rcases hc with ⟨rfl, rfl⟩ | ⟨rfl, rfl⟩
  · constructor
    · rw [mem_cellEdges_iff]
      tauto
    · rw [mem_cellEdges_iff]
      right
      left
      simp [rightSeg]
  · constructor
    · rw [mem_cellEdges_iff]
      tauto
    · rw [mem_cellEdges_iff]
      left
      simp [botSeg]

lemma innerSeg_of_shared {nx ny : ℕ} {d1 d2 : Point ℕ} {s : Line ℕ}
    (hb1 : inB nx ny d1) (hb2 : inB nx ny d2) (h1 : s ∈ cellEdges d1)
    (h2 : s ∈ cellEdges d2) (hne : d1 ≠ d2) :
    ∃ c c', innerSeg nx ny c c' s ∧ ((c = d1 ∧ c' = d2) ∨ (c = d2 ∧ c' = d1)) := by
  rcases shared_edge_cases h1 h2 hne with ⟨hc, hs⟩ | ⟨hc, hs⟩ | ⟨hc, hs⟩ | ⟨hc, hs⟩
  · exact ⟨d1, d2, ⟨hb1, hb2, Or.inl ⟨hc, hs⟩⟩, Or.inl ⟨rfl, rfl⟩⟩
  · exact ⟨d2, d1, ⟨hb2, hb1, Or.inl ⟨hc, hs⟩⟩, Or.inr ⟨rfl, rfl⟩⟩
  · exact ⟨d1, d2, ⟨hb1, hb2, Or.inr ⟨hc, hs⟩⟩, Or.inl ⟨rfl, rfl⟩⟩
  · exact ⟨d2, d1, ⟨hb2, hb1, Or.inr ⟨hc, hs⟩⟩, Or.inr ⟨rfl, rfl⟩⟩

lemma reachable_toSubtype {nx ny : ℕ} {G : SimpleGraph (Point ℕ)}
    (hadj : ∀ a b, G.Adj a b → inB nx ny a ∧ inB nx ny b)
    (G2 : SimpleGraph {c : Point ℕ // c.x < nx ∧ c.y < ny})
    (hiff : ∀ u v, G.Adj u.1 v.1 → G2.Adj u v)
    {x y : Point ℕ} (h : G.Reachable x y) (hx : inB nx ny x) (hy : inB nx ny y) :
    G2.Reachable ⟨x, hx⟩ ⟨y, hy⟩ := by
  obtain ⟨w⟩ := h
  revert hx hy
  induction w with
  | nil =>
    intro hx hy
    exact SimpleGraph.Reachable.refl _
  | cons ha p ih =>
    intro hx hy
    have hb := (hadj _ _ ha).2
    exact ((hiff ⟨_, hx⟩ ⟨_, hb⟩ ha).reachable).trans (ih hb hy)

lemma isAcyclic_toSubtype {nx ny : ℕ} {G : SimpleGraph (Point ℕ)} (hG : G.IsAcyclic)
    (G2 : SimpleGraph {c : Point ℕ // c.x < nx ∧ c.y < ny})
    (hle : ∀ u v, G2.Adj u v → G.Adj u.1 v.1) : G2.IsAcyclic := by
  intro u c hc
  have hmap : ((c.map ⟨Subtype.val, fun h => hle _ _ h⟩).IsCycle) :=
    (SimpleGraph.Walk.map_isCycle_iff_of_injective Subtype.val_injective).mpr hc
  exact hG _ hmap

lemma mem_swapRemove_iff {α : Type} {l : List α} {idx : ℕ} {d : α}
    (hnd : l.Nodup) (h : idx < l.length) {a : α} :
    a ∈ swapRemove l idx d ↔ a ∈ l ∧ a ≠ l[idx] := by
  have hperm := (swapRemove_perm l idx d h).mem_iff (a := a)
  have hperm2 := (perm_getElem_cons_eraseIdx l idx h).mem_iff (a := a)
  have hnd2 : (l[idx] :: l.eraseIdx idx).Nodup :=
    (perm_getElem_cons_eraseIdx l idx h).nodup_iff.mp hnd
  rw [List.nodup_cons] at hnd2
  rw [hperm]
  rw [List.mem_cons] at hperm2
  constructor
  · intro ha
    refine ⟨hperm2.mpr (Or.inr ha), ?_⟩
    intro hEq
    rw [hEq] at ha
    exact hnd2.1 ha
  · rintro ⟨ha, hne⟩
    rcases hperm2.mp ha with hEq | ha2
    · exact absurd hEq hne
    · exact ha2

lemma nodup_swapRemove {α : Type} {l : List α} {idx : ℕ} {d : α}
    (hnd : l.Nodup) (h : idx < l.length) : (swapRemove l idx d).Nodup := by
  have hnd2 : (l[idx] :: l.eraseIdx idx).Nodup :=
    (perm_getElem_cons_eraseIdx l idx h).nodup_iff.mp hnd
  rw [List.nodup_cons] at hnd2
  exact (swapRemove_perm l idx d h).nodup_iff.mpr hnd2.2

lemma assoc_val_eq {κ β : Type} {m : List (κ × β)}
    (hnd : (m.map Prod.fst).Nodup) {k : κ} {v1 v2 : β}
    (h1 : (k, v1) ∈ m) (h2 : (k, v2) ∈ m) : v1 = v2 := by
  induction m with
  | nil => exact absurd h1 (List.not_mem_nil _)
  | cons kv m ih =>
    rw [List.map_cons, List.nodup_cons] at hnd
    rcases List.mem_cons.mp h1 with rfl | h1' <;>
      rcases List.mem_cons.mp h2 with h2' | h2'
    · exact congrArg Prod.snd h2'.symm
    · exact absurd (List.mem_map.mpr ⟨_, h2', rfl⟩) hnd.1
    · rw [← h2'] at hnd
      exact absurd (List.mem_map.mpr ⟨_, h1', rfl⟩) hnd.1
    · exact ih hnd.2 h1' h2'

lemma alookup_eq_some {κ β : Type} [DecidableEq κ] {m : List (κ × β)}
    (hnd : (m.map Prod.fst).Nodup) {k : κ} {v : β} (h : (k, v) ∈ m) :
    alookup m k = some v := by
  rw [alookup]
  match hf : m.find? (fun kv => decide (kv.1 = k)) with
  | none =>
    exact absurd (by simp : decide ((k, v).1 = k) = true)
      (List.find?_eq_none.mp hf (k, v) h)
  | some kv =>
    have hmem := List.mem_of_find?_eq_some hf
    have hkey := List.find?_some hf
    simp only [decide_eq_true_eq] at hkey
    have hkv : kv = (k, kv.2) := by
      rw [Prod.ext_iff]
      exact ⟨hkey, rfl⟩
    rw [hkv] at hmem
    rw [hf, Option.map_some']
    exact congrArg some (assoc_val_eq hnd hmem h)

lemma alookup_mem {κ β : Type} [DecidableEq κ] {m : List (κ × β)} {k : κ} {v : β}
    (h : alookup m k = some v) : (k, v) ∈ m := by
  rw [alookup] at h
  match hf : m.find? (fun kv => decide (kv.1 = k)) with
  | none => rw [hf] at h; exact absurd h (by simp)
  | some kv =>
    rw [hf, Option.map_some', Option.some_inj] at h
    have hmem := List.mem_of_find?_eq_some hf
    have hkey := List.find?_some hf
    simp only [decide_eq_true_eq] at hkey
    have hkv : kv = (k, v) := by
      rw [Prod.ext_iff]
      exact ⟨hkey, h⟩
    rw [← hkv]
    exact hmem

lemma aremove_eq_some {κ β : Type} [DecidableEq κ] {m : List (κ × β)} {k : κ} {v : β}
    (h : alookup m k = some v) :
    aremove m k = some (v, m.eraseP (fun kv => decide (kv.1 = k))) := by
  rw [alookup] at h
  match hf : m.find? (fun kv => decide (kv.1 = k)) with
  | none => rw [hf] at h; exact absurd h (by simp)
  | some kv =>
    rw [hf, Option.map_some', Option.some_inj] at h
    rw [aremove, hf, ← h]

lemma assoc_mem_eraseP {κ β : Type} [DecidableEq κ] {m : List (κ × β)}
    (hnd : (m.map Prod.fst).Nodup) {k s : κ} {v : β} :
    (s, v) ∈ m.eraseP (fun kv => decide (kv.1 = k)) ↔ (s, v) ∈ m ∧ s ≠ k := by
  induction m with
  | nil => simp
  | cons kv m ih =>
    rw [List.map_cons, List.nodup_cons] at hnd
    by_cases hk : kv.1 = k
    · rw [List.eraseP_cons_of_pos (by simp [hk])]
      constructor
      · intro hmem
        refine ⟨List.mem_cons_of_mem _ hmem, ?_⟩
        intro hEq
        rw [hEq, ← hk] at hmem
        exact hnd.1 (List.mem_map.mpr ⟨_, hmem, rfl⟩)
      · rintro ⟨hmem, hne⟩
        rcases List.mem_cons.mp hmem with hEq | hmem'
        · rw [← hEq] at hk
          exact absurd hk hne
        · exact hmem'
    · rw [List.eraseP_cons_of_neg (by simp [hk])]
      rw [List.mem_cons, List.mem_cons, ih hnd.2]
      constructor
      · rintro (hEq | ⟨hmem, hne⟩)
        · refine ⟨Or.inl hEq, ?_⟩
          rw [← hEq] at hk
          exact fun hc => hk hc
        · exact ⟨Or.inr hmem, hne⟩
      · rintro ⟨hEq | hmem, hne⟩
        · exact Or.inl hEq
        · exact Or.inr ⟨hmem, hne⟩

lemma keys_eraseP_sublist {κ β : Type} (m : List (κ × β)) (p : κ × β → Bool) :
    ((m.eraseP p).map Prod.fst).Sublist (m.map Prod.fst) :=
  (List.eraseP_sublist m).map Prod.fst

lemma keys_map_relabel {κ β γ : Type} (m : List (κ × β)) (f : κ × β → γ) :
    ((m.map (fun kv => (kv.1, f kv))).map Prod.fst) = m.map Prod.fst := by
  rw [List.map_map]
  rfl

lemma innerSeg_ne {nx ny : ℕ} {c c' : Point ℕ} {s : Line ℕ}
    (h : innerSeg nx ny c c' s) : c ≠ c' := by
  obtain ⟨-, -, hc⟩ := h
  obtain ⟨cx, cy⟩ := c
  obtain ⟨cx', cy'⟩ := c'
  intro hEq
  simp only [Point.mk.injEq] at hEq
  rcases hc with ⟨hc, -⟩ | ⟨hc, -⟩ <;> simp only [Point.mk.injEq] at hc <;> omega

lemma innerSeg_seg_eq {nx ny : ℕ} {c c' : Point ℕ} {s1 s2 : Line ℕ}
    (h1 : innerSeg nx ny c c' s1) (h2 : innerSeg nx ny c c' s2) : s1 = s2 := by
  obtain ⟨-, -, hc⟩ := h1
  obtain ⟨-, -, hd⟩ := h2
  obtain ⟨cx, cy⟩ := c
  obtain ⟨cx', cy'⟩ := c'
  rcases hc with ⟨hc, rfl⟩ | ⟨hc, rfl⟩ <;> rcases hd with ⟨hd, rfl⟩ | ⟨hd, rfl⟩ <;>
    simp only [Point.mk.injEq] at hc hd <;> first
  | rfl
  | omega
  | (exfalso; omega)

lemma carvedGraph_adj {carved : List (Point ℕ × Point ℕ)} {a b : Point ℕ} :
    (carvedGraph carved).Adj a b ↔
      ((a, b) ∈ carved ∨ (b, a) ∈ carved) ∧ a ≠ b := by
  rw [carvedGraph, SimpleGraph.fromEdgeSet_adj]
  unfold pairEdges
  rw [Set.mem_setOf_eq]
  constructor
  · rintro ⟨⟨p, hp, hEq⟩, hne⟩
    rw [Sym2.eq_iff] at hEq
    rcases hEq with ⟨h1, h2⟩ | ⟨h1, h2⟩
    · subst h1
      subst h2
      exact ⟨Or.inl (by simpa using hp), hne⟩
    · subst h1
      subst h2
      exact ⟨Or.inr (by simpa using hp), hne⟩
  · rintro ⟨hp | hp, hne⟩
    · exact ⟨⟨(a, b), hp, rfl⟩, hne⟩
    · exact ⟨⟨(b, a), hp, Sym2.eq_swap.symm⟩, hne⟩

lemma carvedGraph_nil_reachable {a b : Point ℕ}
    (h : (carvedGraph []).Reachable a b) : a = b := by
  refine @reachable_rec _ _ (fun a b => a = b) (fun a => rfl) ?_ a b h
  intro x y z hadj hyz
  rw [carvedGraph_adj] at hadj
  simp only [List.not_mem_nil, or_self, false_and] at hadj

lemma carvedGraph_nil_acyclic : (carvedGraph []).IsAcyclic := by
  intro v c hc
  cases c with
  | nil => exact hc.ne_nil rfl
  | cons hadj p =>
    rw [carvedGraph_adj] at hadj
    simp only [List.not_mem_nil, or_self, false_and] at hadj

lemma reach_sup_edge_cases {V : Type} {G : SimpleGraph V} {u v x y : V}
    (h : (G ⊔ SimpleGraph.fromEdgeSet {s(u, v)}).Reachable x y) :
    G.Reachable x y ∨ (G.Reachable x u ∧ G.Reachable v y) ∨
      (G.Reachable x v ∧ G.Reachable u y) := by
  refine @reachable_rec _ _
    (fun x y => G.Reachable x y ∨ (G.Reachable x u ∧ G.Reachable v y) ∨
      (G.Reachable x v ∧ G.Reachable u y))
    (fun a => Or.inl (SimpleGraph.Reachable.refl a)) ?_ x y h
  intro a b c hadj hbc
  rw [SimpleGraph.sup_adj _ _ _ _] at hadj
  rcases hadj with hG | hE
  · rcases hbc with hbc | ⟨hbu, hvc⟩ | ⟨hbv, huc⟩
    · exact Or.inl (hG.reachable.trans hbc)
    · exact Or.inr (Or.inl ⟨hG.reachable.trans hbu, hvc⟩)
    · exact Or.inr (Or.inr ⟨hG.reachable.trans hbv, huc⟩)
  · rw [SimpleGraph.fromEdgeSet_adj, Set.mem_singleton_iff, Sym2.eq_iff] at hE
    rcases hE with ⟨⟨rfl, rfl⟩ | ⟨rfl, rfl⟩, hne⟩
    · rcases hbc with hbc | ⟨h1, h2⟩ | ⟨h1, h2⟩
      · exact Or.inr (Or.inl ⟨SimpleGraph.Reachable.refl _, hbc⟩)
      · exact Or.inl (h1.symm.trans h2)
      · exact Or.inl h2
    · rcases hbc with hbc | ⟨h1, h2⟩ | ⟨h1, h2⟩
      · exact Or.inr (Or.inr ⟨SimpleGraph.Reachable.refl _, hbc⟩)
      · exact Or.inl h2
      · exact Or.inl (h1.symm.trans h2)

lemma openAdj_iff {nx ny : ℕ} {L : List (Line ℕ)} {a b : Point ℕ} :
    openAdj nx ny L a b ↔
      ∃ c c' s, innerSeg nx ny c c' s ∧ s ∉ L ∧
        ((a = c ∧ b = c') ∨ (a = c' ∧ b = c)) := by
  unfold openAdj
  constructor
  · rintro ⟨ha, hb, ⟨hc, hs⟩ | ⟨hc, hs⟩ | ⟨hc, hs⟩ | ⟨hc, hs⟩⟩
    · exact ⟨a, b, rightSeg a, ⟨ha, hb, Or.inl ⟨hc, rfl⟩⟩, hs, Or.inl ⟨rfl, rfl⟩⟩
    · exact ⟨b, a, rightSeg b, ⟨hb, ha, Or.inl ⟨hc, rfl⟩⟩, hs, Or.inr ⟨rfl, rfl⟩⟩
    · exact ⟨a, b, botSeg a, ⟨ha, hb, Or.inr ⟨hc, rfl⟩⟩, hs, Or.inl ⟨rfl, rfl⟩⟩
    · exact ⟨b, a, botSeg b, ⟨hb, ha, Or.inr ⟨hc, rfl⟩⟩, hs, Or.inr ⟨rfl, rfl⟩⟩
  · rintro ⟨c, c', s, ⟨hc, hc', hseg | hseg⟩, hs, ⟨rfl, rfl⟩ | ⟨rfl, rfl⟩⟩
    · exact ⟨hc, hc', Or.inl ⟨hseg.1, hseg.2 ▸ hs⟩⟩
    · exact ⟨hc', hc, Or.inr (Or.inl ⟨hseg.1, hseg.2 ▸ hs⟩)⟩
    · exact ⟨hc, hc', Or.inr (Or.inr (Or.inl ⟨hseg.1, hseg.2 ▸ hs⟩))⟩
    · exact ⟨hc', hc, Or.inr (Or.inr (Or.inr ⟨hseg.1, hseg.2 ▸ hs⟩))⟩

/-- The area id assigned to a cell by the generator's enumeration
(cartesian_product is x-major, so cell (x, y) is item x * ny + y). -/
def cellIdx (ny : ℕ) (c : Point ℕ) : ℕ :=
  c.x * ny + c.y

/-- The cell at a given position of the generator's enumeration. -/
def cellOfIdx (ny i : ℕ) : Point ℕ :=
  ⟨i / ny, i % ny⟩

lemma cellIdx_lt {nx ny : ℕ} {c : Point ℕ} (h : inB nx ny c) :
    cellIdx ny c < nx * ny := by
  obtain ⟨hx, hy⟩ := h
  have h1 : c.x + 1 ≤ nx := hx
  calc c.x * ny + c.y < c.x * ny + ny := by omega
    _ = (c.x + 1) * ny := by ring
    _ ≤ nx * ny := Nat.mul_le_mul_right ny h1

lemma cellIdx_inj {nx ny : ℕ} {c d : Point ℕ} (hc : inB nx ny c) (hd : inB nx ny d)
    (h : cellIdx ny c = cellIdx ny d) : c = d := by
  obtain ⟨hcx, hcy⟩ := hc
  obtain ⟨hdx, hdy⟩ := hd
  unfold cellIdx at h
  have hy : c.y = d.y := by
    have h1 : (ny * c.x + c.y) % ny = (ny * d.x + d.y) % ny := by
      rw [Nat.mul_comm ny c.x, Nat.mul_comm ny d.x]
      rw [h]
    rw [Nat.mul_add_mod, Nat.mul_add_mod, Nat.mod_eq_of_lt hcy, Nat.mod_eq_of_lt hdy] at h1
    exact h1
  have hx : c.x = d.x := by
    have h2 : c.x * ny = d.x * ny := by omega
    have hny : 0 < ny := by omega
    exact Nat.eq_of_mul_eq_mul_right hny h2
  obtain ⟨cx, cy⟩ := c
  obtain ⟨dx, dy⟩ := d
  simp only at hx hy
  rw [hx, hy]

lemma cellOfIdx_cellIdx {nx ny : ℕ} {c : Point ℕ} (h : inB nx ny c) :
    cellOfIdx ny (cellIdx ny c) = c := by
  obtain ⟨hx, hy⟩ := h
  have hny : 0 < ny := by omega
  unfold cellOfIdx cellIdx
  have hdiv : (c.x * ny + c.y) / ny = c.x := by
    rw [Nat.mul_comm c.x ny, Nat.mul_add_div hny, Nat.div_eq_of_lt hy]
    omega
  have hmod : (c.x * ny + c.y) % ny = c.y := by
    rw [Nat.mul_comm c.x ny, Nat.mul_add_mod, Nat.mod_eq_of_lt hy]
  rw [hdiv, hmod]

lemma cellIdx_cellOfIdx {ny i : ℕ} (h : 0 < ny) :
    cellIdx ny (cellOfIdx ny i) = i := by
  unfold cellOfIdx cellIdx
  simp only
  rw [Nat.mul_comm]
  exact Nat.div_add_mod i ny

lemma inB_cellOfIdx {nx ny i : ℕ} (hny : 0 < ny) (h : i < nx * ny) :
    inB nx ny (cellOfIdx ny i) := by
  constructor
  · exact (Nat.div_lt_iff_lt_mul hny).mpr h
  · exact Nat.mod_lt i hny

lemma cellIdx_east (ny : ℕ) (c : Point ℕ) :
    cellIdx ny ⟨c.x + 1, c.y⟩ = cellIdx ny c + ny := by
  unfold cellIdx
  simp only
  ring

lemma cellIdx_south (ny : ℕ) (c : Point ℕ) :
    cellIdx ny ⟨c.x, c.y + 1⟩ = cellIdx ny c + 1 := by
  unfold cellIdx
  simp only
  ring

lemma cellsList_succ (nx ny : ℕ) :
    cellsList (nx + 1) ny = cellsList nx ny ++ (List.range ny).map (fun y => ⟨nx, y⟩) := by
  unfold cellsList
  rw [List.range_succ, List.flatMap_append]
  simp

lemma cellsList_length (nx ny : ℕ) : (cellsList nx ny).length = nx * ny := by
  induction nx with
  | zero => simp [cellsList]
  | succ nx ih =>
    rw [cellsList_succ, List.length_append, ih, List.length_map, List.length_range]
    ring

lemma cellsList_getElem (nx ny : ℕ) (i : ℕ) (h : i < (cellsList nx ny).length) :
    (cellsList nx ny)[i] = cellOfIdx ny i := by
  induction nx with
  | zero => simp [cellsList] at h
  | succ nx ih =>
    have hlen := cellsList_length nx ny
    rcases Nat.lt_or_ge i (nx * ny) with hcase | hcase
    · have h1 : i < (cellsList nx ny).length := by omega
      simp only [cellsList_succ]
      rw [List.getElem_append_left h1]
      exact ih h1
    · have hlen2 : i < (nx + 1) * ny := by
        have := cellsList_length (nx + 1) ny
        omega
      have hny : 0 < ny := by
        by_contra hny
        have : ny = 0 := by omega
        rw [this] at hlen2
        omega
      simp only [cellsList_succ]
      rw [List.getElem_append_right (by omega : (cellsList nx ny).length ≤ i)]
      rw [List.getElem_map, List.getElem_range]
      have hdiv : i / ny = nx := Nat.div_eq_of_lt_le hcase hlen2
      have hmod : i % ny = i - nx * ny := by
        have hexp : (nx + 1) * ny = nx * ny + ny := by ring
        have hr : i - nx * ny < ny := by omega
        have h2 : i = ny * nx + (i - nx * ny) := by
          have hc : ny * nx = nx * ny := Nat.mul_comm ny nx
          omega
        calc i % ny = (ny * nx + (i - nx * ny)) % ny := by rw [← h2]
          _ = (i - nx * ny) % ny := Nat.mul_add_mod _ _ _
          _ = i - nx * ny := Nat.mod_eq_of_lt hr
      unfold cellOfIdx
      rw [hdiv, hmod, hlen]

lemma mem_cellsList {nx ny : ℕ} {c : Point ℕ} :
    c ∈ cellsList nx ny ↔ inB nx ny c := by
  constructor
  · intro h
    rw [List.mem_iff_getElem] at h
    obtain ⟨i, hi, hEq⟩ := h
    have hlen := cellsList_length nx ny
    have hprod : 0 < nx * ny := by omega
    have hny : 0 < ny := by
      rcases Nat.eq_zero_or_pos ny with h0 | h0
      · subst h0
        simp at hprod
      · exact h0
    rw [cellsList_getElem nx ny i hi] at hEq
    rw [← hEq]
    rw [hlen] at hi
    exact inB_cellOfIdx hny hi
  · intro h
    rw [List.mem_iff_getElem]
    have hny : 0 < ny := by
      obtain ⟨-, hy⟩ := h
      omega
    refine ⟨cellIdx ny c, ?_, ?_⟩
    · rw [cellsList_length]
      exact cellIdx_lt h
    · rw [cellsList_getElem]
      exact cellOfIdx_cellIdx h

lemma mem_enum_iff {α : Type} {l : List α} {i : ℕ} {a : α} :
    (i, a) ∈ l.enum ↔ ∃ h : i < l.length, l[i] = a := by
  rw [List.mem_iff_getElem]
  constructor
  · rintro ⟨n, hn, hEq⟩
    rw [List.getElem_enum] at hEq
    rw [Prod.mk.injEq] at hEq
    obtain ⟨rfl, hEq⟩ := hEq
    rw [List.enum_length] at hn
    exact ⟨hn, hEq⟩
  · rintro ⟨h, hEq⟩
    refine ⟨i, by rw [List.enum_length]; exact h, ?_⟩
    rw [List.getElem_enum, Prod.mk.injEq]
    exact ⟨rfl, hEq⟩

lemma cellEdges_nodup (c : Point ℕ) : (cellEdges c).Nodup := by
  obtain ⟨x, y⟩ := c
  simp only [cellEdges, List.nodup_cons, List.mem_cons, List.not_mem_nil, or_false,
    List.nodup_nil, and_true, Line.mk.injEq, Point.mk.injEq, not_or,
    not_false_eq_true, true_and]
  omega

/-- At most two cells have a given segment among their borders. -/
lemma touchers_le_two {d1 d2 d3 : Point ℕ} {s : Line ℕ} (h1 : s ∈ cellEdges d1)
    (h2 : s ∈ cellEdges d2) (h3 : s ∈ cellEdges d3) :
    d1 = d2 ∨ d1 = d3 ∨ d2 = d3 := by
  obtain ⟨x1, y1⟩ := d1
  obtain ⟨x2, y2⟩ := d2
  obtain ⟨x3, y3⟩ := d3
  obtain ⟨⟨ax, ay⟩, ⟨bx, cy⟩⟩ := s
  rw [mem_cellEdges_iff] at h1 h2 h3
  simp only [rightSeg, botSeg, Line.mk.injEq, Point.mk.injEq] at h1 h2 h3 ⊢
  rcases h1 with h1 | h1 | h1 | h1 <;> rcases h2 with h2 | h2 | h2 | h2 <;>
    rcases h3 with h3 | h3 | h3 | h3 <;> omega

/-- Invariant of the edge-synthesis fold of make_labyrinth after the first k
cells (in enumeration order) have inserted their four borders. -/
structure EdgeInv (nx ny k : ℕ) (m : List (Line ℕ × EdgeVal)) : Prop where
  nodup : (m.map Prod.fst).Nodup
  keys_iff : ∀ s : Line ℕ, s ∈ m.map Prod.fst ↔
    ∃ c, inB nx ny c ∧ cellIdx ny c < k ∧ s ∈ cellEdges c
  val : ∀ s v, (s, v) ∈ m →
    (∃ c, inB nx ny c ∧ cellIdx ny c < k ∧ s ∈ cellEdges c ∧
        v = (cellIdx ny c, none) ∧
        ∀ d, inB nx ny d → cellIdx ny d < k → s ∈ cellEdges d → d = c)
    ∨ (∃ c c', innerSeg nx ny c c' s ∧ cellIdx ny c' < k ∧
        v = (cellIdx ny c, some (cellIdx ny c')))

/-- Mid-cell variant: the cell of index k has already inserted the borders in
E (a sublist of its four edges). -/
structure EdgeInvP (nx ny k : ℕ) (E : List (Line ℕ)) (m : List (Line ℕ × EdgeVal)) :
    Prop where
  nodup : (m.map Prod.fst).Nodup
  keys_iff : ∀ s : Line ℕ, s ∈ m.map Prod.fst ↔
    (∃ c, inB nx ny c ∧ cellIdx ny c < k ∧ s ∈ cellEdges c) ∨ s ∈ E
  val : ∀ s v, (s, v) ∈ m →
    (∃ c, inB nx ny c ∧ cellIdx ny c < k ∧ s ∈ cellEdges c ∧
        v = (cellIdx ny c, none) ∧ s ∉ E ∧
        ∀ d, inB nx ny d → cellIdx ny d < k → s ∈ cellEdges d → d = c)
    ∨ (∃ c c', innerSeg nx ny c c' s ∧ cellIdx ny c' < k ∧
        v = (cellIdx ny c, some (cellIdx ny c')))
    ∨ (s ∈ E ∧ (∀ d, inB nx ny d → cellIdx ny d < k → s ∉ cellEdges d) ∧
        v = (k, none))
    ∨ (s ∈ E ∧ ∃ c, inB nx ny c ∧ cellIdx ny c < k ∧ s ∈ cellEdges c ∧
        v = (cellIdx ny c, some k))

lemma edgeInvP_of_edgeInv {nx ny k : ℕ} {m : List (Line ℕ × EdgeVal)}
    (h : EdgeInv nx ny k m) : EdgeInvP nx ny k [] m := by
  refine ⟨h.nodup, ?_, ?_⟩
  · intro s
    rw [h.keys_iff s]
    simp
  · intro s v hmem
    rcases h.val s v hmem with ⟨c, h1, h2, h3, h4, h5⟩ | hv
    · exact Or.inl ⟨c, h1, h2, h3, h4, List.not_mem_nil s, h5⟩
    · exact Or.inr (Or.inl hv)

/-- Membership in the value-updating branch of insertEdge. -/
lemma mem_map_update {m : List (Line ℕ × EdgeVal)}
    (hnd : (m.map Prod.fst).Nodup) {e : Line ℕ} {k : ℕ} {s : Line ℕ} {v : EdgeVal} :
    ((s, v) ∈ m.map (fun kv => if kv.1 = e then (kv.1, (kv.2.1, some k)) else kv)) ↔
      ((s ≠ e ∧ (s, v) ∈ m) ∨ (s = e ∧ ∃ v0, (s, v0) ∈ m ∧ v = (v0.1, some k))) := by
  rw [List.mem_map]
  constructor
  · rintro ⟨kv, hkv, hEq⟩
    by_cases hk : kv.1 = e
    · rw [if_pos hk] at hEq
      rw [Prod.mk.injEq] at hEq
      obtain ⟨h1, h2⟩ := hEq
      refine Or.inr ⟨by rw [← h1, hk], kv.2, ?_, by rw [← h2]⟩
      rw [← h1]
      simpa using hkv
    · rw [if_neg hk] at hEq
      subst hEq
      exact Or.inl ⟨by simpa using hk, hkv⟩
  · rintro (⟨hne, hmem⟩ | ⟨rfl, v0, hmem, rfl⟩)
    · refine ⟨(s, v), hmem, ?_⟩
      rw [if_neg (by simpa using hne)]
    · refine ⟨(s, v0), hmem, ?_⟩
      rw [if_pos rfl]

lemma insertEdge_of_mem {m : List (Line ℕ × EdgeVal)} {e : Line ℕ} {k : ℕ}
    (h : e ∈ m.map Prod.fst) :
    insertEdge m e k = m.map (fun kv => if kv.1 = e then (kv.1, (kv.2.1, some k)) else kv) := by
  rw [insertEdge, if_pos]
  rw [List.any_eq_true]
  rcases List.mem_map.mp h with ⟨kv, hkv, hEq⟩
  exact ⟨kv, hkv, by simp [hEq]⟩

lemma insertEdge_of_not_mem {m : List (Line ℕ × EdgeVal)} {e : Line ℕ} {k : ℕ}
    (h : e ∉ m.map Prod.fst) :
    insertEdge m e k = m ++ [(e, (k, none))] := by
  rw [insertEdge, if_neg]
  rw [List.any_eq_true]
  rintro ⟨kv, hkv, hEq⟩
  simp only [decide_eq_true_eq] at hEq
  exact h (List.mem_map.mpr ⟨kv, hkv, hEq⟩)

lemma keys_insertEdge_of_mem {m : List (Line ℕ × EdgeVal)} {e : Line ℕ} {k : ℕ}
    (h : e ∈ m.map Prod.fst) :
    (insertEdge m e k).map Prod.fst = m.map Prod.fst := by
  rw [insertEdge_of_mem h, List.map_map]
  refine List.map_congr_left ?_
  intro kv hkv
  by_cases hk : kv.1 = e <;> simp [hk]

lemma edgeInvP_insert {nx ny k : ℕ} {c₀ : Point ℕ} {E : List (Line ℕ)}
    {m : List (Line ℕ × EdgeVal)} {e : Line ℕ}
    (hP : EdgeInvP nx ny k E m) (hc₀ : inB nx ny c₀) (hk : cellIdx ny c₀ = k)
    (he : e ∈ cellEdges c₀) (heE : e ∉ E) :
    EdgeInvP nx ny k (E ++ [e]) (insertEdge m e k) := by
  by_cases hkey : e ∈ m.map Prod.fst
  · rw [insertEdge_of_mem hkey]
    have hkeys : (m.map (fun kv => if kv.1 = e then (kv.1, (kv.2.1, some k)) else kv)).map
        Prod.fst = m.map Prod.fst := by
      have := keys_insertEdge_of_mem (k := k) hkey
      rw [insertEdge_of_mem hkey] at this
      exact this
    refine ⟨?_, ?_, ?_⟩
    · rw [hkeys]
      exact hP.nodup
    · intro s
      rw [hkeys, hP.keys_iff s]
      constructor
      · rintro (hc | hE)
        · exact Or.inl hc
        · exact Or.inr (List.mem_append.mpr (Or.inl hE))
      · rintro (hc | hE)
        · exact Or.inl hc
        · rcases List.mem_append.mp hE with hE | hE
          · exact Or.inr hE
          · rw [List.mem_singleton] at hE
            subst hE
            exact ((hP.keys_iff s).mp hkey).imp id (fun h => h)
    · intro s v hmem
      rw [mem_map_update hP.nodup] at hmem
      rcases hmem with ⟨hne, hmem⟩ | ⟨rfl, v0, hmem, rfl⟩
      · rcases hP.val s v hmem with ⟨c, h1, h2, h3, h4, h5, h6⟩ | hv | ⟨h1, h2, h3⟩ |
          ⟨h1, h2⟩
        · refine Or.inl ⟨c, h1, h2, h3, h4, ?_, h6⟩
          intro hc
          rcases List.mem_append.mp hc with hc | hc
          · exact h5 hc
          · rw [List.mem_singleton] at hc
            exact hne hc
        · exact Or.inr (Or.inl hv)
        · exact Or.inr (Or.inr (Or.inl ⟨List.mem_append.mpr (Or.inl h1), h2, h3⟩))
        · rcases h2 with ⟨c, hc⟩
          exact Or.inr (Or.inr (Or.inr ⟨List.mem_append.mpr (Or.inl h1), c, hc⟩))
      · rcases hP.val s v0 hmem with ⟨c, h1, h2, h3, h4, h5, h6⟩ | ⟨c, c', hcc, hlt, hval⟩ |
          ⟨h1, h2, h3⟩ | ⟨h1, h2⟩
        · refine Or.inr (Or.inr (Or.inr ⟨List.mem_append.mpr (Or.inr (by simp)), c,
            h1, h2, h3, ?_⟩))
          rw [h4]
        · exfalso
          have hlt2 : cellIdx ny c < cellIdx ny c' := by
            obtain ⟨hcB, hc'B, hd | hd⟩ := hcc
            · rw [hd.1, cellIdx_east]
              have hny : 0 < ny := by
                obtain ⟨-, hy⟩ := hcB
                omega
              omega
            · rw [hd.1, cellIdx_south]
              omega
          have hc0c : c₀ ≠ c := by
            intro hEq
            rw [hEq] at hk
            omega
          have hc0c' : c₀ ≠ c' := by
            intro hEq
            rw [hEq] at hk
            omega
          have hmemc := (innerSeg_mem_cellEdges hcc).1
          have hmemc' := (innerSeg_mem_cellEdges hcc).2
          rcases touchers_le_two he hmemc hmemc' with hEq | hEq | hEq
          · exact hc0c hEq
          · exact hc0c' hEq
          · exact innerSeg_ne hcc hEq
        · exact absurd h1 heE
        · exact absurd h1 heE
  · rw [insertEdge_of_not_mem hkey]
    have hkeys : (m ++ [(e, (k, none))]).map Prod.fst = m.map Prod.fst ++ [e] := by
      rw [List.map_append]
      rfl
    refine ⟨?_, ?_, ?_⟩
    · rw [hkeys]
      rw [List.nodup_append]
      exact ⟨hP.nodup, List.nodup_singleton e, by simpa using hkey⟩
    · intro s
      rw [hkeys, List.mem_append, List.mem_singleton, hP.keys_iff s]
      constructor
      · rintro ((hc | hE) | rfl)
        · exact Or.inl hc
        · exact Or.inr (List.mem_append.mpr (Or.inl hE))
        · exact Or.inr (List.mem_append.mpr (Or.inr (by simp)))
      · rintro (hc | hE)
        · exact Or.inl (Or.inl hc)
        · rcases List.mem_append.mp hE with hE | hE
          · exact Or.inl (Or.inr hE)
          · rw [List.mem_singleton] at hE
            exact Or.inr hE
    · intro s v hmem
      rcases List.mem_append.mp hmem with hmem | hmem
      · have hse : s ≠ e := by
          intro hEq
          refine hkey ?_
          rw [← hEq]
          exact List.mem_map.mpr ⟨(s, v), hmem, rfl⟩
        rcases hP.val s v hmem with ⟨c, h1, h2, h3, h4, h5, h6⟩ | hv | ⟨h1, h2, h3⟩ |
          ⟨h1, h2⟩
        · refine Or.inl ⟨c, h1, h2, h3, h4, ?_, h6⟩
          intro hc
          rcases List.mem_append.mp hc with hc | hc
          · exact h5 hc
          · rw [List.mem_singleton] at hc
            exact hse hc
        · exact Or.inr (Or.inl hv)
        · exact Or.inr (Or.inr (Or.inl ⟨List.mem_append.mpr (Or.inl h1), h2, h3⟩))
        · rcases h2 with ⟨c, hc⟩
          exact Or.inr (Or.inr (Or.inr ⟨List.mem_append.mpr (Or.inl h1), c, hc⟩))
      · rw [List.mem_singleton, Prod.mk.injEq] at hmem
        obtain ⟨rfl, rfl⟩ := hmem
        refine Or.inr (Or.inr (Or.inl ⟨List.mem_append.mpr (Or.inr (by simp)), ?_, rfl⟩))
        intro d hd hdk hsd
        exact hkey ((hP.keys_iff s).mpr (Or.inl ⟨d, hd, hdk, hsd⟩))

lemma edgeInvP_foldl {nx ny k : ℕ} {c₀ : Point ℕ}
    (hc₀ : inB nx ny c₀) (hk : cellIdx ny c₀ = k) :
    ∀ (es E : List (Line ℕ)) (m : List (Line ℕ × EdgeVal)), es.Nodup →
      (∀ e ∈ es, e ∈ cellEdges c₀ ∧ e ∉ E) → EdgeInvP nx ny k E m →
      EdgeInvP nx ny k (E ++ es) (es.foldl (fun m e => insertEdge m e k) m) := by
  intro es
  induction es with
  | nil =>
    intro E m _ _ hP
    simpa using hP
  | cons e es ih =>
    intro E m hnd hes hP
    rw [List.nodup_cons] at hnd
    have hstep := edgeInvP_insert hP hc₀ hk (hes e (List.mem_cons_self _ _)).1
      (hes e (List.mem_cons_self _ _)).2
    have hrec := ih (E ++ [e]) _ hnd.2 ?_ hstep
    · rw [List.append_assoc] at hrec
      simpa using hrec
    · intro e' he'
      refine ⟨(hes e' (List.mem_cons_of_mem _ he')).1, ?_⟩
      intro hc
      rcases List.mem_append.mp hc with hc | hc
      · exact (hes e' (List.mem_cons_of_mem _ he')).2 hc
      · rw [List.mem_singleton] at hc
        subst hc
        exact hnd.1 he'

lemma edgeInv_of_edgeInvP {nx ny k : ℕ} {c₀ : Point ℕ} {m : List (Line ℕ × EdgeVal)}
    (hc₀ : inB nx ny c₀) (hk : cellIdx ny c₀ = k)
    (hP : EdgeInvP nx ny k (cellEdges c₀) m) : EdgeInv nx ny (k + 1) m := by
  have hidx : ∀ d : Point ℕ, inB nx ny d → cellIdx ny d < k + 1 →
      cellIdx ny d < k ∨ d = c₀ := by
    intro d hd hdk
    rcases Nat.lt_or_ge (cellIdx ny d) k with h | h
    · exact Or.inl h
    · refine Or.inr (cellIdx_inj hd hc₀ ?_)
      omega
  refine ⟨hP.nodup, ?_, ?_⟩
  · intro s
    rw [hP.keys_iff s]
    constructor
    · rintro (⟨c, h1, h2, h3⟩ | hE)
      · exact ⟨c, h1, by omega, h3⟩
      · exact ⟨c₀, hc₀, by omega, hE⟩
    · rintro ⟨c, h1, h2, h3⟩
      rcases hidx c h1 h2 with h | rfl
      · exact Or.inl ⟨c, h1, h, h3⟩
      · exact Or.inr h3
  · intro s v hmem
    rcases hP.val s v hmem with ⟨c, h1, h2, h3, h4, h5, h6⟩ | ⟨c, c', hcc, hlt, hval⟩ |
      ⟨h1, h2, h3⟩ | ⟨h1, c, h2, h3, h4, h5⟩
    · refine Or.inl ⟨c, h1, by omega, h3, h4, ?_⟩
      intro d hd hdk hsd
      rcases hidx d hd hdk with h | rfl
      · exact h6 d hd h hsd
      · exact absurd hsd h5
    · exact Or.inr ⟨c, c', hcc, by omega, hval⟩
    · refine Or.inl ⟨c₀, hc₀, by omega, h1, by rw [h3, hk], ?_⟩
      intro d hd hdk hsd
      rcases hidx d hd hdk with h | rfl
      · exact absurd hsd (h2 d hd h)
      · rfl
    · have hne : c ≠ c₀ := by
        intro hEq
        rw [hEq] at h3
        omega
      rcases shared_edge_cases h4 h1 hne with ⟨hc, hs⟩ | ⟨hc, hs⟩ | ⟨hc, hs⟩ | ⟨hc, hs⟩
      · refine Or.inr ⟨c, c₀, ⟨h2, hc₀, Or.inl ⟨hc, hs⟩⟩, by omega, by rw [h5, hk]⟩
      · exfalso
        rw [hc, cellIdx_east] at h3
        have hny : 0 < ny := by
          obtain ⟨-, hy⟩ := hc₀
          omega
        omega
      · refine Or.inr ⟨c, c₀, ⟨h2, hc₀, Or.inr ⟨hc, hs⟩⟩, by omega, by rw [h5, hk]⟩
      · exfalso
        rw [hc, cellIdx_south] at h3
        omega

lemma edgeInv_cell {nx ny k : ℕ} {c₀ : Point ℕ} {m : List (Line ℕ × EdgeVal)}
    (h : EdgeInv nx ny k m) (hc₀ : inB nx ny c₀) (hk : cellIdx ny c₀ = k) :
    EdgeInv nx ny (k + 1) ((cellEdges c₀).foldl (fun m e => insertEdge m e k) m) := by
  have hfold := edgeInvP_foldl hc₀ hk (cellEdges c₀) [] m (cellEdges_nodup c₀)
    (fun e he => ⟨he, List.not_mem_nil e⟩) (edgeInvP_of_edgeInv h)
  rw [List.nil_append] at hfold
  exact edgeInv_of_edgeInvP hc₀ hk hfold

lemma initState_edges (nx ny : ℕ) :
    (initState nx ny).edges = (cellsList nx ny).enum.foldl
      (fun m ac => (cellEdges ac.2).foldl (fun m e => insertEdge m e ac.1) m) [] :=
  rfl

lemma initState_areas (nx ny : ℕ) :
    (initState nx ny).areas = (cellsList nx ny).enum.map (fun ac => (ac.1, [ac.2])) :=
  rfl

lemma initState_inner (nx ny : ℕ) :
    (initState nx ny).inner_edges =
      (initState nx ny).edges.filterMap (fun kv => kv.2.2.map (fun _ => kv.1)) :=
  rfl

lemma edgeInv_foldl {nx ny : ℕ} :
    ∀ (L : List (ℕ × Point ℕ)) (k : ℕ) (m : List (Line ℕ × EdgeVal)),
      (∀ j (hj : j < L.length), L[j] = (k + j, cellOfIdx ny (k + j)) ∧ k + j < nx * ny) →
      0 < ny → EdgeInv nx ny k m →
      EdgeInv nx ny (k + L.length)
        (L.foldl (fun m ac => (cellEdges ac.2).foldl (fun m e => insertEdge m e ac.1) m)
          m) := by
  intro L
  induction L with
  | nil =>
    intro k m _ _ h
    simpa using h
  | cons a L ih =>
    intro k m hspec hny h
    have h0 := hspec 0 (by simp)
    simp only [List.getElem_cons_zero, Nat.add_zero] at h0
    have hc₀ : inB nx ny (cellOfIdx ny k) := inB_cellOfIdx hny h0.2
    have hk : cellIdx ny (cellOfIdx ny k) = k := cellIdx_cellOfIdx hny
    have hstep := edgeInv_cell h hc₀ hk
    have hspec' : ∀ j (hj : j < L.length),
        L[j] = (k + 1 + j, cellOfIdx ny (k + 1 + j)) ∧ k + 1 + j < nx * ny := by
      intro j hj
      have hs := hspec (j + 1) (by simp; omega)
      rw [List.getElem_cons_succ] at hs
      have hEq : k + (j + 1) = k + 1 + j := by omega
      rw [hEq] at hs
      exact hs
    have hrec := ih (k + 1) _ hspec' hny hstep
    have hlen : k + (a :: L).length = k + 1 + L.length := by
      rw [List.length_cons]
      omega
    rw [hlen, List.foldl_cons, h0.1]
    exact hrec

lemma edgeInv_zero (nx ny : ℕ) : EdgeInv nx ny 0 [] := by
  refine ⟨by simp, ?_, ?_⟩
  · intro s
    simp only [List.map_nil, List.not_mem_nil, false_iff, not_exists]
    rintro c ⟨-, h, -⟩
    omega
  · intro s v hmem
    exact absurd hmem (List.not_mem_nil _)

lemma initState_edgeInv {nx ny : ℕ} (hny : 0 < ny) :
    EdgeInv nx ny (nx * ny) (initState nx ny).edges := by
  rw [initState_edges]
  have hspec : ∀ j (hj : j < (cellsList nx ny).enum.length),
      (cellsList nx ny).enum[j] = (0 + j, cellOfIdx ny (0 + j)) ∧ 0 + j < nx * ny := by
    intro j hj
    have hj' : j < (cellsList nx ny).length := by
      rw [List.enum_length] at hj
      exact hj
    rw [List.getElem_enum, cellsList_getElem nx ny j hj']
    have hlen := cellsList_length nx ny
    constructor
    · rw [Nat.zero_add]
    · omega
  have h := edgeInv_foldl (cellsList nx ny).enum 0 [] hspec hny (edgeInv_zero nx ny)
  rw [List.enum_length, cellsList_length, Nat.zero_add] at h
  exact h

lemma cellsList_nodup (nx ny : ℕ) : (cellsList nx ny).Nodup := by
  rcases Nat.eq_zero_or_pos ny with hny | hny
  · subst hny
    have hlen := cellsList_length nx 0
    rw [Nat.mul_zero] at hlen
    rw [List.length_eq_zero.mp hlen]
    exact List.nodup_nil
  · rw [List.nodup_iff_injective_getElem]
    rintro ⟨i, hi⟩ ⟨j, hj⟩ hEq
    simp only at hEq
    rw [cellsList_getElem nx ny i hi, cellsList_getElem nx ny j hj] at hEq
    have h1 : cellIdx ny (cellOfIdx ny i) = cellIdx ny (cellOfIdx ny j) := by rw [hEq]
    rw [cellIdx_cellOfIdx hny, cellIdx_cellOfIdx hny] at h1
    exact Fin.ext h1

lemma mem_initState_areas {nx ny : ℕ} {c : Point ℕ} (h : inB nx ny c) :
    (cellIdx ny c, [c]) ∈ (initState nx ny).areas := by
  rw [initState_areas]
  refine List.mem_map.mpr ⟨(cellIdx ny c, c), ?_, rfl⟩
  rw [mem_enum_iff]
  have hny : 0 < ny := by
    obtain ⟨-, hy⟩ := h
    omega
  refine ⟨?_, ?_⟩
  · rw [cellsList_length]
    exact cellIdx_lt h
  · rw [cellsList_getElem]
    exact cellOfIdx_cellIdx h

lemma filterMap_keys_sublist (m : List (Line ℕ × EdgeVal)) :
    (m.filterMap (fun kv => kv.2.2.map (fun _ => kv.1))).Sublist (m.map Prod.fst) := by
  induction m with
  | nil => simp
  | cons kv m ih =>
    obtain ⟨s0, l0, o0⟩ := kv
    cases o0 with
    | none =>
      simp only [List.filterMap_cons, List.map_cons, Option.map_none']
      exact ih.cons _
    | some r =>
      simp only [List.filterMap_cons, List.map_cons, Option.map_some']
      exact ih.cons₂ _

lemma mem_inner_of_some {m : List (Line ℕ × EdgeVal)} {s : Line ℕ} {l r : ℕ}
    (h : (s, (l, some r)) ∈ m) :
    s ∈ m.filterMap (fun kv => kv.2.2.map (fun _ => kv.1)) := by
  rw [List.mem_filterMap]
  exact ⟨(s, (l, some r)), h, rfl⟩

/-- The carving-loop invariant, relating the generator state to the ghost list
of carved passages (the cell pairs whose shared border has been removed). -/
structure Inv (nx ny : ℕ) (st : LabState) (carved : List (Point ℕ × Point ℕ)) :
    Prop where
  areas_nodup : (st.areas.map Prod.fst).Nodup
  areas_inB : ∀ a ∈ st.areas, ∀ c ∈ a.2, inB nx ny c
  areas_ne : ∀ a ∈ st.areas, a.2 ≠ []
  areas_cover : ∀ c : Point ℕ, inB nx ny c → ∃ a ∈ st.areas, c ∈ a.2
  areas_uniq : ∀ a1 ∈ st.areas, ∀ a2 ∈ st.areas, ∀ c : Point ℕ,
    c ∈ a1.2 → c ∈ a2.2 → a1 = a2
  edges_nodup : (st.edges.map Prod.fst).Nodup
  keys_iff : ∀ s : Line ℕ, s ∈ st.edges.map Prod.fst ↔
    ((∃ c, inB nx ny c ∧ s ∈ cellEdges c) ∧ ∀ p ∈ carved, ¬ innerSeg nx ny p.1 p.2 s)
  val_inner : ∀ s v, (s, v) ∈ st.edges → ∀ c c' : Point ℕ, innerSeg nx ny c c' s →
    ∃ r li li', v = (v.1, some r) ∧ (v.1, li) ∈ st.areas ∧ c ∈ li ∧
      (r, li') ∈ st.areas ∧ c' ∈ li'
  val_some_inner : ∀ s l r, (s, (l, some r)) ∈ st.edges →
    ∃ c c' : Point ℕ, innerSeg nx ny c c' s
  inner_nodup : st.inner_edges.Nodup
  inner_complete : ∀ (c c' : Point ℕ) (s : Line ℕ), innerSeg nx ny c c' s →
    s ∈ st.edges.map Prod.fst → (∀ a ∈ st.areas, ¬(c ∈ a.2 ∧ c' ∈ a.2)) →
    s ∈ st.inner_edges
  carved_inner : ∀ p ∈ carved, ∃ s, innerSeg nx ny p.1 p.2 s
  reach_same : ∀ a ∈ st.areas, ∀ c ∈ a.2, ∀ c' ∈ a.2,
    (carvedGraph carved).Reachable c c'
  reach_diff : ∀ a1 ∈ st.areas, ∀ a2 ∈ st.areas, a1 ≠ a2 →
    ∀ c ∈ a1.2, ∀ c' ∈ a2.2, ¬ (carvedGraph carved).Reachable c c'
  acyc : (carvedGraph carved).IsAcyclic

lemma inv_init {nx ny : ℕ} (hny : 0 < ny) : Inv nx ny (initState nx ny) [] := by
  have hE := @initState_edgeInv nx ny hny
  have hauniq : ∀ a1 ∈ (initState nx ny).areas, ∀ a2 ∈ (initState nx ny).areas,
      ∀ c : Point ℕ, c ∈ a1.2 → c ∈ a2.2 → a1 = a2 := by
    intro a1 ha1 a2 ha2 c hc1 hc2
    rw [initState_areas] at ha1 ha2
    rcases List.mem_map.mp ha1 with ⟨⟨i, ci⟩, hi, rfl⟩
    rcases List.mem_map.mp ha2 with ⟨⟨j, cj⟩, hj, rfl⟩
    simp only [List.mem_singleton] at hc1 hc2
    subst hc1
    rw [mem_enum_iff] at hi hj
    obtain ⟨hi1, hi2⟩ := hi
    obtain ⟨hj1, hj2⟩ := hj
    rw [← hc2] at hj2
    have hij : i = j := by
      have hinj := List.nodup_iff_injective_getElem.mp (cellsList_nodup nx ny)
      have hEq := @hinj ⟨i, hi1⟩ ⟨j, hj1⟩ (by simp [hi2, hj2])
      exact congrArg Fin.val hEq
    subst hij
    rw [hc2]
  refine ⟨?_, ?_, ?_, ?_, hauniq, hE.nodup, ?_, ?_, ?_, ?_, ?_, ?_, ?_, ?_, ?_⟩
  · rw [initState_areas, List.map_map]
    have : (Prod.fst ∘ fun ac : ℕ × Point ℕ => (ac.1, [ac.2])) = Prod.fst := rfl
    rw [this, List.enum_map_fst]
    exact List.nodup_range _
  · intro a ha c hc
    rw [initState_areas] at ha
    rcases List.mem_map.mp ha with ⟨⟨i, ci⟩, hi, rfl⟩
    simp only [List.mem_singleton] at hc
    subst hc
    rw [mem_enum_iff] at hi
    obtain ⟨hi1, hi2⟩ := hi
    rw [← hi2]
    rw [← mem_cellsList]
    exact List.getElem_mem hi1
  · intro a ha
    rw [initState_areas] at ha
    rcases List.mem_map.mp ha with ⟨⟨i, ci⟩, hi, rfl⟩
    simp
  · intro c hc
    exact ⟨(cellIdx ny c, [c]), mem_initState_areas hc, by simp⟩
  · intro s
    rw [hE.keys_iff s]
    constructor
    · rintro ⟨c, h1, h2, h3⟩
      exact ⟨⟨c, h1, h3⟩, by simp⟩
    · rintro ⟨⟨c, h1, h3⟩, -⟩
      exact ⟨c, h1, cellIdx_lt h1, h3⟩
  · intro s v hmem c c' hcc
    rcases hE.val s v hmem with ⟨d, h1, h2, h3, h4, h5⟩ | ⟨d, d', hdd, hlt, hval⟩
    · exfalso
      have hc := (innerSeg_mem_cellEdges hcc).1
      have hc' := (innerSeg_mem_cellEdges hcc).2
      have hcB := hcc.1
      have hc'B := hcc.2.1
      have hEq1 := h5 c hcB (cellIdx_lt hcB) hc
      have hEq2 := h5 c' hc'B (cellIdx_lt hc'B) hc'
      exact innerSeg_ne hcc (hEq1.trans hEq2.symm)
    · obtain ⟨hEq1, hEq2⟩ := innerSeg_inj hcc hdd
      subst hEq1
      subst hEq2
      refine ⟨cellIdx ny c', [c], [c'], ?_, ?_, by simp, ?_, by simp⟩
      · rw [hval]
      · rw [hval]
        exact mem_initState_areas hcc.1
      · exact mem_initState_areas hcc.2.1
  · intro s l r hmem
    rcases hE.val s (l, some r) hmem with ⟨d, -, -, -, h4, -⟩ | ⟨d, d', hdd, -, -⟩
    · exact absurd h4 (by simp)
    · exact ⟨d, d', hdd⟩
  · rw [initState_inner]
    exact (filterMap_keys_sublist _).nodup hE.nodup
  · intro c c' s hcc hkey hdisj
    rcases List.mem_map.mp hkey with ⟨kv, hkv, hEq⟩
    have hkv' : (s, kv.2) ∈ (initState nx ny).edges := by
      rw [← hEq]
      simpa using hkv
    rcases hE.val s kv.2 hkv' with
      ⟨d, h1, h2, h3, h4, h5⟩ | ⟨d, d', hdd, hlt, hval⟩
    · exfalso
      have hEq1 := h5 c hcc.1 (cellIdx_lt hcc.1) (innerSeg_mem_cellEdges hcc).1
      have hEq2 := h5 c' hcc.2.1 (cellIdx_lt hcc.2.1) (innerSeg_mem_cellEdges hcc).2
      exact innerSeg_ne hcc (hEq1.trans hEq2.symm)
    · rw [initState_inner]
      refine @mem_inner_of_some _ s (cellIdx ny d) (cellIdx ny d') ?_
      rw [← hval]
      exact hkv'
  · intro p hp
    exact absurd hp (List.not_mem_nil _)
  · intro a ha c hc c' hc'
    rw [initState_areas] at ha
    rcases List.mem_map.mp ha with ⟨⟨i, ci⟩, hi, rfl⟩
    simp only [List.mem_singleton] at hc hc'
    rw [hc, hc']
  · intro a1 ha1 a2 ha2 hne c hc c' hc' hreach
    have hEq := carvedGraph_nil_reachable hreach
    subst hEq
    exact hne (hauniq a1 ha1 a2 ha2 c hc hc')
  · exact carvedGraph_nil_acyclic

lemma mem_keys_iff_exists {κ β : Type} {m : List (κ × β)} {k : κ} :
    k ∈ m.map Prod.fst ↔ ∃ v, (k, v) ∈ m := by
  rw [List.mem_map]
  constructor
  · rintro ⟨kv, hkv, rfl⟩
    exact ⟨kv.2, by simpa using hkv⟩
  · rintro ⟨v, hv⟩
    exact ⟨(k, v), hv, rfl⟩

lemma keys_eraseP_iff {κ β : Type} [DecidableEq κ] {m : List (κ × β)}
    (hnd : (m.map Prod.fst).Nodup) {k s : κ} :
    s ∈ (m.eraseP (fun kv => decide (kv.1 = k))).map Prod.fst ↔
      s ∈ m.map Prod.fst ∧ s ≠ k := by
  rw [mem_keys_iff_exists]
  constructor
  · rintro ⟨v, hv⟩
    rw [assoc_mem_eraseP hnd] at hv
    exact ⟨mem_keys_iff_exists.mpr ⟨v, hv.1⟩, hv.2⟩
  · rintro ⟨hs, hne⟩
    rcases mem_keys_iff_exists.mp hs with ⟨v, hv⟩
    exact ⟨v, (assoc_mem_eraseP hnd).mpr ⟨hv, hne⟩⟩

/-- One carving iteration preserves the invariant, with the carved pair
(c, c') appended to the ghost list. -/
lemma step_preserves {nx ny : ℕ} {st st' : LabState}
    {carved : List (Point ℕ × Point ℕ)} (hInv : Inv nx ny st carved)
    {edge_id : Line ℕ} {lid rid : ℕ} {li rc : List (Point ℕ)} {c c' : Point ℕ}
    {edges₁ : List (Line ℕ × EdgeVal)} {areas₁ : List (ℕ × List (Point ℕ))}
    {inner : List (Line ℕ)} {idx : ℕ}
    (hseg : innerSeg nx ny c c' edge_id)
    (hlid : (lid, li) ∈ st.areas) (hcli : c ∈ li)
    (hrid : (rid, rc) ∈ st.areas) (hc'rc : c' ∈ rc)
    (hne_ids : lid ≠ rid)
    (hedges₁ : edges₁ = st.edges.eraseP (fun kv => decide (kv.1 = edge_id)))
    (hareas₁ : areas₁ = st.areas.eraseP (fun kv => decide (kv.1 = rid)))
    (hinner_nodup : inner.Nodup)
    (hinner_mem : ∀ (d d' : Point ℕ) (s : Line ℕ), innerSeg nx ny d d' s →
      s ∈ st.edges.map Prod.fst →
      (∀ a ∈ st.areas, ¬(d ∈ a.2 ∧ d' ∈ a.2)) → s ∈ inner)
    (hidx : idx < inner.length)
    (hpick : inner.getD idx dummyLine = edge_id)
    (hA : st'.areas = areas₁.map (fun kv => if kv.1 = lid then (kv.1, kv.2 ++ rc) else kv))
    (hE : st'.edges = edges₁.map (fun kv => (kv.1,
        ((if kv.2.1 = rid then lid else kv.2.1),
          kv.2.2.map (fun x => if x = rid then lid else x)))))
    (hI : st'.inner_edges = swapRemove inner idx dummyLine) :
    Inv nx ny st' (carved ++ [(c, c')]) := by
  have hne_cc' : c ≠ c' := innerSeg_ne hseg
  have hpairs_ne : ((lid, li) : ℕ × List (Point ℕ)) ≠ (rid, rc) :=
    fun hEq => hne_ids (congrArg Prod.fst hEq)
  have hnotreach : ¬ (carvedGraph carved).Reachable c c' :=
    hInv.reach_diff (lid, li) hlid (rid, rc) hrid hpairs_ne c hcli c' hc'rc
  have hG' : carvedGraph (carved ++ [(c, c')]) =
      carvedGraph carved ⊔ SimpleGraph.fromEdgeSet {s(c, c')} :=
    carvedGraph_append carved (c, c')
  have hacyc' : (carvedGraph (carved ++ [(c, c')])).IsAcyclic := by
    rw [hG']
    exact isAcyclic_sup_edge hInv.acyc hnotreach
  have hmono : carvedGraph carved ≤ carvedGraph (carved ++ [(c, c')]) :=
    carvedGraph_le_append _ _
  have hreach_cc' : (carvedGraph (carved ++ [(c, c')])).Reachable c c' :=
    (carvedGraph_adj.mpr ⟨Or.inl (by simp), hne_cc'⟩).reachable
  have hAmem : ∀ i l, (i, l) ∈ st'.areas ↔
      ∃ l0, (i, l0) ∈ st.areas ∧ i ≠ rid ∧
        l = (if i = lid then l0 ++ rc else l0) := by
    intro i l
    rw [hA, List.mem_map]
    constructor
    · rintro ⟨⟨j, l0⟩, hkv, hEq⟩
      rw [hareas₁, assoc_mem_eraseP hInv.areas_nodup] at hkv
      by_cases hj : j = lid
      · rw [if_pos (by simpa using hj)] at hEq
        simp only [Prod.mk.injEq] at hEq
        obtain ⟨rfl, rfl⟩ := hEq
        exact ⟨l0, hkv.1, hkv.2, by rw [if_pos hj]⟩
      · rw [if_neg (by simpa using hj)] at hEq
        rw [Prod.mk.injEq] at hEq
        obtain ⟨rfl, rfl⟩ := hEq
        exact ⟨l0, hkv.1, hkv.2, by rw [if_neg hj]⟩
    · rintro ⟨l0, hmem, hne, hEq⟩
      refine ⟨(i, l0), ?_, ?_⟩
      · rw [hareas₁]
        exact (assoc_mem_eraseP hInv.areas_nodup).mpr ⟨hmem, hne⟩
      · by_cases hil : i = lid
        · rw [if_pos (by simpa using hil)]
          rw [hEq, if_pos hil]
        · rw [if_neg (by simpa using hil)]
          rw [hEq, if_neg hil]
  have hAnodup : (st'.areas.map Prod.fst).Nodup := by
    rw [hA]
    have hkeq : (areas₁.map (fun kv => if kv.1 = lid then (kv.1, kv.2 ++ rc) else kv)).map
        Prod.fst = areas₁.map Prod.fst := by
      rw [List.map_map]
      refine List.map_congr_left ?_
      intro kv hkv
      by_cases hkv1 : kv.1 = lid <;> simp [hkv1]
    rw [hkeq, hareas₁]
    exact (keys_eraseP_sublist _ _).nodup hInv.areas_nodup
  have hold_entry : ∀ i l x, (i, l) ∈ st'.areas → x ∈ l →
      ∃ a, a ∈ st.areas ∧ x ∈ a.2 ∧ (if a.1 = rid then lid else a.1) = i := by
    intro i l x hil hx
    rcases (hAmem i l).mp hil with ⟨l0, hmem, hne, hEq⟩
    by_cases hil' : i = lid
    · rw [if_pos hil'] at hEq
      subst hEq
      rcases List.mem_append.mp hx with hx | hx
      · exact ⟨(i, l0), hmem, hx, by simp [hne]⟩
      · exact ⟨(rid, rc), hrid, hx, by simp [hil']⟩
    · rw [if_neg hil'] at hEq
      rw [hEq] at hx
      exact ⟨(i, l0), hmem, hx, by simp [hne]⟩
  have hnew_entry : ∀ j l0 x, (j, l0) ∈ st.areas → x ∈ l0 →
      ∃ l1, ((if j = rid then lid else j), l1) ∈ st'.areas ∧ x ∈ l1 := by
    intro j l0 x hmem hx
    by_cases hj : j = rid
    · subst hj
      have hrc_eq : l0 = rc := assoc_val_eq hInv.areas_nodup hmem hrid
      refine ⟨li ++ rc, ?_, ?_⟩
      · rw [if_pos rfl]
        exact (hAmem lid (li ++ rc)).mpr ⟨li, hlid, hne_ids, by rw [if_pos rfl]⟩
      · rw [hrc_eq] at hx
        exact List.mem_append.mpr (Or.inr hx)
    · refine ⟨if j = lid then l0 ++ rc else l0, ?_, ?_⟩
      · rw [if_neg hj]
        exact (hAmem j _).mpr ⟨l0, hmem, hj, rfl⟩
      · by_cases hjl : j = lid
        · rw [if_pos hjl]
          exact List.mem_append.mpr (Or.inl hx)
        · rw [if_neg hjl]
          exact hx
  have hreach_entry : ∀ (a1 a2 : ℕ × List (Point ℕ)) x y, a1 ∈ st.areas →
      a2 ∈ st.areas → x ∈ a1.2 → y ∈ a2.2 →
      (carvedGraph carved).Reachable x y → a1 = a2 := by
    intro a1 a2 x y h1 h2 hx hy hr
    by_contra hne
    exact hInv.reach_diff a1 h1 a2 h2 hne x hx y hy hr
  have hkeys' : ∀ s : Line ℕ, s ∈ st'.edges.map Prod.fst ↔
      s ∈ st.edges.map Prod.fst ∧ s ≠ edge_id := by
    intro s
    rw [hE, keys_map_relabel, hedges₁, keys_eraseP_iff hInv.edges_nodup]
  have hEmem : ∀ s w, (s, w) ∈ st'.edges ↔
      ∃ v : EdgeVal, (s, v) ∈ st.edges ∧ s ≠ edge_id ∧
        w = ((if v.1 = rid then lid else v.1),
          v.2.map (fun x => if x = rid then lid else x)) := by
    intro s w
    rw [hE, List.mem_map]
    constructor
    · rintro ⟨⟨s0, v⟩, hkv, hEq⟩
      rw [hedges₁, assoc_mem_eraseP hInv.edges_nodup] at hkv
      rw [Prod.mk.injEq] at hEq
      obtain ⟨hs0, hw⟩ := hEq
      simp only at hs0 hw
      subst hs0
      exact ⟨v, hkv.1, hkv.2, hw.symm⟩
    · rintro ⟨v, hv, hne, rfl⟩
      refine ⟨(s, v), ?_, rfl⟩
      rw [hedges₁]
      exact (assoc_mem_eraseP hInv.edges_nodup).mpr ⟨hv, hne⟩
  refine ⟨hAnodup, ?_, ?_, ?_, ?_, ?_, ?_, ?_, ?_, ?_, ?_, ?_, ?_, ?_, hacyc'⟩
  · -- areas_inB
    rintro ⟨i, l⟩ ha x hx
    obtain ⟨a, hmem, hxa, -⟩ := hold_entry i l x ha hx
    exact hInv.areas_inB a hmem x hxa
  · -- areas_ne
    rintro ⟨i, l⟩ ha
    rcases (hAmem i l).mp ha with ⟨l0, hmem, hne, hEq⟩
    have hl0 := hInv.areas_ne (i, l0) hmem
    by_cases hil : i = lid
    · rw [if_pos hil] at hEq
      rw [hEq]
      intro hc
      exact hl0 (List.append_eq_nil.mp hc).1
    · rw [if_neg hil] at hEq
      rw [hEq]
      exact hl0
  · -- areas_cover
    intro x hx
    obtain ⟨⟨j, l0⟩, hmem, hxl0⟩ := hInv.areas_cover x hx
    obtain ⟨l1, hl1, hx1⟩ := hnew_entry j l0 x hmem hxl0
    exact ⟨_, hl1, hx1⟩
  · -- areas_uniq
    rintro ⟨i, L1⟩ h1 ⟨j, L2⟩ h2 x hx1 hx2
    obtain ⟨b1, hb1, hxb1, hk1⟩ := hold_entry i L1 x h1 hx1
    obtain ⟨b2, hb2, hxb2, hk2⟩ := hold_entry j L2 x h2 hx2
    have hb12 : b1 = b2 := hInv.areas_uniq b1 hb1 b2 hb2 x hxb1 hxb2
    have hij : i = j := by
      rw [← hk1, ← hk2, hb12]
    subst hij
    have hL : L1 = L2 := assoc_val_eq hAnodup h1 h2
    rw [hL]
  · -- edges_nodup
    rw [hE, keys_map_relabel, hedges₁]
    exact (keys_eraseP_sublist _ _).nodup hInv.edges_nodup
  · -- keys_iff
    intro s
    rw [hkeys' s, hInv.keys_iff s]
    constructor
    · rintro ⟨⟨hex, hall⟩, hne⟩
      refine ⟨hex, ?_⟩
      intro p hp
      rcases List.mem_append.mp hp with hp | hp
      · exact hall p hp
      · rw [List.mem_singleton] at hp
        subst hp
        intro hcs
        exact hne (innerSeg_seg_eq hcs hseg)
    · rintro ⟨hex, hall'⟩
      refine ⟨⟨hex, fun p hp => hall' p (List.mem_append.mpr (Or.inl hp))⟩, ?_⟩
      intro hEq
      subst hEq
      exact hall' (c, c') (List.mem_append.mpr (Or.inr (by simp))) hseg
  · -- val_inner
    intro s w hmem d d' hdd
    rcases (hEmem s w).mp hmem with ⟨v, hv, hne, hwEq⟩
    rcases hInv.val_inner s v hv d d' hdd with ⟨r0, li0, li0', hvEq, hl0, hd0, hr0, hd'0⟩
    have hv2 : v.2 = some r0 := congrArg Prod.snd hvEq
    obtain ⟨l1, hl1, hd1⟩ := hnew_entry v.1 li0 d hl0 hd0
    obtain ⟨l1', hl1', hd1'⟩ := hnew_entry r0 li0' d' hr0 hd'0
    refine ⟨(if r0 = rid then lid else r0), l1, l1', ?_, ?_, hd1, hl1', hd1'⟩
    · rw [hwEq, hv2]
      simp [Option.map_some']
    · rw [hwEq]
      exact hl1
  · -- val_some_inner
    intro s l1 r1 hmem
    rcases (hEmem s (l1, some r1)).mp hmem with ⟨v, hv, hne, hwEq⟩
    have hsnd := congrArg Prod.snd hwEq
    simp only at hsnd
    match hv2 : v.2 with
    | none =>
      rw [hv2] at hsnd
      exact absurd hsnd (by simp)
    | some r0 =>
      have hv' : (s, (v.1, some r0)) ∈ st.edges := by
        have hveta : (s, (v.1, v.2)) ∈ st.edges := by simpa using hv
        rw [hv2] at hveta
        exact hveta
      exact hInv.val_some_inner s v.1 r0 hv'
  · -- inner_nodup
    rw [hI]
    exact nodup_swapRemove hinner_nodup hidx
  · -- inner_complete
    intro d d' s hdd hkey hdisj
    rw [hI]
    have hks := (hkeys' s).mp hkey
    have hdisj_old : ∀ a ∈ st.areas, ¬(d ∈ a.2 ∧ d' ∈ a.2) := by
      rintro ⟨j, l0⟩ hmem ⟨hdj, hd'j⟩
      obtain ⟨l1, hl1, hd1⟩ := hnew_entry j l0 d hmem hdj
      obtain ⟨l1', hl1', hd1'⟩ := hnew_entry j l0 d' hmem hd'j
      have hLeq : l1 = l1' := assoc_val_eq hAnodup hl1 hl1'
      exact hdisj _ hl1 ⟨hd1, hLeq ▸ hd1'⟩
    have hs_inner : s ∈ inner := hinner_mem d d' s hdd hks.1 hdisj_old
    rw [mem_swapRemove_iff hinner_nodup hidx]
    refine ⟨hs_inner, ?_⟩
    intro hEq
    rw [List.getD_eq_getElem _ _ hidx] at hpick
    rw [hEq, hpick] at hks
    exact hks.2 rfl
  · -- carved_inner
    intro p hp
    rcases List.mem_append.mp hp with hp | hp
    · exact hInv.carved_inner p hp
    · rw [List.mem_singleton] at hp
      subst hp
      exact ⟨edge_id, hseg⟩
  · -- reach_same
    rintro ⟨i, L⟩ ha x hx y hy
    rcases (hAmem i L).mp ha with ⟨l0, hmem, hne, hEq⟩
    by_cases hil : i = lid
    · rw [if_pos hil] at hEq
      subst hEq
      rw [hil] at hmem
      have hl0_li : l0 = li := assoc_val_eq hInv.areas_nodup hmem hlid
      have hreach_c : ∀ u ∈ l0 ++ rc,
          (carvedGraph (carved ++ [(c, c')])).Reachable u c := by
        intro u hu
        rcases List.mem_append.mp hu with hu | hu
        · rw [hl0_li] at hu
          exact (hInv.reach_same (lid, li) hlid u hu c hcli).mono hmono
        · exact ((hInv.reach_same (rid, rc) hrid u hu c' hc'rc).mono hmono).trans
            hreach_cc'.symm
      exact (hreach_c x hx).trans (hreach_c y hy).symm
    · rw [if_neg hil] at hEq
      rw [hEq] at hx hy
      exact (hInv.reach_same (i, l0) hmem x hx y hy).mono hmono
  · -- reach_diff
    rintro ⟨i, L1⟩ h1 ⟨j, L2⟩ h2 hne12 x hx y hy hr
    obtain ⟨b1, hb1, hxb1, hk1⟩ := hold_entry i L1 x h1 hx
    obtain ⟨b2, hb2, hyb2, hk2⟩ := hold_entry j L2 y h2 hy
    rw [hG'] at hr
    have hij : i = j := by
      rcases reach_sup_edge_cases hr with hro | ⟨hxc, hc'y⟩ | ⟨hxc', hcy⟩
      · have hb12 : b1 = b2 := hreach_entry b1 b2 x y hb1 hb2 hxb1 hyb2 hro
        rw [← hk1, ← hk2, hb12]
      · have hb1' : b1 = (lid, li) := hreach_entry b1 (lid, li) x c hb1 hlid hxb1 hcli hxc
        have hb2' : b2 = (rid, rc) :=
          hreach_entry b2 (rid, rc) y c' hb2 hrid hyb2 hc'rc hc'y.symm
        rw [← hk1, ← hk2, hb1', hb2']
        simp [hne_ids]
      · have hb1' : b1 = (rid, rc) :=
          hreach_entry b1 (rid, rc) x c' hb1 hrid hxb1 hc'rc hxc'
        have hb2' : b2 = (lid, li) := hreach_entry b2 (lid, li) y c hb2 hlid hyb2 hcli hcy.symm
        rw [← hk1, ← hk2, hb1', hb2']
        simp [hne_ids]
    subst hij
    have hL : L1 = L2 := assoc_val_eq hAnodup h1 h2
    exact hne12 (by rw [hL])

lemma carveStep_inv {nx ny r : ℕ} {st st' : LabState}
    {carved : List (Point ℕ × Point ℕ)}
    (hInv : Inv nx ny st carved) (h : carveStep r st = some st') :
    ∃ p : Point ℕ × Point ℕ, Inv nx ny st' (carved ++ [p]) := by
  simp only [carveStep] at h
  split_ifs at h with hlen0
  split at h
  · exact absurd h (by simp)
  · rename_i edge edges' heq
    split at h
    · exact absurd h (by simp)
    · rename_i rid hval
      split at h
      · exact absurd h (by simp)
      · rename_i rc areas' heq2
        rw [Option.some_inj] at h
        subst h
        have hpos : 0 < (st.inner_edges.filter (fun e =>
            match alookup st.edges e with
            | some v =>
                match v.2 with
                | some rid => decide (v.1 ≠ rid)
                | none => false
            | none => false)).length := Nat.pos_of_ne_zero hlen0
        have hidx := Nat.mod_lt r hpos
        have hpick := List.getD_eq_getElem _ dummyLine hidx
        have hmem_inner := List.getElem_mem hidx
        rw [← hpick] at hmem_inner
        have hfilter := List.mem_filter.mp hmem_inner
        have hmem_e := aremove_some_mem heq
        have hedges' := aremove_some_snd heq
        have halk := alookup_eq_some hInv.edges_nodup hmem_e
        have hmem_a := aremove_some_mem heq2
        have hareas' := aremove_some_snd heq2
        have hpred := hfilter.2
        simp only [halk] at hpred
        rw [hval] at hpred
        simp only [decide_eq_true_eq] at hpred
        obtain ⟨c, c', hseg⟩ := hInv.val_some_inner _ edge.1 rid
          (by rw [← hval, Prod.mk.eta]; exact hmem_e)
        obtain ⟨r0, li, li', hvEq, hl, hcli, hr0mem, hc'li'⟩ :=
          hInv.val_inner _ edge hmem_e c c' hseg
        have hr0rid : r0 = rid := by
          have hsnd := congrArg Prod.snd hvEq
          simp only at hsnd
          rw [hval] at hsnd
          exact (Option.some_inj.mp hsnd).symm
        rw [hr0rid] at hr0mem
        have hli'rc : li' = rc := assoc_val_eq hInv.areas_nodup hr0mem hmem_a
        rw [hli'rc] at hc'li'
        have hinner_nodup := hInv.inner_nodup.filter (fun e =>
            match alookup st.edges e with
            | some v =>
                match v.2 with
                | some rid => decide (v.1 ≠ rid)
                | none => false
            | none => false)
        have hinner_mem : ∀ (d d' : Point ℕ) (s : Line ℕ), innerSeg nx ny d d' s →
            s ∈ st.edges.map Prod.fst →
            (∀ a ∈ st.areas, ¬(d ∈ a.2 ∧ d' ∈ a.2)) →
            s ∈ st.inner_edges.filter (fun e =>
              match alookup st.edges e with
              | some v =>
                  match v.2 with
                  | some rid => decide (v.1 ≠ rid)
                  | none => false
              | none => false) := by
          intro d d' s hdd hkey hdisj
          have hs_old : s ∈ st.inner_edges := hInv.inner_complete d d' s hdd hkey hdisj
          obtain ⟨v, hv⟩ := mem_keys_iff_exists.mp hkey
          obtain ⟨r1, li1, li1', hvEq1, hl1, hd1, hr1, hd'1⟩ :=
            hInv.val_inner s v hv d d' hdd
          have halks : alookup st.edges s = some v := alookup_eq_some hInv.edges_nodup hv
          have hv2 : v.2 = some r1 := congrArg Prod.snd hvEq1
          have hv1ne : v.1 ≠ r1 := by
            intro hEq
            rw [hEq] at hl1
            have hli_eq : li1 = li1' := assoc_val_eq hInv.areas_nodup hl1 hr1
            exact hdisj _ hl1 ⟨hd1, by rw [hli_eq]; exact hd'1⟩
          refine List.mem_filter.mpr ⟨hs_old, ?_⟩
          simp only [halks]
          rw [hv2]
          simp only [decide_eq_true_eq]
          exact hv1ne
        have hEmass : edges'.map (fun kv => (kv.1,
              ((if kv.2.1 = rid then edge.1 else kv.2.1),
                match kv.2.2 with
                | some v2 => if v2 = rid then some edge.1 else some v2
                | none => none))) =
            edges'.map (fun kv => (kv.1,
              ((if kv.2.1 = rid then edge.1 else kv.2.1),
                kv.2.2.map (fun x => if x = rid then edge.1 else x)))) := by
          refine List.map_congr_left ?_
          intro kv _
          cases hkv2 : kv.2.2 with
          | none => simp [hkv2]
          | some v2 => by_cases hv2r : v2 = rid <;> simp [hkv2, hv2r]
        refine ⟨(c, c'), step_preserves hInv hseg hl hcli hmem_a hc'li' hpred
          hedges' hareas' hinner_nodup hinner_mem hidx rfl rfl ?_ rfl⟩
        exact hEmass

lemma carveLoop_inv {nx ny : ℕ} {stream : ℕ → ℕ} :
    ∀ {fuel k : ℕ} {st st' : LabState} {carved : List (Point ℕ × Point ℕ)},
      Inv nx ny st carved → carveLoop stream fuel k st = some st' →
      ∃ carved', Inv nx ny st' carved' ∧ st'.areas.length ≤ 1 := by
  intro fuel
  induction fuel with
  | zero =>
    intro k st st' carved hInv h
    simp only [carveLoop] at h
    split_ifs at h with hgt
    rw [Option.some_inj] at h
    subst h
    exact ⟨carved, hInv, by omega⟩
  | succ fuel ih =>
    intro k st st' carved hInv h
    simp only [carveLoop] at h
    split_ifs at h with hgt
    · split at h
      · exact absurd h (by simp)
      · rename_i st1 hstep
        obtain ⟨p, hInv1⟩ := carveStep_inv hInv hstep
        exact ih hInv1 h
    · rw [Option.some_inj] at h
      subst h
      exact ⟨carved, hInv, by omega⟩

lemma make_labyrinth_zero_dropout {winW winH g : ℕ} {s1 s2 : ℕ → ℕ}
    {lab : List (Line ℕ)} (h : make_labyrinth winW winH g 0 s1 s2 = some lab) :
    ∃ st : LabState,
      carveLoop s1 (initState (winW / g) (winH / g)).areas.length 0
        (initState (winW / g) (winH / g)) = some st ∧
      lab = st.edges.map Prod.fst := by
  simp only [make_labyrinth] at h
  split_ifs at h
  split at h
  · exact absurd h (by simp)
  · rename_i st hloop
    simp only [mul_zero, Int.floor_zero, Int.toNat_zero, dropoutLoop,
      Option.some_inj] at h
    exact ⟨st, hloop, h.symm⟩

lemma openAdj_iff_carved {nx ny : ℕ} {st : LabState}
    {carved : List (Point ℕ × Point ℕ)} (hInv : Inv nx ny st carved)
    {a b : Point ℕ} :
    openAdj nx ny (st.edges.map Prod.fst) a b ↔ (carvedGraph carved).Adj a b := by
  rw [openAdj_iff, carvedGraph_adj]
  constructor
  · rintro ⟨c, c', s, hcc, hsL, hab⟩
    have hne := innerSeg_ne hcc
    have h1 : ¬ ∀ p ∈ carved, ¬ innerSeg nx ny p.1 p.2 s := by
      intro hall
      exact hsL ((hInv.keys_iff s).mpr ⟨⟨c, hcc.1, (innerSeg_mem_cellEdges hcc).1⟩, hall⟩)
    push_neg at h1
    obtain ⟨p, hp, hps⟩ := h1
    obtain ⟨hEq1, hEq2⟩ := innerSeg_inj hps hcc
    have hp' : (c, c') ∈ carved := by
      rw [← hEq1, ← hEq2, Prod.mk.eta]
      exact hp
    rcases hab with ⟨rfl, rfl⟩ | ⟨rfl, rfl⟩
    · exact ⟨Or.inl hp', hne⟩
    · exact ⟨Or.inr hp', hne.symm⟩
  · rintro ⟨hp | hp, hab⟩
    · obtain ⟨s, hs⟩ := hInv.carved_inner (a, b) hp
      refine ⟨a, b, s, hs, ?_, Or.inl ⟨rfl, rfl⟩⟩
      intro hsk
      exact ((hInv.keys_iff s).mp hsk).2 (a, b) hp hs
    · obtain ⟨s, hs⟩ := hInv.carved_inner (b, a) hp
      refine ⟨b, a, s, hs, ?_, Or.inr ⟨rfl, rfl⟩⟩
      intro hsk
      exact ((hInv.keys_iff s).mp hsk).2 (b, a) hp hs

lemma final_reach {nx ny : ℕ} {st : LabState} {carved : List (Point ℕ × Point ℕ)}
    (hInv : Inv nx ny st carved) (hlen : st.areas.length ≤ 1) {x y : Point ℕ}
    (hx : inB nx ny x) (hy : inB nx ny y) :
    (carvedGraph carved).Reachable x y := by
  obtain ⟨a1, ha1, hxa⟩ := hInv.areas_cover x hx
  obtain ⟨a2, ha2, hya⟩ := hInv.areas_cover y hy
  have hEq : a1 = a2 := by
    rcases hl : st.areas with _ | ⟨a, _ | ⟨b, t⟩⟩
    · rw [hl] at ha1
      exact absurd ha1 (List.not_mem_nil _)
    · rw [hl] at ha1 ha2
      rw [List.mem_singleton] at ha1 ha2
      rw [ha1, ha2]
    · rw [hl] at hlen
      simp at hlen
  subst hEq
  exact hInv.reach_same a1 ha1 x hxa y hya

lemma carvedGraph_adj_inB {nx ny : ℕ} {st : LabState}
    {carved : List (Point ℕ × Point ℕ)} (hInv : Inv nx ny st carved)
    {a b : Point ℕ} (h : (carvedGraph carved).Adj a b) : inB nx ny a ∧ inB nx ny b := by
  rw [carvedGraph_adj] at h
  rcases h with ⟨hp | hp, -⟩
  · obtain ⟨s, hs⟩ := hInv.carved_inner (a, b) hp
    exact ⟨hs.1, hs.2.1⟩
  · obtain ⟨s, hs⟩ := hInv.carved_inner (b, a) hp
    exact ⟨hs.2.1, hs.1⟩

/-- C1: for a valid grid (at least two lattice cells) and dropout = 0, every
wall list returned by make_labyrinth yields a dual graph (vertices the
lattice cells, edges the wall-free shared borders) that is a tree, and hence
admits exactly one simple path between any two cells: the open borders form a
spanning tree of the 4-connected cell grid. -/
theorem C1_spanning_tree (winW winH grid_size : ℕ) (s1 s2 : ℕ → ℕ)
    (lab : List (Line ℕ))
    (hcells : 2 ≤ (winW / grid_size) * (winH / grid_size))
    (hw : make_labyrinth winW winH grid_size 0 s1 s2 = some lab) :
    (dualGraph (winW / grid_size) (winH / grid_size) lab).IsTree ∧
      ∀ u v, ∃! p : (dualGraph (winW / grid_size) (winH / grid_size) lab).Walk u v,
        p.IsPath := by
  have hny : 0 < winH / grid_size := by
    rcases Nat.eq_zero_or_pos (winH / grid_size) with h0 | h0
    · rw [h0, Nat.mul_zero] at hcells
      omega
    · exact h0
  have hnx : 0 < winW / grid_size := by
    rcases Nat.eq_zero_or_pos (winW / grid_size) with h0 | h0
    · rw [h0, Nat.zero_mul] at hcells
      omega
    · exact h0
  obtain ⟨st, hloop, hlab⟩ := make_labyrinth_zero_dropout hw
  obtain ⟨carved, hInv, hlen⟩ := carveLoop_inv (inv_init hny) hloop
  have hadj_iff : ∀ a b : Point ℕ,
      openAdj (winW / grid_size) (winH / grid_size) lab a b ↔
        (carvedGraph carved).Adj a b := by
    intro a b
    rw [hlab]
    exact openAdj_iff_carved hInv
  have htree : (dualGraph (winW / grid_size) (winH / grid_size) lab).IsTree := by
    constructor
    · rw [SimpleGraph.connected_iff]
      constructor
      · intro u v
        have hr : (carvedGraph carved).Reachable u.1 v.1 :=
          final_reach hInv hlen u.2 v.2
        exact reachable_toSubtype (fun a b h => carvedGraph_adj_inB hInv h)
          (dualGraph (winW / grid_size) (winH / grid_size) lab)
          (fun u v h => (hadj_iff u.1 v.1).mpr h) hr u.2 v.2
      · exact ⟨⟨⟨0, 0⟩, hnx, hny⟩⟩
    · refine isAcyclic_toSubtype hInv.acyc
        (dualGraph (winW / grid_size) (winH / grid_size) lab) ?_
      intro u v huv
      exact (hadj_iff u.1 v.1).mp huv
  exact ⟨htree, (SimpleGraph.isTree_iff_existsUnique_path.mp htree).2⟩

/-- The concrete 2 x 1 maze produced with constant-zero random streams: the
shared border of the two cells is carved, leaving the six perimeter walls. -/
lemma two_cell_generation :
    make_labyrinth 2 1 1 0 (fun _ => 0) (fun _ => 0) =
      some [⟨⟨0, 0⟩, ⟨1, 0⟩⟩, ⟨⟨0, 0⟩, ⟨0, 1⟩⟩, ⟨⟨0, 1⟩, ⟨1, 1⟩⟩,
        ⟨⟨1, 0⟩, ⟨2, 0⟩⟩, ⟨⟨2, 0⟩, ⟨2, 1⟩⟩, ⟨⟨1, 1⟩, ⟨2, 1⟩⟩] := by
  have hC : carveLoop (fun _ => 0) (initState 2 1).areas.length 0 (initState 2 1) =
      some { areas := [(0, [⟨0, 0⟩, ⟨1, 0⟩])]
             edges := [(⟨⟨0, 0⟩, ⟨1, 0⟩⟩, (0, none)), (⟨⟨0, 0⟩, ⟨0, 1⟩⟩, (0, none)),
               (⟨⟨0, 1⟩, ⟨1, 1⟩⟩, (0, none)), (⟨⟨1, 0⟩, ⟨2, 0⟩⟩, (0, none)),
               (⟨⟨2, 0⟩, ⟨2, 1⟩⟩, (0, none)), (⟨⟨1, 1⟩, ⟨2, 1⟩⟩, (0, none))]
             inner_edges := [] } := rfl
  have h4 : ([(⟨⟨0, 0⟩, ⟨1, 0⟩⟩, ((0 : ℕ), (none : Option ℕ))),
      (⟨⟨0, 0⟩, ⟨0, 1⟩⟩, (0, none)), (⟨⟨0, 1⟩, ⟨1, 1⟩⟩, (0, none)),
      (⟨⟨1, 0⟩, ⟨2, 0⟩⟩, (0, none)), (⟨⟨2, 0⟩, ⟨2, 1⟩⟩, (0, none)),
      (⟨⟨1, 1⟩, ⟨2, 1⟩⟩, (0, none))] : List (Line ℕ × EdgeVal)).filterMap
        (fun kv => kv.2.2.map (fun _ => kv.1)) = ([] : List (Line ℕ)) := rfl
  simp only [make_labyrinth, Nat.one_ne_zero, if_false, ite_false, hC, h4,
    List.length_nil, Nat.cast_zero, zero_mul, Int.floor_zero, Int.toNat_zero,
    dropoutLoop]
  rfl

/-- Witness for C1: the 2 x 1 maze generated with constant-zero streams is a
tree on its two cells with a unique simple path between any two cells. -/
theorem C1_spanning_tree_witness :
    2 ≤ (2 / 1) * (1 / 1) ∧
      ((dualGraph (2 / 1) (1 / 1) [⟨⟨0, 0⟩, ⟨1, 0⟩⟩, ⟨⟨0, 0⟩, ⟨0, 1⟩⟩,
          ⟨⟨0, 1⟩, ⟨1, 1⟩⟩, ⟨⟨1, 0⟩, ⟨2, 0⟩⟩, ⟨⟨2, 0⟩, ⟨2, 1⟩⟩,
          ⟨⟨1, 1⟩, ⟨2, 1⟩⟩]).IsTree ∧
        ∀ u v, ∃! p : (dualGraph (2 / 1) (1 / 1) [⟨⟨0, 0⟩, ⟨1, 0⟩⟩,
          ⟨⟨0, 0⟩, ⟨0, 1⟩⟩, ⟨⟨0, 1⟩, ⟨1, 1⟩⟩, ⟨⟨1, 0⟩, ⟨2, 0⟩⟩,
          ⟨⟨2, 0⟩, ⟨2, 1⟩⟩, ⟨⟨1, 1⟩, ⟨2, 1⟩⟩]).Walk u v, p.IsPath) :=
  ⟨by norm_num,
    C1_spanning_tree 2 1 1 (fun _ => 0) (fun _ => 0) _ (by norm_num)
      two_cell_generation⟩

/-- Direction enum from src/game.rs (None is modelled by an Option at the
call sites, as the traversal directions DIRECTIONS never contain it). -/
inductive Dir where
  | north
  | east
  | south
  | west
deriving DecidableEq

/-- Direction::rev (src/game.rs lines 217-226) on the four real directions. -/
def Dir.rev : Dir → Dir
  | .north => .south
  | .east => .west
  | .south => .north
  | .west => .east

/-- The DIRECTIONS constant (src/game.rs lines 209-214), in source order. -/
def DIRECTIONS : List Dir := [.north, .east, .south, .west]

/-- The borders HashMap of Cell::new (src/game.rs lines 235-251): the four
borders of cell (x, y) at grid size g, with the exact endpoint order of the
source (p1-p2, p2-p3, p3-p4, p1-p4). -/
def cellBorder (g : ℕ) (x y : ℕ) : Dir → Line ℚ
  | .north => ⟨⟨x * g, y * g⟩, ⟨(x + 1 : ℕ) * g, y * g⟩⟩
  | .east => ⟨⟨(x + 1 : ℕ) * g, y * g⟩, ⟨(x + 1 : ℕ) * g, (y + 1 : ℕ) * g⟩⟩
  | .south => ⟨⟨(x + 1 : ℕ) * g, (y + 1 : ℕ) * g⟩, ⟨x * g, (y + 1 : ℕ) * g⟩⟩
  | .west => ⟨⟨x * g, y * g⟩, ⟨x * g, (y + 1 : ℕ) * g⟩⟩

/-- The rev-exclusion test `dir != direction.rev()`: with arrived direction
None (initial call) every direction is allowed. -/
def allowedDir (a : Option Dir) (d : Dir) : Bool :=
  match a with
  | none => true
  | some a' => decide (d ≠ a'.rev)

/-- The for-loop of Grid::find_intersection: the first direction (in
DIRECTIONS order) that is not the reverse of the arrival direction and whose
border the probe segment intersects. -/
def pickDir (line : Line ℚ) (g : ℕ) (x y : ℕ) (a : Option Dir) : Option Dir :=
  DIRECTIONS.find? (fun d => allowedDir a d && line.intersects (cellBorder g x y d))

/-- Grid::move_to (src/game.rs lines 285-293): stepping outside the cell map
(usize underflow or a missing HashMap key) is a Rust panic, rendered None. -/
def moveDir (nx ny : ℕ) (x y : ℕ) : Dir → Option (ℕ × ℕ)
  | .north => if y = 0 then none else some (x, y - 1)
  | .east => if x + 1 < nx then some (x + 1, y) else none
  | .south => if y + 1 < ny then some (x, y + 1) else none
  | .west => if x = 0 then none else some (x - 1, y)

/-- Grid::find_intersection (src/game.rs lines 300-317), with explicit fuel:
None models both a panic and exhaustion of the fuel; the walls of the filled
grid are an arbitrary per-cell per-direction assignment. -/
def find_intersection (nx ny g : ℕ) (walls : ℕ × ℕ → Dir → Option (Line ℚ))
    (line : Line ℚ) : ℕ → ℕ × ℕ → Option Dir → Option (Option (Point ℚ))
  | 0, _, _ => none
  | fuel + 1, c, a =>
    match pickDir line g c.1 c.2 a with
    | none => some none
    | some d =>
      match walls c d with
      | some w => some (line.intersection w)
      | none =>
        match moveDir nx ny c.1 c.2 d with
        | none => none
        | some c' => find_intersection nx ny g walls line fuel c' (some d)

/-- Signed side of a point relative to the directed probe line. -/
def sideVal (line : Line ℚ) (q : Point ℚ) : ℚ :=
  (line.b.x - line.a.x) * (q.y - line.a.y) - (line.b.y - line.a.y) * (q.x - line.a.x)

lemma ccw_side (line : Line ℚ) (q : Point ℚ) :
    Line.ccw line.a line.b q = decide (0 < sideVal line q) := by
  rw [Line.ccw, decide_eq_decide]
  unfold sideVal
  constructor <;> intro h <;> nlinarith

lemma ccw_vert {M1 M2 : ℚ} (h : M1 < M2) (P : Point ℚ) (K : ℚ) :
    Line.ccw P ⟨K, M1⟩ ⟨K, M2⟩ = decide (P.x < K) := by
  rw [Line.ccw, decide_eq_decide]
  constructor <;> intro hlt <;> simp only at * <;> nlinarith

lemma ccw_horiz {M1 M2 : ℚ} (h : M1 < M2) (P : Point ℚ) (K : ℚ) :
    Line.ccw P ⟨M1, K⟩ ⟨M2, K⟩ = decide (K < P.y) := by
  rw [Line.ccw, decide_eq_decide]
  constructor <;> intro hlt <;> simp only at * <;> nlinarith

lemma ccw_horiz' {M1 M2 : ℚ} (h : M2 < M1) (P : Point ℚ) (K : ℚ) :
    Line.ccw P ⟨M1, K⟩ ⟨M2, K⟩ = decide (P.y < K) := by
  rw [Line.ccw, decide_eq_decide]
  constructor <;> intro hlt <;> simp only at * <;> nlinarith

/-- Whether the probe can cross the vertical grid line x = k * g (the first
ccw pair of the intersects test for a vertical border). -/
def crossV (line : Line ℚ) (g k : ℕ) : Prop :=
  Xor' (line.a.x < (k : ℚ) * g) (line.b.x < (k : ℚ) * g)

/-- Northward-crossing test for the horizontal grid line y = k * g. -/
def crossHN (line : Line ℚ) (g k : ℕ) : Prop :=
  Xor' ((k : ℚ) * g < line.a.y) ((k : ℚ) * g < line.b.y)

/-- Southward-crossing test for the horizontal grid line y = k * g. -/
def crossHS (line : Line ℚ) (g k : ℕ) : Prop :=
  Xor' (line.a.y < (k : ℚ) * g) (line.b.y < (k : ℚ) * g)

/-- The second ccw pair of intersects for the border of span m on the
vertical grid line x = k * g. -/
def spanV (line : Line ℚ) (g k m : ℕ) : Prop :=
  Xor' (0 < sideVal line ⟨(k : ℚ) * g, (m : ℚ) * g⟩)
    (0 < sideVal line ⟨(k : ℚ) * g, ((m : ℚ) + 1) * g⟩)

/-- The second ccw pair of intersects for the border of span m on the
horizontal grid line y = k * g. -/
def spanH (line : Line ℚ) (g k m : ℕ) : Prop :=
  Xor' (0 < sideVal line ⟨(m : ℚ) * g, (k : ℚ) * g⟩)
    (0 < sideVal line ⟨((m : ℚ) + 1) * g, (k : ℚ) * g⟩)

lemma bne_decide_iff {A B : Prop} [Decidable A] [Decidable B] :
    ((decide A != decide B) = true) ↔ Xor' A B := by
  rw [bne_iff_ne, ne_eq, decide_eq_decide]
  rw [xor_iff_not_iff]

lemma cast_succ_mul (y g : ℕ) : (((y + 1 : ℕ) : ℚ) * g) = ((y : ℚ) + 1) * g := by
  push_cast
  ring

lemma intersects_east_iff {line : Line ℚ} {g x y : ℕ} (hg : 0 < g) :
    line.intersects (cellBorder g x y .east) = true ↔
      crossV line g (x + 1) ∧ spanV line g (x + 1) y := by
  have hG : (0 : ℚ) < g := by exact_mod_cast hg
  have hM : ((y : ℚ) * g) < ((y : ℚ) + 1) * g := by nlinarith
  rw [Line.intersects]
  simp only [cellBorder, Bool.and_eq_true]
  rw [cast_succ_mul y g]
  rw [ccw_vert hM, ccw_vert hM, bne_decide_iff]
  rw [ccw_side, ccw_side, bne_decide_iff]
  unfold crossV spanV
  rw [cast_succ_mul x g]

lemma intersects_west_iff {line : Line ℚ} {g x y : ℕ} (hg : 0 < g) :
    line.intersects (cellBorder g x y .west) = true ↔
      crossV line g x ∧ spanV line g x y := by
  have hG : (0 : ℚ) < g := by exact_mod_cast hg
  have hM : ((y : ℚ) * g) < ((y : ℚ) + 1) * g := by nlinarith
  rw [Line.intersects]
  simp only [cellBorder, Bool.and_eq_true]
  rw [cast_succ_mul y g]
  rw [ccw_vert hM, ccw_vert hM, bne_decide_iff]
  rw [ccw_side, ccw_side, bne_decide_iff]
  unfold crossV spanV
  exact Iff.rfl

lemma intersects_north_iff {line : Line ℚ} {g x y : ℕ} (hg : 0 < g) :
    line.intersects (cellBorder g x y .north) = true ↔
      crossHN line g y ∧ spanH line g y x := by
  have hG : (0 : ℚ) < g := by exact_mod_cast hg
  have hM : ((x : ℚ) * g) < ((x : ℚ) + 1) * g := by nlinarith
  rw [Line.intersects]
  simp only [cellBorder, Bool.and_eq_true]
  rw [cast_succ_mul x g]
  rw [ccw_horiz hM, ccw_horiz hM, bne_decide_iff]
  rw [ccw_side, ccw_side, bne_decide_iff]
  unfold crossHN spanH
  exact Iff.rfl

lemma intersects_south_iff {line : Line ℚ} {g x y : ℕ} (hg : 0 < g) :
    line.intersects (cellBorder g x y .south) = true ↔
      crossHS line g (y + 1) ∧ spanH line g (y + 1) x := by
  have hG : (0 : ℚ) < g := by exact_mod_cast hg
  have hM : ((x : ℚ) * g) < ((x : ℚ) + 1) * g := by nlinarith
  rw [Line.intersects]
  simp only [cellBorder, Bool.and_eq_true]
  rw [cast_succ_mul x g, cast_succ_mul y g]
  rw [ccw_horiz' hM, ccw_horiz' hM, bne_decide_iff]
  rw [ccw_side, ccw_side, bne_decide_iff]
  unfold crossHS spanH
  push_cast
  constructor
  · rintro ⟨h1, h2⟩
    exact ⟨h1, h2.symm⟩
  · rintro ⟨h1, h2⟩
    exact ⟨h1, h2.symm⟩

lemma xor_affine_unique {f : ℕ → ℚ} {e : ℚ} (hf : ∀ m, f (m + 1) = f m + e)
    {m1 m2 : ℕ} (h1 : Xor' (0 < f m1) (0 < f (m1 + 1)))
    (h2 : Xor' (0 < f m2) (0 < f (m2 + 1))) : m1 = m2 := by
  have haux : ∀ p t, f (p + t) = f p + t * e := by
    intro p t
    induction t with
    | zero => simp
    | succ t ih =>
      have harith : p + (t + 1) = (p + t) + 1 := by omega
      rw [harith, hf, ih]
      push_cast
      ring
  have key : ∀ p q : ℕ, p < q → Xor' (0 < f p) (0 < f (p + 1)) →
      Xor' (0 < f q) (0 < f (q + 1)) → False := by
    intro p q hpq hxp hxq
    have hq : f q = f (p + 1) + (q - p - 1 : ℕ) * e := by
      conv_lhs => rw [show q = (p + 1) + (q - p - 1) by omega]
      rw [haux]
    have hq1 : f (q + 1) = f q + e := hf q
    have hnn : (0 : ℚ) ≤ ((q - p - 1 : ℕ) : ℚ) := by positivity
    rcases hxp with ⟨hp, hn⟩ | ⟨hp, hn⟩
    · -- 0 < f p, f (p+1) ≤ 0, so e < 0 and f is ≤ 0 from p+1 on
      push_neg at hn
      have he : e < 0 := by
        have := hf p
        nlinarith
      have hfq : f q ≤ 0 := by nlinarith
      have hfq1 : f (q + 1) ≤ 0 := by nlinarith
      rcases hxq with ⟨hA, -⟩ | ⟨hA, -⟩
      · linarith
      · linarith
    · -- 0 < f (p+1), f p ≤ 0, so e > 0 and f is > 0 from p+1 on
      push_neg at hn
      have he : 0 < e := by
        have := hf p
        nlinarith
      have hfq : 0 < f q := by nlinarith
      have hfq1 : 0 < f (q + 1) := by nlinarith
      rcases hxq with ⟨-, hB⟩ | ⟨-, hB⟩
      · exact hB hfq1
      · exact hB hfq
  by_contra hne
  rcases Nat.lt_or_ge m1 m2 with hlt | hge
  · exact key m1 m2 hlt h1 h2
  · exact key m2 m1 (by omega) h2 h1

lemma spanV_unique {line : Line ℚ} {g k m1 m2 : ℕ}
    (h1 : spanV line g k m1) (h2 : spanV line g k m2) : m1 = m2 := by
  have hf : ∀ m : ℕ, sideVal line ⟨(k : ℚ) * g, ((m : ℚ) + 1) * g⟩ =
      sideVal line ⟨(k : ℚ) * g, ((m + 1 : ℕ) : ℚ) * g⟩ := by
    intro m
    push_cast
    ring_nf
  unfold spanV at h1 h2
  rw [hf m1] at h1
  rw [hf m2] at h2
  refine xor_affine_unique (f := fun m : ℕ => sideVal line ⟨(k : ℚ) * g, (m : ℚ) * g⟩)
    (e := (line.b.x - line.a.x) * g) ?_ h1 h2
  intro m
  unfold sideVal
  push_cast
  ring

lemma spanH_unique {line : Line ℚ} {g k m1 m2 : ℕ}
    (h1 : spanH line g k m1) (h2 : spanH line g k m2) : m1 = m2 := by
  have hf : ∀ m : ℕ, sideVal line ⟨((m : ℚ) + 1) * g, (k : ℚ) * g⟩ =
      sideVal line ⟨((m + 1 : ℕ) : ℚ) * g, (k : ℚ) * g⟩ := by
    intro m
    push_cast
    ring_nf
  unfold spanH at h1 h2
  rw [hf m1] at h1
  rw [hf m2] at h2
  refine xor_affine_unique (f := fun m : ℕ => sideVal line ⟨(m : ℚ) * g, (k : ℚ) * g⟩)
    (e := -(line.b.y - line.a.y) * g) ?_ h1 h2
  intro m
  unfold sideVal
  push_cast
  ring

/-- Position of a direction in the DIRECTIONS iteration order. -/
def dirOrder : Dir → ℕ
  | .north => 0
  | .east => 1
  | .south => 2
  | .west => 3

/-- Identity of the physical border crossed when stepping from cell (x, y) in
a direction: (vertical?, grid-line index, span index). -/
def bidOf (x y : ℕ) : Dir → Bool × ℕ × ℕ
  | .north => (false, y, x)
  | .east => (true, x + 1, y)
  | .south => (false, y + 1, x)
  | .west => (true, x, y)

lemma pickDir_spec {line : Line ℚ} {g x y : ℕ} {a : Option Dir} {d : Dir}
    (h : pickDir line g x y a = some d) :
    (allowedDir a d = true ∧ line.intersects (cellBorder g x y d) = true) ∧
    (∀ e : Dir, dirOrder e < dirOrder d →
      (allowedDir a e && line.intersects (cellBorder g x y e)) = false) := by
  unfold pickDir DIRECTIONS at h
  by_cases hN : (allowedDir a Dir.north && line.intersects (cellBorder g x y Dir.north)) = true
  · rw [@List.find?_cons_of_pos _ (fun d => allowedDir a d &&
      line.intersects (cellBorder g x y d)) Dir.north _ hN, Option.some_inj] at h
    subst h
    rw [Bool.and_eq_true] at hN
    refine ⟨hN, ?_⟩
    intro e he
    simp [dirOrder] at he
  · rw [@List.find?_cons_of_neg _ (fun d => allowedDir a d &&
      line.intersects (cellBorder g x y d)) Dir.north _ hN] at h
    rw [Bool.not_eq_true] at hN
    by_cases hE : (allowedDir a Dir.east && line.intersects (cellBorder g x y Dir.east)) = true
    · rw [@List.find?_cons_of_pos _ (fun d => allowedDir a d &&
        line.intersects (cellBorder g x y d)) Dir.east _ hE, Option.some_inj] at h
      subst h
      rw [Bool.and_eq_true] at hE
      refine ⟨hE, ?_⟩
      intro e he
      cases e <;> simp only [dirOrder] at he <;> first | exact hN | omega
    · rw [@List.find?_cons_of_neg _ (fun d => allowedDir a d &&
        line.intersects (cellBorder g x y d)) Dir.east _ hE] at h
      rw [Bool.not_eq_true] at hE
      by_cases hS : (allowedDir a Dir.south && line.intersects (cellBorder g x y Dir.south)) = true
      · rw [@List.find?_cons_of_pos _ (fun d => allowedDir a d &&
          line.intersects (cellBorder g x y d)) Dir.south _ hS, Option.some_inj] at h
        subst h
        rw [Bool.and_eq_true] at hS
        refine ⟨hS, ?_⟩
        intro e he
        cases e <;> simp only [dirOrder] at he <;> first | exact hN | exact hE | omega
      · rw [@List.find?_cons_of_neg _ (fun d => allowedDir a d &&
          line.intersects (cellBorder g x y d)) Dir.south _ hS] at h
        rw [Bool.not_eq_true] at hS
        by_cases hW : (allowedDir a Dir.west && line.intersects (cellBorder g x y Dir.west)) = true
        · rw [@List.find?_cons_of_pos _ (fun d => allowedDir a d &&
            line.intersects (cellBorder g x y d)) Dir.west _ hW, Option.some_inj] at h
          subst h
          rw [Bool.and_eq_true] at hW
          refine ⟨hW, ?_⟩
          intro e he
          cases e <;> simp only [dirOrder] at he <;>
            first | exact hN | exact hE | exact hS | omega
        · rw [@List.find?_cons_of_neg _ (fun d => allowedDir a d &&
            line.intersects (cellBorder g x y d)) Dir.west _ hW] at h
          simp at h

lemma pickDir_not_rev {line : Line ℚ} {g x y : ℕ} {a' : Dir} {d : Dir}
    (h : pickDir line g x y (some a') = some d) : d ≠ a'.rev := by
  have hsp := (pickDir_spec h).1.1
  simp only [allowedDir, decide_eq_true_eq] at hsp
  exact hsp

/-- Both probe endpoints strictly inside the grid rectangle. -/
def inBounds (nx ny g : ℕ) (line : Line ℚ) : Prop :=
  0 < line.a.x ∧ line.a.x < (nx : ℚ) * g ∧ 0 < line.a.y ∧ line.a.y < (ny : ℚ) * g ∧
    0 < line.b.x ∧ line.b.x < (nx : ℚ) * g ∧ 0 < line.b.y ∧ line.b.y < (ny : ℚ) * g

/-- Under the interior-bounds hypothesis a picked direction never leaves the
grid: the chosen border is always an interior grid line. -/
lemma moveDir_of_pick {line : Line ℚ} {nx ny g x y : ℕ} {a : Option Dir} {d : Dir}
    (hg : 0 < g) (hb : inBounds nx ny g line) (hx : x < nx) (hy : y < ny)
    (h : pickDir line g x y a = some d) :
    ∃ x' y', moveDir nx ny x y d = some (x', y') ∧ x' < nx ∧ y' < ny := by
  obtain ⟨hax1, hax2, hay1, hay2, hbx1, hbx2, hby1, hby2⟩ := hb
  have hint := (pickDir_spec h).1.2
  cases d with
  | north =>
    rw [intersects_north_iff hg] at hint
    have hy0 : y ≠ 0 := by
      intro h0
      subst h0
      rcases hint.1 with ⟨h1, h2⟩ | ⟨h1, h2⟩ <;> push_cast at h1 h2 <;>
        simp only [zero_mul, not_lt] at h1 h2 <;> linarith
    refine ⟨x, y - 1, ?_, hx, by omega⟩
    simp [moveDir, hy0]
  | east =>
    rw [intersects_east_iff hg] at hint
    have hxn : x + 1 ≠ nx := by
      intro h0
      rcases hint.1 with ⟨h1, h2⟩ | ⟨h1, h2⟩ <;> rw [h0] at h1 h2 <;> push_cast at h1 h2 <;>
        linarith
    have hlt : x + 1 < nx := by omega
    refine ⟨x + 1, y, ?_, hlt, hy⟩
    simp [moveDir, hlt]
  | south =>
    rw [intersects_south_iff hg] at hint
    have hyn : y + 1 ≠ ny := by
      intro h0
      rcases hint.1 with ⟨h1, h2⟩ | ⟨h1, h2⟩ <;> rw [h0] at h1 h2 <;> push_cast at h1 h2 <;>
        linarith
    have hlt : y + 1 < ny := by omega
    refine ⟨x, y + 1, ?_, hx, hlt⟩
    simp [moveDir, hlt]
  | west =>
    rw [intersects_west_iff hg] at hint
    have hx0 : x ≠ 0 := by
      intro h0
      subst h0
      rcases hint.1 with ⟨h1, h2⟩ | ⟨h1, h2⟩ <;> push_cast at h1 h2 <;>
        simp only [zero_mul, not_lt] at h1 h2 <;> linarith
    refine ⟨x - 1, y, ?_, by omega, hy⟩
    simp [moveDir, hx0]

lemma moveDir_rel {nx ny x y x' y' : ℕ} {d : Dir}
    (h : moveDir nx ny x y d = some (x', y')) :
    (d = .north ∧ x' = x ∧ y = y' + 1) ∨ (d = .east ∧ x' = x + 1 ∧ y' = y) ∨
    (d = .south ∧ x' = x ∧ y' = y + 1) ∨ (d = .west ∧ x = x' + 1 ∧ y' = y) := by
  cases d with
  | north =>
    rw [moveDir] at h
    split_ifs at h with h0
    rw [Option.some_inj, Prod.mk.injEq] at h
    exact Or.inl ⟨rfl, h.1.symm, by omega⟩
  | east =>
    rw [moveDir] at h
    split_ifs at h with h0
    rw [Option.some_inj, Prod.mk.injEq] at h
    exact Or.inr (Or.inl ⟨rfl, h.1.symm, h.2.symm⟩)
  | south =>
    rw [moveDir] at h
    split_ifs at h with h0
    rw [Option.some_inj, Prod.mk.injEq] at h
    exact Or.inr (Or.inr (Or.inl ⟨rfl, h.1.symm, h.2.symm⟩))
  | west =>
    rw [moveDir] at h
    split_ifs at h with h0
    rw [Option.some_inj, Prod.mk.injEq] at h
    exact Or.inr (Or.inr (Or.inr ⟨rfl, by omega, h.2.symm⟩))

/-- The border crossed when entering a cell is that cell's border in the
reverse direction. -/
lemma entry_bid {nx ny x y x' y' : ℕ} {d : Dir}
    (h : moveDir nx ny x y d = some (x', y')) :
    bidOf x y d = bidOf x' y' d.rev := by
  rcases moveDir_rel h with ⟨rfl, h1, h2⟩ | ⟨rfl, h1, h2⟩ | ⟨rfl, h1, h2⟩ | ⟨rfl, h1, h2⟩ <;>
    simp only [bidOf, Dir.rev, Prod.mk.injEq] <;>
    exact ⟨trivial, by omega, by omega⟩

lemma exists_step_up {u : ℕ → ℕ} {a b K : ℕ} (hab : a ≤ b)
    (hstep : ∀ t, a ≤ t → t < b →
      u (t + 1) = u t ∨ u (t + 1) = u t + 1 ∨ u t = u (t + 1) + 1)
    (ha : u a < K) (hb2 : K ≤ u b) :
    ∃ t, a ≤ t ∧ t < b ∧ u t + 1 = K ∧ u (t + 1) = K := by
  classical
  have hP : ∃ t, a ≤ t ∧ t ≤ b ∧ K ≤ u t := ⟨b, hab, le_refl b, hb2⟩
  have ht0 := Nat.find_spec hP
  have ht0a : a < Nat.find hP := by
    by_contra hcon
    push_neg at hcon
    have hEq : Nat.find hP = a := le_antisymm hcon ht0.1
    have h3 := ht0.2.2
    rw [hEq] at h3
    omega
  have hprev := Nat.find_min hP (m := Nat.find hP - 1) (by omega)
  have hu_prev : u (Nat.find hP - 1) < K := by
    by_contra hcon
    exact hprev ⟨by omega, by omega, by omega⟩
  have hstep0 := hstep (Nat.find hP - 1) (by omega) (by omega)
  have ht0e : Nat.find hP - 1 + 1 = Nat.find hP := by omega
  rw [ht0e] at hstep0
  refine ⟨Nat.find hP - 1, by omega, by omega, by omega, ?_⟩
  rw [ht0e]
  omega

lemma exists_step_down {u : ℕ → ℕ} {a b K : ℕ} (hab : a ≤ b)
    (hstep : ∀ t, a ≤ t → t < b →
      u (t + 1) = u t ∨ u (t + 1) = u t + 1 ∨ u t = u (t + 1) + 1)
    (ha : K ≤ u a) (hb2 : u b < K) :
    ∃ t, a ≤ t ∧ t < b ∧ u t = K ∧ u (t + 1) + 1 = K := by
  classical
  have hP : ∃ t, a ≤ t ∧ t ≤ b ∧ u t < K := ⟨b, hab, le_refl b, hb2⟩
  have ht0 := Nat.find_spec hP
  have ht0a : a < Nat.find hP := by
    by_contra hcon
    push_neg at hcon
    have hEq : Nat.find hP = a := le_antisymm hcon ht0.1
    have h3 := ht0.2.2
    rw [hEq] at h3
    omega
  have hprev := Nat.find_min hP (m := Nat.find hP - 1) (by omega)
  have hu_prev : K ≤ u (Nat.find hP - 1) := by
    by_contra hcon
    exact hprev ⟨by omega, by omega, by omega⟩
  have hstep0 := hstep (Nat.find hP - 1) (by omega) (by omega)
  have ht0e : Nat.find hP - 1 + 1 = Nat.find hP := by omega
  rw [ht0e] at hstep0
  refine ⟨Nat.find hP - 1, by omega, by omega, by omega, ?_⟩
  rw [ht0e]
  omega

/-- The crossed border always satisfies the endpoint-side straddle test. -/
def spanOK (line : Line ℚ) (g : ℕ) (b : Bool × ℕ × ℕ) : Prop :=
  if b.1 then spanV line g b.2.1 b.2.2 else spanH line g b.2.1 b.2.2

lemma pick_spanOK {line : Line ℚ} {g x y : ℕ} {a : Option Dir} {d : Dir} (hg : 0 < g)
    (h : pickDir line g x y a = some d) : spanOK line g (bidOf x y d) := by
  have hint := (pickDir_spec h).1.2
  cases d with
  | north =>
    rw [intersects_north_iff hg] at hint
    exact hint.2
  | east =>
    rw [intersects_east_iff hg] at hint
    exact hint.2
  | south =>
    rw [intersects_south_iff hg] at hint
    exact hint.2
  | west =>
    rw [intersects_west_iff hg] at hint
    exact hint.2

lemma spanOK_unique {line : Line ℚ} {g : ℕ} {v : Bool} {k m1 m2 : ℕ}
    (h1 : spanOK line g (v, k, m1)) (h2 : spanOK line g (v, k, m2)) : m1 = m2 := by
  cases v with
  | false =>
    simp only [spanOK, if_false, Bool.false_eq_true] at h1 h2
    exact spanH_unique h1 h2
  | true =>
    simp only [spanOK, if_true] at h1 h2
    exact spanV_unique h1 h2

lemma dir_of_inc_x {nx ny x y x' y' : ℕ} {dd : Dir}
    (h : moveDir nx ny x y dd = some (x', y')) (hx : x' = x + 1) :
    dd = .east ∧ y' = y := by
  rcases moveDir_rel h with ⟨h0, h1, h2⟩ | ⟨h0, h1, h2⟩ | ⟨h0, h1, h2⟩ | ⟨h0, h1, h2⟩
  · exact absurd hx (by omega)
  · exact ⟨h0, h2⟩
  · exact absurd hx (by omega)
  · exact absurd hx (by omega)

lemma dir_of_dec_x {nx ny x y x' y' : ℕ} {dd : Dir}
    (h : moveDir nx ny x y dd = some (x', y')) (hx : x = x' + 1) :
    dd = .west ∧ y' = y := by
  rcases moveDir_rel h with ⟨h0, h1, h2⟩ | ⟨h0, h1, h2⟩ | ⟨h0, h1, h2⟩ | ⟨h0, h1, h2⟩
  · exact absurd hx (by omega)
  · exact absurd hx (by omega)
  · exact absurd hx (by omega)
  · exact ⟨h0, h2⟩

lemma dir_of_inc_y {nx ny x y x' y' : ℕ} {dd : Dir}
    (h : moveDir nx ny x y dd = some (x', y')) (hy : y' = y + 1) :
    dd = .south ∧ x' = x := by
  rcases moveDir_rel h with ⟨h0, h1, h2⟩ | ⟨h0, h1, h2⟩ | ⟨h0, h1, h2⟩ | ⟨h0, h1, h2⟩
  · exact absurd hy (by omega)
  · exact absurd hy (by omega)
  · exact ⟨h0, h1⟩
  · exact absurd hy (by omega)

lemma dir_of_dec_y {nx ny x y x' y' : ℕ} {dd : Dir}
    (h : moveDir nx ny x y dd = some (x', y')) (hy : y = y' + 1) :
    dd = .north ∧ x' = x := by
  rcases moveDir_rel h with ⟨h0, h1, h2⟩ | ⟨h0, h1, h2⟩ | ⟨h0, h1, h2⟩ | ⟨h0, h1, h2⟩
  · exact ⟨h0, h1⟩
  · exact absurd hy (by omega)
  · exact absurd hy (by omega)
  · exact absurd hy (by omega)

/-- If a traversal revisits a cell, some physical border is crossed twice
strictly before the revisit time. -/
lemma revisit_repeat {line : Line ℚ} {g nx ny : ℕ} {fx fy : ℕ → ℕ}
    {fa : ℕ → Option Dir} {d : ℕ → Dir} {n : ℕ} (hg : 0 < g)
    (hpick : ∀ t, t < n → pickDir line g (fx t) (fy t) (fa t) = some (d t))
    (hmove : ∀ t, t < n → moveDir nx ny (fx t) (fy t) (d t) = some (fx (t + 1), fy (t + 1)))
    {t1 t2 : ℕ} (h12 : t1 + 2 ≤ t2) (ht2 : t2 < n)
    (hcx : fx t1 = fx t2) (hcy : fy t1 = fy t2) :
    ∃ p q, p < q ∧ q < t2 ∧
      bidOf (fx p) (fy p) (d p) = bidOf (fx q) (fy q) (d q) := by
  have hme := hmove (t2 - 1) (by omega)
  have he2 : t2 - 1 + 1 = t2 := by omega
  rw [he2] at hme
  by_cases hrev : (d (t2 - 1)).rev = d t1
  · refine ⟨t1, t2 - 1, by omega, by omega, ?_⟩
    rw [entry_bid hme, hrev, ← hcx, ← hcy]
  · have hm1 := hmove t1 (by omega)
    have hstepx : ∀ t, t1 + 1 ≤ t → t < t2 - 1 →
        fx (t + 1) = fx t ∨ fx (t + 1) = fx t + 1 ∨ fx t = fx (t + 1) + 1 := by
      intro t ht ht'
      rcases moveDir_rel (hmove t (by omega)) with ⟨-, h1, -⟩ | ⟨-, h1, -⟩ | ⟨-, h1, -⟩ | ⟨-, h1, -⟩ <;>
        omega
    have hstepy : ∀ t, t1 + 1 ≤ t → t < t2 - 1 →
        fy (t + 1) = fy t ∨ fy (t + 1) = fy t + 1 ∨ fy t = fy (t + 1) + 1 := by
      intro t ht ht'
      rcases moveDir_rel (hmove t (by omega)) with ⟨-, -, h2⟩ | ⟨-, -, h2⟩ | ⟨-, -, h2⟩ | ⟨-, -, h2⟩ <;>
        omega
    have hrel2 := moveDir_rel hme
    have hs1 := pick_spanOK hg (hpick t1 (by omega))
    cases hd1 : d t1 with
    | east =>
      rw [hd1] at hm1 hs1
      rcases moveDir_rel hm1 with ⟨h0, -, -⟩ | ⟨-, hx1, hy1⟩ | ⟨h0, -, -⟩ | ⟨h0, -, -⟩
      · exact absurd h0 (by decide)
      · have hfar : fx (t2 - 1) < fx t1 + 1 := by
          rcases hrel2 with ⟨-, hx2, -⟩ | ⟨-, hx2, -⟩ | ⟨-, hx2, -⟩ | ⟨h0, -, -⟩
          · omega
          · omega
          · omega
          · rw [h0, hd1] at hrev
            exact absurd (by decide) hrev
        obtain ⟨t', ht'a, ht'b, hKt, hKs⟩ :=
          exists_step_down (u := fx) (by omega : t1 + 1 ≤ t2 - 1) hstepx
            (by omega : fx t1 + 1 ≤ fx (t1 + 1)) hfar
        obtain ⟨hdw, hyeq⟩ := dir_of_dec_x (hmove t' (by omega)) (by omega)
        have hs2 := pick_spanOK hg (hpick t' (by omega))
        rw [hdw] at hs2
        simp only [bidOf] at hs1 hs2
        rw [(by omega : fx t' = fx t1 + 1)] at hs2
        have hyy := spanOK_unique hs1 hs2
        refine ⟨t1, t', by omega, by omega, ?_⟩
        rw [hd1, hdw]
        simp only [bidOf, Prod.mk.injEq]
        exact ⟨trivial, by omega, hyy⟩
      · exact absurd h0 (by decide)
      · exact absurd h0 (by decide)
    | west =>
      rw [hd1] at hm1 hs1
      rcases moveDir_rel hm1 with ⟨h0, -, -⟩ | ⟨h0, -, -⟩ | ⟨h0, -, -⟩ | ⟨-, hx1, hy1⟩
      · exact absurd h0 (by decide)
      · exact absurd h0 (by decide)
      · exact absurd h0 (by decide)
      · have hfar : fx t1 ≤ fx (t2 - 1) := by
          rcases hrel2 with ⟨-, hx2, -⟩ | ⟨h0, -, -⟩ | ⟨-, hx2, -⟩ | ⟨-, hx2, -⟩
          · omega
          · rw [h0, hd1] at hrev
            exact absurd (by decide) hrev
          · omega
          · omega
        obtain ⟨t', ht'a, ht'b, hKt, hKs⟩ :=
          exists_step_up (u := fx) (by omega : t1 + 1 ≤ t2 - 1) hstepx
            (by omega : fx (t1 + 1) < fx t1) hfar
        obtain ⟨hde, hyeq⟩ := dir_of_inc_x (hmove t' (by omega)) (by omega)
        have hs2 := pick_spanOK hg (hpick t' (by omega))
        rw [hde] at hs2
        simp only [bidOf] at hs1 hs2
        rw [(by omega : fx t' + 1 = fx t1)] at hs2
        have hyy := spanOK_unique hs1 hs2
        refine ⟨t1, t', by omega, by omega, ?_⟩
        rw [hd1, hde]
        simp only [bidOf, Prod.mk.injEq]
        exact ⟨trivial, by omega, hyy⟩
    | north =>
      rw [hd1] at hm1 hs1
      rcases moveDir_rel hm1 with ⟨-, hx1, hy1⟩ | ⟨h0, -, -⟩ | ⟨h0, -, -⟩ | ⟨h0, -, -⟩
      · have hfar : fy t1 ≤ fy (t2 - 1) := by
          rcases hrel2 with ⟨-, -, hy2⟩ | ⟨-, -, hy2⟩ | ⟨h0, -, -⟩ | ⟨-, -, hy2⟩
          · omega
          · omega
          · rw [h0, hd1] at hrev
            exact absurd (by decide) hrev
          · omega
        obtain ⟨t', ht'a, ht'b, hKt, hKs⟩ :=
          exists_step_up (u := fy) (by omega : t1 + 1 ≤ t2 - 1) hstepy
            (by omega : fy (t1 + 1) < fy t1) hfar
        obtain ⟨hds, hxeq⟩ := dir_of_inc_y (hmove t' (by omega)) (by omega)
        have hs2 := pick_spanOK hg (hpick t' (by omega))
        rw [hds] at hs2
        simp only [bidOf] at hs1 hs2
        rw [(by omega : fy t' + 1 = fy t1)] at hs2
        have hxx := spanOK_unique hs1 hs2
        refine ⟨t1, t', by omega, by omega, ?_⟩
        rw [hd1, hds]
        simp only [bidOf, Prod.mk.injEq]
        exact ⟨trivial, by omega, hxx⟩
      · exact absurd h0 (by decide)
      · exact absurd h0 (by decide)
      · exact absurd h0 (by decide)
    | south =>
      rw [hd1] at hm1 hs1
      rcases moveDir_rel hm1 with ⟨h0, -, -⟩ | ⟨h0, -, -⟩ | ⟨-, hx1, hy1⟩ | ⟨h0, -, -⟩
      · exact absurd h0 (by decide)
      · exact absurd h0 (by decide)
      · have hfar : fy (t2 - 1) < fy t1 + 1 := by
          rcases hrel2 with ⟨h0, -, -⟩ | ⟨-, -, hy2⟩ | ⟨-, -, hy2⟩ | ⟨-, -, hy2⟩
          · rw [h0, hd1] at hrev
            exact absurd (by decide) hrev
          · omega
          · omega
          · omega
        obtain ⟨t', ht'a, ht'b, hKt, hKs⟩ :=
          exists_step_down (u := fy) (by omega : t1 + 1 ≤ t2 - 1) hstepy
            (by omega : fy t1 + 1 ≤ fy (t1 + 1)) hfar
        obtain ⟨hdn, hxeq⟩ := dir_of_dec_y (hmove t' (by omega)) (by omega)
        have hs2 := pick_spanOK hg (hpick t' (by omega))
        rw [hdn] at hs2
        simp only [bidOf] at hs1 hs2
        rw [(by omega : fy t' = fy t1 + 1)] at hs2
        have hxx := spanOK_unique hs1 hs2
        refine ⟨t1, t', by omega, by omega, ?_⟩
        rw [hd1, hdn]
        simp only [bidOf, Prod.mk.injEq]
        exact ⟨trivial, by omega, hxx⟩
      · exact absurd h0 (by decide)

/-- No physical border is crossed twice during a traversal: the crossed
border identifiers are pairwise distinct. -/
lemma bids_nodup {line : Line ℚ} {g nx ny : ℕ} {fx fy : ℕ → ℕ}
    {fa : ℕ → Option Dir} {d : ℕ → Dir} {n : ℕ} (hg : 0 < g)
    (hpick : ∀ t, t < n → pickDir line g (fx t) (fy t) (fa t) = some (d t))
    (hmove : ∀ t, t < n → moveDir nx ny (fx t) (fy t) (d t) = some (fx (t + 1), fy (t + 1)))
    (harr : ∀ t, t < n → fa (t + 1) = some (d t)) :
    ∀ j, j < n → ∀ i, i < j →
      bidOf (fx i) (fy i) (d i) ≠ bidOf (fx j) (fy j) (d j) := by
  intro j
  induction j using Nat.strong_induction_on with
  | _ j ih =>
    intro hjn i hij hEq
    have hmi := hmove i (by omega)
    have hsi := pick_spanOK hg (hpick i (by omega))
    have hstepx : ∀ t, i + 1 ≤ t → t < j →
        fx (t + 1) = fx t ∨ fx (t + 1) = fx t + 1 ∨ fx t = fx (t + 1) + 1 := by
      intro t ht ht'
      rcases moveDir_rel (hmove t (by omega)) with ⟨-, h1, -⟩ | ⟨-, h1, -⟩ | ⟨-, h1, -⟩ | ⟨-, h1, -⟩ <;>
        omega
    have hstepy : ∀ t, i + 1 ≤ t → t < j →
        fy (t + 1) = fy t ∨ fy (t + 1) = fy t + 1 ∨ fy t = fy (t + 1) + 1 := by
      intro t ht ht'
      rcases moveDir_rel (hmove t (by omega)) with ⟨-, -, h2⟩ | ⟨-, -, h2⟩ | ⟨-, -, h2⟩ | ⟨-, -, h2⟩ <;>
        omega
    cases hdi : d i with
    | north =>
      cases hdj : d j with
      | north =>
        rw [hdi, hdj] at hEq
        simp only [bidOf, Prod.mk.injEq, eq_self_iff_true, true_and] at hEq
        obtain ⟨hK, hM⟩ := hEq
        rw [hdi, moveDir] at hmi
        rw [hdi] at hsi
        simp only [bidOf] at hsi
        split_ifs at hmi with h0
        · rw [Option.some_inj, Prod.mk.injEq] at hmi
          obtain ⟨hmi1, hmi2⟩ := hmi
          obtain ⟨t', ht'a, ht'b, hKt, hKs⟩ :=
            exists_step_up (u := fy) (by omega : i + 1 ≤ j) hstepy
              (by omega : fy (i + 1) < fy i) (by omega : fy i ≤ fy j)
          obtain ⟨hds, hxeq⟩ := dir_of_inc_y (hmove t' (by omega)) (by omega)
          have hs2 := pick_spanOK hg (hpick t' (by omega))
          rw [hds] at hs2
          simp only [bidOf] at hs2
          rw [(by omega : fy t' + 1 = fy i)] at hs2
          have hxx := spanOK_unique hsi hs2
          exact ih t' ht'b (by omega) i (by omega)
            (by rw [hdi, hds]; simp only [bidOf, Prod.mk.injEq]; exact ⟨trivial, by omega, hxx⟩)
      | east =>
        rw [hdi, hdj] at hEq
        simp only [bidOf, Prod.mk.injEq, Bool.false_eq_true, Bool.true_eq_false,
          false_and] at hEq
      | south =>
        rw [hdi, hdj] at hEq
        simp only [bidOf, Prod.mk.injEq, eq_self_iff_true, true_and] at hEq
        obtain ⟨hK, hM⟩ := hEq
        rw [hdi, moveDir] at hmi
        split_ifs at hmi with h0
        · rw [Option.some_inj, Prod.mk.injEq] at hmi
          obtain ⟨hmi1, hmi2⟩ := hmi
          have hcx : fx (i + 1) = fx j := by omega
          have hcy : fy (i + 1) = fy j := by omega
          have hne : i + 1 ≠ j := by
            intro hj1
            have hfa := harr i (by omega)
            rw [hj1] at hfa
            have hpr := hpick j (by omega)
            rw [hfa] at hpr
            have hnr := pickDir_not_rev hpr
            rw [hdi, hdj] at hnr
            exact hnr (by decide)
          have e1 : fx (i + 1 + 1) = fx (i + 2) := rfl
          have e2 : fy (i + 1 + 1) = fy (i + 2) := rfl
          have hne2 : i + 2 ≠ j := by
            intro hj2
            rw [← hj2] at hcx hcy
            rcases moveDir_rel (hmove (i + 1) (by omega)) with ⟨-, h1, h2⟩ | ⟨-, h1, h2⟩ | ⟨-, h1, h2⟩ | ⟨-, h1, h2⟩ <;>
              omega
          obtain ⟨p, q, hpq, hqj, hbid⟩ :=
            revisit_repeat hg hpick hmove (by omega : i + 1 + 2 ≤ j) (by omega : j < n) hcx hcy
          exact ih q hqj (by omega) p hpq hbid
      | west =>
        rw [hdi, hdj] at hEq
        simp only [bidOf, Prod.mk.injEq, Bool.false_eq_true, Bool.true_eq_false,
          false_and] at hEq
    | east =>
      cases hdj : d j with
      | north =>
        rw [hdi, hdj] at hEq
        simp only [bidOf, Prod.mk.injEq, Bool.false_eq_true, Bool.true_eq_false,
          false_and] at hEq
      | east =>
        rw [hdi, hdj] at hEq
        simp only [bidOf, Prod.mk.injEq, eq_self_iff_true, true_and] at hEq
        obtain ⟨hK, hM⟩ := hEq
        rw [hdi, moveDir] at hmi
        rw [hdi] at hsi
        simp only [bidOf] at hsi
        split_ifs at hmi with h0
        · rw [Option.some_inj, Prod.mk.injEq] at hmi
          obtain ⟨hmi1, hmi2⟩ := hmi
          obtain ⟨t', ht'a, ht'b, hKt, hKs⟩ :=
            exists_step_down (u := fx) (by omega : i + 1 ≤ j) hstepx
              (by omega : fx i + 1 ≤ fx (i + 1)) (by omega : fx j < fx i + 1)
          obtain ⟨hdw, hyeq⟩ := dir_of_dec_x (hmove t' (by omega)) (by omega)
          have hs2 := pick_spanOK hg (hpick t' (by omega))
          rw [hdw] at hs2
          simp only [bidOf] at hs2
          rw [(by omega : fx t' = fx i + 1)] at hs2
          have hyy := spanOK_unique hsi hs2
          exact ih t' ht'b (by omega) i (by omega)
            (by rw [hdi, hdw]; simp only [bidOf, Prod.mk.injEq]; exact ⟨trivial, by omega, hyy⟩)
      | south =>
        rw [hdi, hdj] at hEq
        simp only [bidOf, Prod.mk.injEq, Bool.false_eq_true, Bool.true_eq_false,
          false_and] at hEq
      | west =>
        rw [hdi, hdj] at hEq
        simp only [bidOf, Prod.mk.injEq, eq_self_iff_true, true_and] at hEq
        obtain ⟨hK, hM⟩ := hEq
        rw [hdi, moveDir] at hmi
        split_ifs at hmi with h0
        · rw [Option.some_inj, Prod.mk.injEq] at hmi
          obtain ⟨hmi1, hmi2⟩ := hmi
          have hcx : fx (i + 1) = fx j := by omega
          have hcy : fy (i + 1) = fy j := by omega
          have hne : i + 1 ≠ j := by
            intro hj1
            have hfa := harr i (by omega)
            rw [hj1] at hfa
            have hpr := hpick j (by omega)
            rw [hfa] at hpr
            have hnr := pickDir_not_rev hpr
            rw [hdi, hdj] at hnr
            exact hnr (by decide)
          have e1 : fx (i + 1 + 1) = fx (i + 2) := rfl
          have e2 : fy (i + 1 + 1) = fy (i + 2) := rfl
          have hne2 : i + 2 ≠ j := by
            intro hj2
            rw [← hj2] at hcx hcy
            rcases moveDir_rel (hmove (i + 1) (by omega)) with ⟨-, h1, h2⟩ | ⟨-, h1, h2⟩ | ⟨-, h1, h2⟩ | ⟨-, h1, h2⟩ <;>
              omega
          obtain ⟨p, q, hpq, hqj, hbid⟩ :=
            revisit_repeat hg hpick hmove (by omega : i + 1 + 2 ≤ j) (by omega : j < n) hcx hcy
          exact ih q hqj (by omega) p hpq hbid
    | south =>
      cases hdj : d j with
      | north =>
        rw [hdi, hdj] at hEq
        simp only [bidOf, Prod.mk.injEq, eq_self_iff_true, true_and] at hEq
        obtain ⟨hK, hM⟩ := hEq
        rw [hdi, moveDir] at hmi
        split_ifs at hmi with h0
        · rw [Option.some_inj, Prod.mk.injEq] at hmi
          obtain ⟨hmi1, hmi2⟩ := hmi
          have hcx : fx (i + 1) = fx j := by omega
          have hcy : fy (i + 1) = fy j := by omega
          have hne : i + 1 ≠ j := by
            intro hj1
            have hfa := harr i (by omega)
            rw [hj1] at hfa
            have hpr := hpick j (by omega)
            rw [hfa] at hpr
            have hnr := pickDir_not_rev hpr
            rw [hdi, hdj] at hnr
            exact hnr (by decide)
          have e1 : fx (i + 1 + 1) = fx (i + 2) := rfl
          have e2 : fy (i + 1 + 1) = fy (i + 2) := rfl
          have hne2 : i + 2 ≠ j := by
            intro hj2
            rw [← hj2] at hcx hcy
            rcases moveDir_rel (hmove (i + 1) (by omega)) with ⟨-, h1, h2⟩ | ⟨-, h1, h2⟩ | ⟨-, h1, h2⟩ | ⟨-, h1, h2⟩ <;>
              omega
          obtain ⟨p, q, hpq, hqj, hbid⟩ :=
            revisit_repeat hg hpick hmove (by omega : i + 1 + 2 ≤ j) (by omega : j < n) hcx hcy
          exact ih q hqj (by omega) p hpq hbid
      | east =>
        rw [hdi, hdj] at hEq
        simp only [bidOf, Prod.mk.injEq, Bool.false_eq_true, Bool.true_eq_false,
          false_and] at hEq
      | south =>
        rw [hdi, hdj] at hEq
        simp only [bidOf, Prod.mk.injEq, eq_self_iff_true, true_and] at hEq
        obtain ⟨hK, hM⟩ := hEq
        rw [hdi, moveDir] at hmi
        rw [hdi] at hsi
        simp only [bidOf] at hsi
        split_ifs at hmi with h0
        · rw [Option.some_inj, Prod.mk.injEq] at hmi
          obtain ⟨hmi1, hmi2⟩ := hmi
          obtain ⟨t', ht'a, ht'b, hKt, hKs⟩ :=
            exists_step_down (u := fy) (by omega : i + 1 ≤ j) hstepy
              (by omega : fy i + 1 ≤ fy (i + 1)) (by omega : fy j < fy i + 1)
          obtain ⟨hdn, hxeq⟩ := dir_of_dec_y (hmove t' (by omega)) (by omega)
          have hs2 := pick_spanOK hg (hpick t' (by omega))
          rw [hdn] at hs2
          simp only [bidOf] at hs2
          rw [(by omega : fy t' = fy i + 1)] at hs2
          have hxx := spanOK_unique hsi hs2
          exact ih t' ht'b (by omega) i (by omega)
            (by rw [hdi, hdn]; simp only [bidOf, Prod.mk.injEq]; exact ⟨trivial, by omega, hxx⟩)
      | west =>
        rw [hdi, hdj] at hEq
        simp only [bidOf, Prod.mk.injEq, Bool.false_eq_true, Bool.true_eq_false,
          false_and] at hEq
    | west =>
      cases hdj : d j with
      | north =>
        rw [hdi, hdj] at hEq
        simp only [bidOf, Prod.mk.injEq, Bool.false_eq_true, Bool.true_eq_false,
          false_and] at hEq
      | east =>
        rw [hdi, hdj] at hEq
        simp only [bidOf, Prod.mk.injEq, eq_self_iff_true, true_and] at hEq
        obtain ⟨hK, hM⟩ := hEq
        rw [hdi, moveDir] at hmi
        split_ifs at hmi with h0
        · rw [Option.some_inj, Prod.mk.injEq] at hmi
          obtain ⟨hmi1, hmi2⟩ := hmi
          have hcx : fx (i + 1) = fx j := by omega
          have hcy : fy (i + 1) = fy j := by omega
          have hne : i + 1 ≠ j := by
            intro hj1
            have hfa := harr i (by omega)
            rw [hj1] at hfa
            have hpr := hpick j (by omega)
            rw [hfa] at hpr
            have hnr := pickDir_not_rev hpr
            rw [hdi, hdj] at hnr
            exact hnr (by decide)
          have e1 : fx (i + 1 + 1) = fx (i + 2) := rfl
          have e2 : fy (i + 1 + 1) = fy (i + 2) := rfl
          have hne2 : i + 2 ≠ j := by
            intro hj2
            rw [← hj2] at hcx hcy
            rcases moveDir_rel (hmove (i + 1) (by omega)) with ⟨-, h1, h2⟩ | ⟨-, h1, h2⟩ | ⟨-, h1, h2⟩ | ⟨-, h1, h2⟩ <;>
              omega
          obtain ⟨p, q, hpq, hqj, hbid⟩ :=
            revisit_repeat hg hpick hmove (by omega : i + 1 + 2 ≤ j) (by omega : j < n) hcx hcy
          exact ih q hqj (by omega) p hpq hbid
      | south =>
        rw [hdi, hdj] at hEq
        simp only [bidOf, Prod.mk.injEq, Bool.false_eq_true, Bool.true_eq_false,
          false_and] at hEq
      | west =>
        rw [hdi, hdj] at hEq
        simp only [bidOf, Prod.mk.injEq, eq_self_iff_true, true_and] at hEq
        obtain ⟨hK, hM⟩ := hEq
        rw [hdi, moveDir] at hmi
        rw [hdi] at hsi
        simp only [bidOf] at hsi
        split_ifs at hmi with h0
        · rw [Option.some_inj, Prod.mk.injEq] at hmi
          obtain ⟨hmi1, hmi2⟩ := hmi
          obtain ⟨t', ht'a, ht'b, hKt, hKs⟩ :=
            exists_step_up (u := fx) (by omega : i + 1 ≤ j) hstepx
              (by omega : fx (i + 1) < fx i) (by omega : fx i ≤ fx j)
          obtain ⟨hde, hyeq⟩ := dir_of_inc_x (hmove t' (by omega)) (by omega)
          have hs2 := pick_spanOK hg (hpick t' (by omega))
          rw [hde] at hs2
          simp only [bidOf] at hs2
          rw [(by omega : fx t' + 1 = fx i)] at hs2
          have hyy := spanOK_unique hsi hs2
          exact ih t' ht'b (by omega) i (by omega)
            (by rw [hdi, hde]; simp only [bidOf, Prod.mk.injEq]; exact ⟨trivial, by omega, hyy⟩)

/-- All cell-border identifiers inside the grid extent (including the outer
boundary lines). -/
def allBids (nx ny : ℕ) : List (Bool × ℕ × ℕ) :=
  ((List.range (nx + 1)).flatMap fun k =>
    (List.range ny).map fun m => ((true, k, m) : Bool × ℕ × ℕ)) ++
  ((List.range (ny + 1)).flatMap fun k =>
    (List.range nx).map fun m => ((false, k, m) : Bool × ℕ × ℕ))

/-- A border identifier is crossable when the probe segment intersects its
physical segment in one of the two orientations used by the cell map. -/
def bidCrossable (line : Line ℚ) (g : ℕ) : Bool × ℕ × ℕ → Bool
  | (true, k, m) => line.intersects (cellBorder g k m .west)
  | (false, k, m) =>
      line.intersects (cellBorder g m k .north) || line.intersects (cellBorder g m (k - 1) .south)

lemma bid_mem_allBids {nx ny x y : ℕ} (hx : x < nx) (hy : y < ny) (d : Dir) :
    bidOf x y d ∈ allBids nx ny := by
  cases d <;>
    simp only [bidOf, allBids, List.mem_append, List.mem_flatMap, List.mem_map, List.mem_range]
  · exact Or.inr ⟨y, by omega, x, by omega, rfl⟩
  · exact Or.inl ⟨x + 1, by omega, y, by omega, rfl⟩
  · exact Or.inr ⟨y + 1, by omega, x, by omega, rfl⟩
  · exact Or.inl ⟨x, by omega, y, by omega, rfl⟩

lemma pick_bidCrossable {line : Line ℚ} {g x y : ℕ} {a : Option Dir} {d : Dir}
    (h : pickDir line g x y a = some d) :
    bidCrossable line g (bidOf x y d) = true := by
  have hint := (pickDir_spec h).1.2
  cases d with
  | north => simp only [bidOf, bidCrossable, hint, Bool.true_or]
  | east =>
    have he : cellBorder g (x + 1) y .west = cellBorder g x y .east := rfl
    simp only [bidOf, bidCrossable, he, hint]
  | south =>
    have hs : cellBorder g x (y + 1 - 1) .south = cellBorder g x y .south := rfl
    simp only [bidOf, bidCrossable, hs, hint, Bool.or_true]
  | west => simp only [bidOf, bidCrossable, hint]

/-- The number of traversal steps is at most the number of crossable borders. -/
lemma bids_length_le {line : Line ℚ} {g nx ny : ℕ} {fx fy : ℕ → ℕ}
    {fa : ℕ → Option Dir} {d : ℕ → Dir} {n : ℕ} (hg : 0 < g)
    (hval : ∀ t, t < n → fx t < nx ∧ fy t < ny)
    (hpick : ∀ t, t < n → pickDir line g (fx t) (fy t) (fa t) = some (d t))
    (hmove : ∀ t, t < n → moveDir nx ny (fx t) (fy t) (d t) = some (fx (t + 1), fy (t + 1)))
    (harr : ∀ t, t < n → fa (t + 1) = some (d t)) :
    n ≤ (allBids nx ny).countP (bidCrossable line g) := by
  classical
  have hnd : ((List.range n).map fun t => bidOf (fx t) (fy t) (d t)).Nodup := by
    rw [List.Nodup, List.pairwise_iff_get]
    intro i j hij
    have hin : (i : ℕ) < n := by
      have := i.isLt
      simpa using this
    have hjn : (j : ℕ) < n := by
      have := j.isLt
      simpa using this
    simp only [List.get_map, List.get_range]
    exact bids_nodup hg hpick hmove harr (j : ℕ) hjn (i : ℕ) hij
  have hsub : ((List.range n).map fun t => bidOf (fx t) (fy t) (d t)) ⊆
      (allBids nx ny).filter (bidCrossable line g) := by
    intro b hbmem
    simp only [List.mem_map, List.mem_range] at hbmem
    obtain ⟨t, htn, rfl⟩ := hbmem
    rw [List.mem_filter]
    exact ⟨bid_mem_allBids (hval t htn).1 (hval t htn).2 _, pick_bidCrossable (hpick t htn)⟩
  have hlen := (hnd.subperm hsub).length_le
  rw [List.length_map, List.length_range, ← List.countP_eq_length_filter] at hlen
  exact hlen

/-- Extracting the step sequence of a fuel-exhausted traversal. -/
lemma none_seq {nx ny g : ℕ} {walls : ℕ × ℕ → Dir → Option (Line ℚ)} {line : Line ℚ}
    (hg : 0 < g) (hb : inBounds nx ny g line) :
    ∀ (fuel x y : ℕ) (a : Option Dir), x < nx → y < ny →
    find_intersection nx ny g walls line fuel (x, y) a = none →
    ∃ (fx fy : ℕ → ℕ) (fa : ℕ → Option Dir) (d : ℕ → Dir),
      fx 0 = x ∧ fy 0 = y ∧ fa 0 = a ∧
      (∀ t, t < fuel → fx t < nx ∧ fy t < ny) ∧
      (∀ t, t < fuel → pickDir line g (fx t) (fy t) (fa t) = some (d t)) ∧
      (∀ t, t < fuel → moveDir nx ny (fx t) (fy t) (d t) = some (fx (t + 1), fy (t + 1))) ∧
      (∀ t, t < fuel → fa (t + 1) = some (d t)) := by
  intro fuel
  induction fuel with
  | zero =>
    intro x y a hx hy h
    exact ⟨fun _ => x, fun _ => y, fun _ => a, fun _ => .north, rfl, rfl, rfl,
      fun t ht => absurd ht (by omega), fun t ht => absurd ht (by omega),
      fun t ht => absurd ht (by omega), fun t ht => absurd ht (by omega)⟩
  | succ fuel ih =>
    intro x y a hx hy h
    cases hpk : pickDir line g x y a with
    | none =>
      simp only [find_intersection, hpk] at h
      exact Option.noConfusion h
    | some d0 =>
      cases hw : walls (x, y) d0 with
      | some w =>
        simp only [find_intersection, hpk, hw] at h
        exact Option.noConfusion h
      | none =>
        obtain ⟨x', y', hmv, hx', hy'⟩ := moveDir_of_pick hg hb hx hy hpk
        simp only [find_intersection, hpk, hw, hmv] at h
        obtain ⟨fx, fy, fa, d, h0x, h0y, h0a, hval, hpick, hmove, harr⟩ :=
          ih x' y' (some d0) hx' hy' h
        refine ⟨fun t => match t with | 0 => x | t' + 1 => fx t',
                fun t => match t with | 0 => y | t' + 1 => fy t',
                fun t => match t with | 0 => a | t' + 1 => fa t',
                fun t => match t with | 0 => d0 | t' + 1 => d t',
                rfl, rfl, rfl, ?_, ?_, ?_, ?_⟩
        · intro t ht
          cases t with
          | zero => exact ⟨hx, hy⟩
          | succ t' => exact hval t' (by omega)
        · intro t ht
          cases t with
          | zero => exact hpk
          | succ t' => exact hpick t' (by omega)
        · intro t ht
          cases t with
          | zero =>
            show moveDir nx ny x y d0 = some (fx 0, fy 0)
            rw [h0x, h0y]
            exact hmv
          | succ t' => exact hmove t' (by omega)
        · intro t ht
          cases t with
          | zero =>
            show fa 0 = some d0
            exact h0a
          | succ t' => exact harr t' (by omega)

/-- C6: for every probe segment strictly inside the grid bounds and every
valid starting cell, the recursive query Grid::find_intersection terminates:
the rev-exclusion rule prevents re-entering the border just crossed, every
recursion step crosses a pairwise-distinct crossable cell border, and hence
any recursion budget exceeding the number of cell borders the probe segment
can cross within the grid extent is never exhausted - the query returns a
result instead of running out of fuel or stepping off the grid. -/
theorem C6_termination_depth_bound (nx ny g : ℕ)
    (walls : ℕ × ℕ → Dir → Option (Line ℚ)) (line : Line ℚ) (x y fuel : ℕ)
    (hg : 0 < g) (hb : inBounds nx ny g line) (hx : x < nx) (hy : y < ny)
    (hfuel : (allBids nx ny).countP (bidCrossable line g) < fuel) :
    (find_intersection nx ny g walls line fuel (x, y) none).isSome := by
  by_contra hcon
  rw [Option.not_isSome_iff_eq_none] at hcon
  obtain ⟨fx, fy, fa, d, h0x, h0y, h0a, hval, hpick, hmove, harr⟩ :=
    none_seq hg hb fuel x y none hx hy hcon
  have hle := bids_length_le hg hval hpick hmove harr
  omega

theorem C6_termination_depth_bound_witness :
    (0 < 1 ∧ inBounds 2 2 1 ⟨⟨1/2, 1/2⟩, ⟨3/2, 3/2⟩⟩ ∧ 0 < 2 ∧ 0 < 2 ∧
      (allBids 2 2).countP (bidCrossable ⟨⟨1/2, 1/2⟩, ⟨3/2, 3/2⟩⟩ 1) <
        (allBids 2 2).countP (bidCrossable ⟨⟨1/2, 1/2⟩, ⟨3/2, 3/2⟩⟩ 1) + 1) ∧
    (find_intersection 2 2 1 (fun _ _ => none) ⟨⟨1/2, 1/2⟩, ⟨3/2, 3/2⟩⟩
      ((allBids 2 2).countP (bidCrossable ⟨⟨1/2, 1/2⟩, ⟨3/2, 3/2⟩⟩ 1) + 1)
      (0, 0) none).isSome :=
  ⟨⟨by norm_num, by norm_num [inBounds], by norm_num, by norm_num, Nat.lt_succ_self _⟩,
    C6_termination_depth_bound 2 2 1 (fun _ _ => none) ⟨⟨1/2, 1/2⟩, ⟨3/2, 3/2⟩⟩ 0 0 _
      (by norm_num) (by norm_num [inBounds]) (by norm_num) (by norm_num)
      (Nat.lt_succ_self _)⟩

end DL
